import Mathlib

/-!
Verification of the `fei` ECS core against its specification.

The development shallowly embeds the data structures and operations of
`crates/fei-ecs` (entity allocator, archetype-based component store, change
marks, resource table) as executable Lean definitions and proves the spec's
claims about them.

Modeling conventions:
* Machine integers (`u32`, `usize`) are modeled as `Nat`.  Where Rust performs
  a lossy `as u32` cast the model applies `% 2 ^ 32` explicitly.  Plain
  arithmetic (`+`, `-`) on `u32`/`usize` is modeled on `Nat`, matching the
  debug-assertions semantics of the crate where overflow/underflow aborts the
  program instead of wrapping.
* Rust `HashMap`s and the crate's `SparseSet` map are modeled as association
  lists with no-duplicate-key well-formedness; `FixedBitSet`s are modeled as
  `Finset Nat`.
* Type-erased component values are modeled at per-field granularity: the
  memory behind a `PtrOwned` component-set value is a function from byte
  offset to an abstract value (`Val`), and a table column or sparse-set slot
  stores one such value.  Rust guarantees that distinct non-zero-sized fields
  of a set occupy distinct offsets; this enters the well-formedness predicate
  as injectivity of the recorded offsets.
* `unsafe fn` preconditions (`get_unchecked` index bounds, live entity
  handles) appear as hypotheses of the theorems; the corresponding Lean
  definitions are total via `getD` defaults.
-/

set_option maxHeartbeats 1600000
set_option maxRecDepth 8000

namespace Fei

/-- Abstract component value (the bytes of one field of a component set). -/
abbrev Val := Nat

/-! ### Association-list helpers

These model the crate's `SparseSet<I, T>` map and `FxHashMap` as far as the
claims need them: keyed lookup, keyed replace-or-append, keywithin removal. -/

/-- Lookup in an association list (first matching key). -/
def alGet {κ α : Type} [DecidableEq κ] (l : List (κ × α)) (k : κ) : Option α :=
  match l with
  | [] => none
  | (k', v) :: rest => if k' = k then some v else alGet rest k

/-- Replace the value at a key, or append the binding if the key is absent. -/
def alPut {κ α : Type} [DecidableEq κ] (l : List (κ × α)) (k : κ) (v : α) : List (κ × α) :=
  match l with
  | [] => [(k, v)]
  | (k', v') :: rest => if k' = k then (k', v) :: rest else (k', v') :: alPut rest k v

/-- Remove the binding at a key (no-op when absent). -/
def alRemove {κ α : Type} [DecidableEq κ] (l : List (κ × α)) (k : κ) : List (κ × α) :=
  match l with
  | [] => []
  | (k', v') :: rest => if k' = k then rest else (k', v') :: alRemove rest k

/-- Apply a function to the value stored at a key (no-op when absent). -/
def alModify {κ α : Type} [DecidableEq κ] (l : List (κ × α)) (k : κ) (f : α → α) :
    List (κ × α) :=
  match l with
  | [] => []
  | (k', v) :: rest =>
    if k' = k then (k', f v) :: alModify rest k f else (k', v) :: alModify rest k f

/-- Modify the element at an index of a list (no-op out of range). -/
def listModify {α : Type} (l : List α) (i : Nat) (f : α → α) : List α :=
  match l.get? i with
  | some x => l.set i (f x)
  | none => l

/-- `Vec::swap_remove`: replace the element at `i` with the last element and
pop.  (Rust panics when `i` is out of bounds; the model is total and the
bounds enter theorems as hypotheses.) -/
def swapRemove {α : Type} (l : List α) (i : Nat) : List α :=
  match l.getLast? with
  | none => l
  | some last => (l.set i last).dropLast

/-! ### Entity allocator (`fei-ecs/src/entity/collection.rs`) -/

/-- Entity handle: a pair of 32-bit `id` and `generation`
(`Entity` in `entity/collection.rs`). -/
structure Entity where
  id : Nat
  generation : Nat
deriving DecidableEq

instance : Inhabited Entity := ⟨⟨0, 0⟩⟩

/-- `EntityLocation`: archetype id plus optional table row. -/
structure EntityLocation where
  archetypeId : Nat
  tableIndex : Option Nat
deriving DecidableEq

/-- `EntityIndex`: per-id generation and optional location. -/
structure EntityIndex where
  generation : Nat
  location : Option EntityLocation
deriving DecidableEq

instance : Inhabited EntityIndex := ⟨⟨0, none⟩⟩

/-- The allocator state `Entities`: atomic reservation counter, the `all`
table, and the `free` queue (`VecDeque` modeled as a list, front = head). -/
structure Entities where
  reservoir : Nat
  all : List EntityIndex
  free : List Entity
deriving DecidableEq

namespace Entities

/-- `Entities::MAX = isize::MAX as usize / mem::align_of::<Entity>()`.
`Entity` is two `u32`s, so its alignment is 4. -/
def MAX : Nat := (2 ^ 63 - 1) / 4

/-- `Entities::contains`. -/
def contains (s : Entities) (e : Entity) : Bool :=
  match s.all.get? e.id with
  | some idx => e.generation = idx.generation
  | none => false

/-- `SpawnError`. -/
inductive SpawnError where
  | tooMany
  | notFlushed
deriving DecidableEq

/-- `Entities::spawn`.  Returns the result together with the new state. -/
def spawn (s : Entities) : Except SpawnError Entity × Entities :=
  if s.reservoir ≠ 0 then (.error .notFlushed, s)
  else if MAX ≤ s.all.length then (.error .tooMany, s)
  else
    match s.free with
    | entity :: rest =>
      let idx := s.all.getD entity.id default
      (.ok entity,
        { s with all := s.all.set entity.id ⟨idx.generation - 1, none⟩, free := rest })
    | [] =>
      let all' := s.all ++ [⟨0, none⟩]
      (.ok ⟨all'.length % 2 ^ 32 - 1, 0⟩, { s with all := all' })

/-- `Entities::reserve`.  The failed branch restores the counter
(`fetch_add` followed by `fetch_sub`), so it nets to no state change. -/
def reserve (s : Entities) : Except Unit Entity × Entities :=
  if s.reservoir < MAX - s.all.length + s.free.length then
    (.ok (if s.reservoir < s.free.length then s.free.getD s.reservoir default
          else ⟨(s.all.length + s.reservoir - s.free.length) % 2 ^ 32, 0⟩),
      { s with reservoir := s.reservoir + 1 })
  else (.error (), s)

/-- `Entities::reserve_many` with the handles of its `ReserveEntities`
iterator fully drained.  The guard mirrors the source's `u32` arithmetic:
`count` must fit `u32`, `start + count - 1` wraps, and
`(MAX - all_len + free_len) as u32` truncates. -/
def reserveMany (s : Entities) (count : Nat) : Except Unit (List Entity) × Entities :=
  if 2 ^ 32 ≤ count then (.error (), s)
  else if (s.reservoir + count + 2 ^ 32 - 1) % 2 ^ 32 <
      (MAX - s.all.length + s.free.length) % 2 ^ 32 then
    (.ok ((List.range count).map fun j =>
        if s.reservoir + j < s.free.length then s.free.getD (s.reservoir + j) default
        else ⟨(s.all.length + (s.reservoir + j) - s.free.length) % 2 ^ 32, 0⟩),
      { s with reservoir := s.reservoir + count })
  else (.error (), s)

/-- `Entities::free` (named `freeEnt` because `free` is the queue field). -/
def freeEnt (s : Entities) (e : Entity) : Entities :=
  match s.all.get? e.id with
  | some idx =>
    if idx.generation = e.generation then
      { s with
        all := s.all.set e.id ⟨idx.generation + 2, idx.location⟩,
        free := s.free ++ [⟨e.id, e.generation + 1⟩] }
    else s
  | none => s

/-- `Entities::free_many`. -/
def freeMany (s : Entities) (es : List Entity) : Entities :=
  es.foldl freeEnt s

/-- `Entities::flush`. -/
def flush (s : Entities) : Entities :=
  let reserved := s.reservoir
  if reserved = 0 then { s with reservoir := 0 }
  else
    let freeLen := s.free.length
    let k := min reserved freeLen
    let all1 := (s.free.take k).foldl
      (fun acc f => acc.set f.id ⟨(acc.getD f.id default).generation - 1, none⟩) s.all
    let all2 :=
      if freeLen < reserved then all1 ++ List.replicate (reserved - freeLen) default
      else all1
    { reservoir := 0, all := all2, free := s.free.drop k }

end Entities

/-! ### Basic lemmas about the helper containers -/

theorem get?_set_self {α : Type} (l : List α) (i : Nat) (a : α) (h : i < l.length) :
    (l.set i a).get? i = some a := by
  induction l generalizing i with
  | nil => simp at h
  | cons x xs ih =>
    cases i with
    | zero => simp [List.set]
    | succ n => simpa [List.set] using ih n (by simp at h; omega)

theorem get?_set_ne {α : Type} (l : List α) (i j : Nat) (a : α) (h : i ≠ j) :
    (l.set i a).get? j = l.get? j := by
  induction l generalizing i j with
  | nil => simp
  | cons x xs ih =>
    cases i with
    | zero => cases j with
      | zero => exact absurd rfl h
      | succ m => simp [List.set]
    | succ n => cases j with
      | zero => simp [List.set]
      | succ m => simpa [List.set] using ih n m (by omega)

theorem getD_eq_get? {α : Type} (l : List α) (i : Nat) (d : α) :
    l.getD i d = (l.get? i).getD d := by
  induction l generalizing i with
  | nil => simp [List.getD]
  | cons x xs ih =>
    cases i with
    | zero => simp [List.getD]
    | succ n => simpa [List.getD] using ih n

theorem alGet_put_self {κ α : Type} [DecidableEq κ] (l : List (κ × α)) (k : κ) (v : α) :
    alGet (alPut l k v) k = some v := by
  induction l with
  | nil => simp [alGet, alPut]
  | cons p rest ih =>
    by_cases h : p.1 = k
    · simp [alGet, alPut, h]
    · simp [alGet, alPut, h, ih]

theorem alGet_put_ne {κ α : Type} [DecidableEq κ] (l : List (κ × α)) (k k' : κ) (v : α)
    (h : k ≠ k') : alGet (alPut l k v) k' = alGet l k' := by
  induction l with
  | nil => simp [alGet, alPut, h]
  | cons p rest ih =>
    obtain ⟨pk, pv⟩ := p
    by_cases hp : pk = k
    · subst hp
      simp [alGet, alPut, h]
    · by_cases hp' : pk = k'
      · subst hp'
        simp [alGet, alPut, Ne.symm h, hp]
      · simp [alGet, alPut, hp, hp', ih]

theorem alGet_modify_self {κ α : Type} [DecidableEq κ] (l : List (κ × α)) (k : κ) (f : α → α) :
    alGet (alModify l k f) k = (alGet l k).map f := by
  induction l with
  | nil => simp [alGet, alModify]
  | cons p rest ih =>
    obtain ⟨pk, pv⟩ := p
    by_cases h : pk = k
    · subst h
      simp [alModify, alGet]
    · simp [alModify, alGet, h, ih]

theorem alGet_modify_ne {κ α : Type} [DecidableEq κ] (l : List (κ × α)) (k k' : κ) (f : α → α)
    (h : k ≠ k') : alGet (alModify l k f) k' = alGet l k' := by
  induction l with
  | nil => simp [alGet, alModify]
  | cons p rest ih =>
    obtain ⟨pk, pv⟩ := p
    by_cases hp : pk = k
    · subst hp
      simp [alModify, alGet, h, ih]
    · by_cases hp' : pk = k'
      · subst hp'
        simp [alModify, alGet, hp]
      · simp [alModify, alGet, hp, hp', ih]

theorem alGet_remove_self {κ α : Type} [DecidableEq κ] (l : List (κ × α)) (k : κ)
    (hnd : (l.map Prod.fst).Nodup) : alGet (alRemove l k) k = none := by
  induction l with
  | nil => simp [alGet, alRemove]
  | cons p rest ih =>
    simp only [List.map_cons, List.nodup_cons] at hnd
    by_cases h : p.1 = k
    · subst h
      cases hrest : alGet rest p.1 with
      | none => simp [alRemove, hrest]
      | some v =>
        exfalso
        have : p.1 ∈ rest.map Prod.fst := by
          clear hnd ih
          induction rest with
          | nil => simp [alGet] at hrest
          | cons q qs ihq =>
            by_cases hq : q.1 = p.1
            · simp [hq]
            · simp only [alGet, hq, if_false] at hrest
              simpa using Or.inr (ihq hrest)
        exact hnd.1 this
    · simp [alRemove, h, alGet, ih hnd.2]

theorem alGet_remove_ne {κ α : Type} [DecidableEq κ] (l : List (κ × α)) (k k' : κ)
    (h : k ≠ k') : alGet (alRemove l k) k' = alGet l k' := by
  induction l with
  | nil => simp [alGet, alRemove]
  | cons p rest ih =>
    obtain ⟨pk, pv⟩ := p
    by_cases hp : pk = k
    · subst hp
      simp [alGet, alRemove, h, Ne.symm h]
    · by_cases hp' : pk = k'
      · subst hp'
        simp [alGet, alRemove, hp]
      · simp [alGet, alRemove, hp, hp', ih]

theorem alGet_eq_some_mem {κ α : Type} [DecidableEq κ] {l : List (κ × α)} {k : κ} {v : α}
    (h : alGet l k = some v) : (k, v) ∈ l := by
  induction l with
  | nil => simp [alGet] at h
  | cons p rest ih =>
    obtain ⟨pk, pv⟩ := p
    by_cases hp : pk = k
    · subst hp
      simp only [alGet, if_pos rfl] at h
      cases h
      exact List.mem_cons_self ..
    · simp only [alGet, hp, if_false] at h
      exact List.mem_cons_of_mem _ (ih h)

theorem mem_alGet_eq_some {κ α : Type} [DecidableEq κ] {l : List (κ × α)} {k : κ} {v : α}
    (hnd : (l.map Prod.fst).Nodup) (h : (k, v) ∈ l) : alGet l k = some v := by
  induction l with
  | nil => simp at h
  | cons p rest ih =>
    simp only [List.map_cons, List.nodup_cons] at hnd
    rcases List.mem_cons.mp h with h1 | h2
    · rw [← h1]
      simp [alGet]
    · have hne : p.1 ≠ k := by
        intro hk
        exact hnd.1 (hk ▸ List.mem_map_of_mem Prod.fst h2)

      simp [alGet, hne, ih hnd.2 h2]

/-! ### Claims about the entity allocator -/

/-- Well-formedness of the `free` queue: entries point at in-range slots, each
stored generation is one above the queued generation (the `+2` on `free`
reconciled by the `-1` on reuse), and no id is queued twice. -/
def QueueWF (s : Entities) : Prop :=
  (s.free.map Entity.id).Nodup ∧
  ∀ f ∈ s.free, f.id < s.all.length ∧
    (s.all.getD f.id default).generation = f.generation + 1

instance (s : Entities) : Decidable (QueueWF s) := by
  unfold QueueWF
  infer_instance

/-- C8 (amended: `MAX` is `isize::MAX / align_of::<Entity>() = (2^63 - 1) / 4`,
not `isize::MAX / size_of::<Entity>()`): synchronous `spawn` returns
`NotFlushed` exactly when the reservation counter is nonzero, otherwise
`TooMany` exactly when `all.len` has reached `MAX` (no bound on the table is
assumed for the two error biconditionals), and otherwise a valid (contained)
entity; the success conjunct assumes the table fits the `u32` id space so
the fresh handle's `as u32` cast is lossless. -/
theorem spawn_errors (s : Entities) (hwf : QueueWF s) :
    ((s.spawn.1 = .error .notFlushed) ↔ s.reservoir ≠ 0) ∧
    (s.reservoir = 0 → ((s.spawn.1 = .error .tooMany) ↔ Entities.MAX ≤ s.all.length)) ∧
    (s.reservoir = 0 → s.all.length < Entities.MAX → s.all.length + 1 < 2 ^ 32 →
      ∃ e, s.spawn.1 = .ok e ∧ s.spawn.2.contains e = true) := by
  by_cases hr : s.reservoir = 0
  · by_cases hm : Entities.MAX ≤ s.all.length
    · have hs : s.spawn = (.error .tooMany, s) := by
        unfold Entities.spawn
        simp [hr, hm]
      refine ⟨by simp [hs, hr], fun _ => by simp [hs, hm],
        fun _ hlt _ => absurd hm (by omega)⟩
    · cases hfree : s.free with
      | cons f rest =>
        have hfmem : f ∈ s.free := by rw [hfree]; exact List.mem_cons_self ..
        obtain ⟨hflt, hfgen⟩ := hwf.2 f hfmem
        have hs : s.spawn =
            (.ok f, { s with
              all := s.all.set f.id ⟨(s.all.getD f.id default).generation - 1, none⟩,
              free := rest }) := by
          unfold Entities.spawn
          simp [hr, hm, hfree]
        refine ⟨by simp [hs, hr], fun _ => by simp [hs, hm],
          fun _ _ _ => ⟨f, by simp [hs], ?_⟩⟩
        rw [hs]
        unfold Entities.contains
        simp only
        rw [get?_set_self _ _ _ hflt, hfgen]
        simp
      | nil =>
        have hs : s.spawn =
            (.ok ⟨(s.all.length + 1) % 2 ^ 32 - 1, 0⟩, { s with all := s.all ++ [⟨0, none⟩] }) := by
          unfold Entities.spawn
          simp [hr, hm, hfree]
        refine ⟨by simp [hs, hr], fun _ => by simp [hs, hm], fun _ _ hfit =>
          ⟨⟨(s.all.length + 1) % 2 ^ 32 - 1, 0⟩, by simp [hs], ?_⟩⟩
        rw [hs]
        unfold Entities.contains
        have hmod : (s.all.length + 1) % 2 ^ 32 = s.all.length + 1 := Nat.mod_eq_of_lt hfit
        simp only [hmod, Nat.add_sub_cancel]
        have : (s.all ++ [(⟨0, none⟩ : EntityIndex)]).get? s.all.length = some ⟨0, none⟩ := by
          rw [List.get?_append_right (le_refl _)]
          simp
        rw [this]
        simp
  · have hs : s.spawn = (.error .notFlushed, s) := by
      unfold Entities.spawn
      simp [hr]
    exact ⟨by simp [hs, hr], fun h0 => absurd h0 hr, fun h0 => absurd h0 hr⟩

/-- Witness for `spawn_errors`: the `TooMany` biconditional is exercised with
both sides true at a full table (`all.len = MAX`, far beyond `u32`), and the
success conjunct at a small state reusing a freed slot. -/
theorem spawn_errors_witness :
    ((Entities.spawn ⟨0, List.replicate Entities.MAX default, []⟩).1
        = .error .tooMany) ∧
    ∃ e, (Entities.spawn ⟨0, [⟨6, none⟩], [⟨0, 5⟩]⟩).1 = .ok e ∧
      (Entities.spawn ⟨0, [⟨6, none⟩], [⟨0, 5⟩]⟩).2.contains e = true :=
  ⟨((spawn_errors ⟨0, List.replicate Entities.MAX default, []⟩
        ⟨List.nodup_nil, fun f hf => absurd hf (List.not_mem_nil f)⟩).2.1 rfl).mpr
      (by rw [List.length_replicate]),
    (spawn_errors ⟨0, [⟨6, none⟩], [⟨0, 5⟩]⟩ (by decide)).2.2 rfl (by decide)
      (by decide)⟩

/-- C8 counterexample to the claim as stated: with `reservoir = 0` and
`all.len` equal to `floor(isize::MAX / size_of::<Entity>()) = (2^63 - 1) / 8`
(the value the claim gives for `MAX`), `spawn` still succeeds instead of
returning `TooMany`, because the code divides by the alignment (4), not the
size (8), of an entity handle. -/
theorem spawn_sizeof_max_refuted :
    (Entities.spawn ⟨0, List.replicate ((2 ^ 63 - 1) / 8) default, []⟩).1.isOk = true := by
  have key : ∀ l : List EntityIndex, l.length = (2 ^ 63 - 1) / 8 →
      (Entities.spawn ⟨0, l, []⟩).1.isOk = true := by
    intro l hl
    unfold Entities.spawn
    have h1 : ¬ ((⟨0, l, []⟩ : Entities).reservoir ≠ 0) := by simp
    have h2 : ¬ Entities.MAX ≤ (⟨0, l, []⟩ : Entities).all.length := by
      show ¬ Entities.MAX ≤ l.length
      rw [hl]
      unfold Entities.MAX
      decide
    rw [if_neg h1, if_neg h2]
    rfl
  exact key _ (List.length_replicate ..)

instance {ε α : Type} [DecidableEq ε] [DecidableEq α] : DecidableEq (Except ε α) := fun a b =>
  match a, b with
  | .error e, .error e' =>
    if h : e = e' then isTrue (by rw [h]) else isFalse (fun hh => h (by cases hh; rfl))
  | .error _, .ok _ => isFalse (fun hh => Except.noConfusion hh)
  | .ok _, .error _ => isFalse (fun hh => Except.noConfusion hh)
  | .ok v, .ok v' =>
    if h : v = v' then isTrue (by rw [h]) else isFalse (fun hh => h (by cases hh; rfl))

/-- First stage of the spec's concrete reserve cycle: reserve 100 entities
from a fresh allocator. -/
def cycleFirst : Except Unit (List Entity) × Entities :=
  Entities.reserveMany ⟨0, [], []⟩ 100

/-- After flushing the 100 reservations and freeing ids 0..49 (generation 0). -/
def cycleFreed : Entities :=
  (cycleFirst.2.flush).freeMany ((List.range 50).map fun i => ⟨i, 0⟩)

/-- Second stage: reserve 100 more entities. -/
def cycleSecond : Except Unit (List Entity) × Entities :=
  Entities.reserveMany cycleFreed 100

/-- C9: the k-th reservation since the last flush returns the k-th entry of
the free queue when `k < free.len`, and otherwise a handle with
`id = all.len + (k - free.len)` and generation 0 (stated for `reserve` and for
the elements handed out by `reserve_many`, within the `u32` id range); and the
concrete cycle of reserving 100, flushing, freeing ids 0..49, and reserving
100 more reuses ids 0..49 at generation 1 and then allocates ids 100..149 at
generation 0, none contained before the next flush. -/
theorem reserve_kth_formula :
    (∀ (s : Entities) (k : Nat), s.reservoir = k →
      k < Entities.MAX - s.all.length + s.free.length →
      s.all.length + k < 2 ^ 32 →
      (s.reserve.1 = .ok (if k < s.free.length then s.free.getD k default
          else ⟨s.all.length + (k - s.free.length), 0⟩) ∧
        s.reserve.2 = { s with reservoir := k + 1 })) ∧
    (∀ (s : Entities) (count : Nat) (l : List Entity),
      (s.reserveMany count).1 = .ok l →
      s.all.length + s.reservoir + count < 2 ^ 32 →
      ∀ j, j < count →
        l.get? j = some (if s.reservoir + j < s.free.length
          then s.free.getD (s.reservoir + j) default
          else ⟨s.all.length + (s.reservoir + j - s.free.length), 0⟩)) ∧
    cycleFirst.1 = .ok ((List.range 100).map fun i => ⟨i, 0⟩) ∧
    cycleSecond.1 = .ok ((List.range 50).map (fun i => (⟨i, 1⟩ : Entity)) ++
      (List.range 50).map fun i => ⟨100 + i, 0⟩) ∧
    (∀ e ∈ (List.range 50).map (fun i => (⟨i, 1⟩ : Entity)) ++
      (List.range 50).map fun i => (⟨100 + i, 0⟩ : Entity),
      cycleSecond.2.contains e = false) := by
  refine ⟨?_, ?_, by decide, by decide, by decide⟩
  · intro s k hk hg hfit
    subst hk
    unfold Entities.reserve
    rw [if_pos hg]
    refine ⟨?_, rfl⟩
    by_cases hkf : s.reservoir < s.free.length
    · rw [if_pos hkf, if_pos hkf]
    · rw [if_neg hkf, if_neg hkf]
      have harith : s.all.length + s.reservoir - s.free.length =
          s.all.length + (s.reservoir - s.free.length) := by omega
      rw [harith, Nat.mod_eq_of_lt (by omega)]
  · intro s count l hok hfit j hj
    unfold Entities.reserveMany at hok
    split at hok
    · exact absurd hok (by simp)
    · split at hok
      · replace hok : Except.ok ((List.range count).map fun i =>
            if s.reservoir + i < s.free.length then s.free.getD (s.reservoir + i) default
            else ⟨(s.all.length + (s.reservoir + i) - s.free.length) % 2 ^ 32, 0⟩) =
            Except.ok l := hok
        cases hok
        rw [List.get?_map, List.get?_range hj]
        simp only [Option.map_some']
        by_cases hjf : s.reservoir + j < s.free.length
        · rw [if_pos hjf, if_pos hjf]
        · rw [if_neg hjf, if_neg hjf]
          have harith : s.all.length + (s.reservoir + j) - s.free.length =
              s.all.length + (s.reservoir + j - s.free.length) := by omega
          rw [harith, Nat.mod_eq_of_lt (by omega)]
      · exact absurd hok (by simp)

/-- Witness for `reserve_kth_formula` at a concrete allocator state. -/
theorem reserve_kth_formula_witness :
    (Entities.reserve ⟨0, [], []⟩).1 = .ok ⟨0, 0⟩ := by
  have h := reserve_kth_formula.1 ⟨0, [], []⟩ 0 rfl
    (by unfold Entities.MAX; decide) (by decide)
  simpa using h.1

/-- C10 (amended: a stale free is a no-op, and in particular a second free of
the same handle never enqueues its id again; but a handle whose generation
happens to match the post-free stored generation is *not* stale, so an id can
still be enqueued twice — see `free_double_enqueue_refuted`): calling free on
a handle that is not currently contained leaves the allocator state entirely
unchanged. -/
theorem free_stale_noop (s : Entities) (x : Entity) (h : s.contains x = false) :
    s.freeEnt x = s := by
  unfold Entities.freeEnt
  split
  next idx hg =>
    split
    next hgen =>
      exfalso
      unfold Entities.contains at h
      rw [hg] at h
      simp [hgen] at h
    next hgen => rfl
  next hg => rfl

/-- Witness for `free_stale_noop`: a handle with a stale generation. -/
theorem free_stale_noop_witness :
    Entities.freeEnt ⟨0, [⟨3, none⟩], []⟩ ⟨0, 1⟩ = ⟨0, [⟨3, none⟩], []⟩ :=
  free_stale_noop _ _ (by decide)

/-- C10 counterexample to the trailing consequence of the claim as stated
("no id is ever enqueued for reuse twice"): after `spawn` returns `(0, 0)`,
freeing `(0, 0)` bumps the stored generation to 2, which makes the
never-issued handle `(0, 2)` pass the `contains` check; freeing `(0, 2)` then
succeeds and enqueues id 0 a second time. -/
theorem free_double_enqueue_refuted :
    ((Entities.spawn ⟨0, [], []⟩).2.contains ⟨0, 0⟩ = true) ∧
    (((Entities.spawn ⟨0, [], []⟩).2.freeEnt ⟨0, 0⟩).contains ⟨0, 2⟩ = true) ∧
    ((((Entities.spawn ⟨0, [], []⟩).2.freeEnt ⟨0, 0⟩).freeEnt ⟨0, 2⟩).free.map Entity.id
      = [0, 0]) := by decide

theorem getD_set_self {α : Type} (l : List α) (i : Nat) (a d : α) (h : i < l.length) :
    (l.set i a).getD i d = a := by
  rw [getD_eq_get?, get?_set_self _ _ _ h]
  rfl

theorem getD_set_ne {α : Type} (l : List α) (i j : Nat) (a d : α) (h : i ≠ j) :
    (l.set i a).getD j d = l.getD j d := by
  rw [getD_eq_get?, get?_set_ne _ _ _ _ h, getD_eq_get?]

theorem get?_eq_some_getD {α : Type} (l : List α) (i : Nat) (d : α) (h : i < l.length) :
    l.get? i = some (l.getD i d) := by
  rw [getD_eq_get?]
  cases hg : l.get? i with
  | some a => rfl
  | none =>
    rw [List.get?_eq_none] at hg
    omega

theorem getD_append_left {α : Type} (l l' : List α) (i : Nat) (d : α) (h : i < l.length) :
    (l ++ l').getD i d = l.getD i d := by
  rw [getD_eq_get?, getD_eq_get?, List.get?_append h]

theorem getD_mem {α : Type} (l : List α) (i : Nat) (d : α) (h : i < l.length) :
    l.getD i d ∈ l := by
  rw [getD_eq_get?]
  cases hg : l.get? i with
  | some a => exact List.get?_mem hg
  | none =>
    rw [List.get?_eq_none] at hg
    omega

/-! ### Operation traces over the allocator (for claim C3)

`free` takes an arbitrary caller-supplied handle, so the claim about freed
handles staying invalid is settled over traces of allocator operations.  A
trace is *legitimate* when every freed handle was previously issued by
`reserve`/`reserve_many`/`spawn` (the handles a well-typed caller can hold),
and *bounded* when the id space stays inside `u32` (so the source's `as u32`
casts are lossless). -/

/-- One allocator operation. -/
inductive EOp where
  | reserve
  | reserveMany (count : Nat)
  | spawn
  | free (x : Entity)
  | flush
deriving DecidableEq

/-- Apply one operation; also yields the handles issued by it. -/
def stepE (s : Entities) : EOp → Entities × List Entity
  | .reserve =>
    ((s.reserve).2, match (s.reserve).1 with | .ok e => [e] | .error _ => [])
  | .reserveMany n =>
    ((s.reserveMany n).2, match (s.reserveMany n).1 with | .ok es => es | .error _ => [])
  | .spawn =>
    ((s.spawn).2, match (s.spawn).1 with | .ok e => [e] | .error _ => [])
  | .free x => (s.freeEnt x, [])
  | .flush => (s.flush, [])

/-- Run a trace, accumulating the issued handles. -/
def runE : Entities → List Entity → List EOp → Entities × List Entity
  | s, iss, [] => (s, iss)
  | s, iss, op :: rest => runE (stepE s op).1 (iss ++ (stepE s op).2) rest

/-- Every `free` in the trace targets a previously issued handle. -/
def LegitE : Entities → List Entity → List EOp → Prop
  | _, _, [] => True
  | s, iss, op :: rest =>
    (match op with | .free x => x ∈ iss | _ => True) ∧
    LegitE (stepE s op).1 (iss ++ (stepE s op).2) rest

instance instDecidableLegitE :
    ∀ (s : Entities) (iss : List Entity) (ops : List EOp), Decidable (LegitE s iss ops)
  | _, _, [] => isTrue trivial
  | s, iss, op :: rest => by
    unfold LegitE
    have : Decidable (LegitE (stepE s op).1 (iss ++ (stepE s op).2) rest) :=
      instDecidableLegitE _ _ rest
    cases op <;> exact instDecidableAnd


/-- The id space stays inside `u32` along the trace. -/
def BoundedE : Entities → List EOp → Prop
  | s, [] => s.all.length + s.reservoir < 2 ^ 32
  | s, op :: rest => s.all.length + s.reservoir < 2 ^ 32 ∧ BoundedE (stepE s op).1 rest

theorem BoundedE_head {s : Entities} {ops : List EOp} (h : BoundedE s ops) :
    s.all.length + s.reservoir < 2 ^ 32 := by
  cases ops with
  | nil => exact h
  | cons op rest => exact h.1

instance instDecidableBoundedE :
    ∀ (s : Entities) (ops : List EOp), Decidable (BoundedE s ops)
  | _, [] => by
    unfold BoundedE
    infer_instance
  | s, op :: rest => by
    unfold BoundedE
    have : Decidable (BoundedE (stepE s op).1 rest) := instDecidableBoundedE _ rest
    exact instDecidableAnd

/-- The first handle with the given id issued along a trace, if any. -/
def firstIssueAt (eid : Nat) : Entities → List EOp → Option Entity
  | _, [] => none
  | s, op :: rest =>
    match ((stepE s op).2).find? (fun x => x.id = eid) with
    | some h => some h
    | none => firstIssueAt eid (stepE s op).1 rest

/-- Allocator invariant relative to the set `iss` of issued handles: the free
queue is well formed, and issued handles never exceed the stored generation
(nor the generation of a queued entry for their id; handles beyond the table
were issued by the fresh-allocation path of `reserve` at generation 0). -/
def EInv (s : Entities) (iss : List Entity) : Prop :=
  QueueWF s ∧
  (∀ h ∈ iss, h.id < s.all.length →
    h.generation ≤ (s.all.getD h.id default).generation) ∧
  (∀ h ∈ iss, ∀ f ∈ s.free, f.id = h.id → h.generation ≤ f.generation) ∧
  (∀ h ∈ iss, s.all.length ≤ h.id → h.generation = 0)

instance (s : Entities) (iss : List Entity) : Decidable (EInv s iss) := by
  unfold EInv
  infer_instance

/-- State of a freed handle `e`: its slot's generation is strictly above
`e.generation`, and so is every queued entry for its id. -/
def FreedInv (e : Entity) (s : Entities) (iss : List Entity) : Prop :=
  EInv s iss ∧ e.id < s.all.length ∧
  e.generation < (s.all.getD e.id default).generation ∧
  (∀ f ∈ s.free, f.id = e.id → e.generation < f.generation)

/-- State of a freed handle `e` whose id has not been reissued yet: handles
issued so far stay at or below `e.generation`, and either the queue holds the
single entry `(e.id, e.generation + 1)` with the slot at `e.generation + 2`,
or a flush has already reconciled the slot to `e.generation + 1` and the
queue holds no entry for `e.id`. -/
def PendingReuse (e : Entity) (s : Entities) (iss : List Entity) : Prop :=
  (∀ h ∈ iss, h.id = e.id → h.generation ≤ e.generation) ∧
  (((⟨e.id, e.generation + 1⟩ : Entity) ∈ s.free ∧
    (∀ f ∈ s.free, f.id = e.id → f = ⟨e.id, e.generation + 1⟩) ∧
    (s.all.getD e.id default).generation = e.generation + 2) ∨
   ((∀ f ∈ s.free, f.id ≠ e.id) ∧
    (s.all.getD e.id default).generation = e.generation + 1))

theorem nodup_map_inj {α β : Type} {f : α → β} {l : List α}
    (hnd : (l.map f).Nodup) {a b : α} (ha : a ∈ l) (hb : b ∈ l) (hf : f a = f b) : a = b := by
  induction l with
  | nil => simp at ha
  | cons x xs ih =>
    simp only [List.map_cons, List.nodup_cons] at hnd
    rcases List.mem_cons.mp ha with ha1 | ha2 <;> rcases List.mem_cons.mp hb with hb1 | hb2
    · rw [ha1, hb1]
    · subst ha1
      exact absurd (hf ▸ List.mem_map_of_mem f hb2) hnd.1
    · subst hb1
      exact absurd (hf.symm ▸ List.mem_map_of_mem f ha2) hnd.1
    · exact ih hnd.2 ha2 hb2

theorem replicate_get? {α : Type} (m i : Nat) (d : α) (h : i < m) :
    (List.replicate m d).get? i = some d := by
  induction m generalizing i with
  | zero => omega
  | succ n ih =>
    cases i with
    | zero => rfl
    | succ j => simpa [List.replicate] using ih j (by omega)

/-- Characterization of `Entities::free`: either the handle is contained and
the slot generation is bumped by 2 with the successor handle queued, or the
call is a no-op. -/
theorem freeEnt_cases (s : Entities) (x : Entity) :
    (s.contains x = true ∧
      s.freeEnt x = { s with
        all := s.all.set x.id ⟨(s.all.getD x.id default).generation + 2,
          (s.all.getD x.id default).location⟩,
        free := s.free ++ [⟨x.id, x.generation + 1⟩] } ∧
      (s.all.getD x.id default).generation = x.generation ∧ x.id < s.all.length) ∨
    (s.contains x = false ∧ s.freeEnt x = s) := by
  cases hg : s.all.get? x.id with
  | none =>
    right
    constructor
    · unfold Entities.contains
      rw [hg]
    · unfold Entities.freeEnt
      rw [hg]
  | some idx =>
    have hlt : x.id < s.all.length := by
      by_contra hc
      rw [List.get?_eq_none.mpr (by omega)] at hg
      cases hg
    have hgd : s.all.getD x.id default = idx := by
      rw [getD_eq_get?, hg]
      rfl
    by_cases hgen : idx.generation = x.generation
    · left
      refine ⟨?_, ?_, ?_, hlt⟩
      · unfold Entities.contains
        rw [hg]
        simp [hgen]
      · unfold Entities.freeEnt
        rw [hg]
        dsimp only
        rw [if_pos hgen, hgd]
      · rw [hgd, hgen]
    · right
      constructor
      · unfold Entities.contains
        rw [hg]
        simp
        exact fun hh => hgen hh.symm
      · unfold Entities.freeEnt
        rw [hg]
        dsimp only
        rw [if_neg hgen]

/-- Effect of the reconciliation fold in `Entities::flush` on the `all` table. -/
theorem flushFold (entries : List Entity) (all : List EntityIndex)
    (hnd : (entries.map Entity.id).Nodup)
    (hlt : ∀ f ∈ entries, f.id < all.length)
    (hgen : ∀ f ∈ entries, (all.getD f.id default).generation = f.generation + 1) :
    (entries.foldl (fun acc f =>
        acc.set f.id ⟨(acc.getD f.id default).generation - 1, none⟩) all).length
      = all.length ∧
    (∀ f ∈ entries, (entries.foldl (fun acc f =>
        acc.set f.id ⟨(acc.getD f.id default).generation - 1, none⟩) all).getD f.id default
        = ⟨f.generation, none⟩) ∧
    (∀ j, (∀ f ∈ entries, f.id ≠ j) → (entries.foldl (fun acc f =>
        acc.set f.id ⟨(acc.getD f.id default).generation - 1, none⟩) all).get? j
        = all.get? j) := by
  induction entries generalizing all with
  | nil => exact ⟨rfl, by simp, fun j _ => rfl⟩
  | cons f rest ih =>
    simp only [List.map_cons, List.nodup_cons] at hnd
    have hfid := hlt f (List.mem_cons_self ..)
    have hfg := hgen f (List.mem_cons_self ..)
    have hrest_ne : ∀ g ∈ rest, g.id ≠ f.id := by
      intro g hg hcontra
      exact hnd.1 (hcontra ▸ List.mem_map_of_mem Entity.id hg)
    have hlen' : (all.set f.id ⟨(all.getD f.id default).generation - 1, none⟩).length
        = all.length := List.length_set ..
    obtain ⟨ihlen, ihmem, ihother⟩ := ih
      (all.set f.id ⟨(all.getD f.id default).generation - 1, none⟩)
      hnd.2
      (fun g hg => hlen' ▸ hlt g (List.mem_cons_of_mem _ hg))
      (fun g hg => by
        rw [getD_set_ne _ _ _ _ _ (fun hh => hrest_ne g hg hh.symm)]
        exact hgen g (List.mem_cons_of_mem _ hg))
    rw [List.foldl_cons]
    refine ⟨by rw [ihlen, hlen'], ?_, ?_⟩
    · intro g hg
      rcases List.mem_cons.mp hg with hg1 | hg2
      · subst hg1
        rw [getD_eq_get?, ihother g.id (fun g' hg' => hrest_ne g' hg'),
          get?_set_self _ _ _ hfid]
        rw [hfg]
        rfl
      · exact ihmem g hg2
    · intro j hj
      rw [ihother j (fun g hg => hj g (List.mem_cons_of_mem _ hg)),
        get?_set_ne _ _ _ _ (fun hh => hj f (List.mem_cons_self ..) hh)]

/-- A successfully freed issued handle's id cannot already be in the queue:
the queued entry would force the stored generation one above its own, while
issued handles stay at or below the queued generation. -/
theorem issued_free_not_queued {s : Entities} {iss : List Entity} {x : Entity}
    (hinv : EInv s iss) (hx : x ∈ iss)
    (hgen : (s.all.getD x.id default).generation = x.generation) :
    ∀ f ∈ s.free, f.id ≠ x.id := by
  intro f hf hcontra
  obtain ⟨⟨hnd, hq⟩, hlow, hcap, hhigh⟩ := hinv
  obtain ⟨hflt, hfgen⟩ := hq f hf
  have hc := hcap x hx f hf hcontra
  rw [hcontra] at hfgen
  omega

theorem EInv_reserve {s : Entities} {iss : List Entity} (hinv : EInv s iss) :
    EInv (stepE s .reserve).1 (iss ++ (stepE s .reserve).2) := by
  obtain ⟨⟨hnd, hq⟩, hlow, hcap, hhigh⟩ := hinv
  by_cases hg : s.reservoir < Entities.MAX - s.all.length + s.free.length
  · have hr : s.reserve =
        (.ok (if s.reservoir < s.free.length then s.free.getD s.reservoir default
          else ⟨(s.all.length + s.reservoir - s.free.length) % 2 ^ 32, 0⟩),
          { s with reservoir := s.reservoir + 1 }) := by
      unfold Entities.reserve
      rw [if_pos hg]
    have hstep : stepE s .reserve =
        ({ s with reservoir := s.reservoir + 1 },
          [if s.reservoir < s.free.length then s.free.getD s.reservoir default
            else ⟨(s.all.length + s.reservoir - s.free.length) % 2 ^ 32, 0⟩]) := by
      simp only [stepE]
      rw [hr]
    rw [hstep]
    dsimp only
    refine ⟨⟨hnd, hq⟩, ?_, ?_, ?_⟩
    · intro h hh hlt
      rcases List.mem_append.mp hh with hh | hh
      · exact hlow h hh hlt
      · rw [List.mem_singleton] at hh
        subst hh
        split
        next hkf =>
          have hmem := getD_mem s.free s.reservoir default hkf
          exact (hq _ hmem).2 ▸ by omega
        next hkf => exact Nat.zero_le _
    · intro h hh f hf hid
      rcases List.mem_append.mp hh with hh | hh
      · exact hcap h hh f hf hid
      · rw [List.mem_singleton] at hh
        subst hh
        revert hid
        split
        next hkf =>
          intro hid
          have hmem := getD_mem s.free s.reservoir default hkf
          have := nodup_map_inj hnd hf hmem hid
          rw [this]
        next hkf =>
          intro hid
          exact Nat.zero_le _
    · intro h hh hge
      rcases List.mem_append.mp hh with hh | hh
      · exact hhigh h hh hge
      · rw [List.mem_singleton] at hh
        subst hh
        revert hge
        split
        next hkf =>
          intro hge
          have hge2 : s.all.length ≤ (s.free.getD s.reservoir default).id := hge
          have hmem := getD_mem s.free s.reservoir default hkf
          exact absurd (hq _ hmem).1 (by omega)
        next hkf => intro _; rfl
  · have hr : s.reserve = (.error (), s) := by
      unfold Entities.reserve
      rw [if_neg hg]
    have hstep : stepE s .reserve = (s, []) := by
      simp only [stepE]
      rw [hr]
    rw [hstep]
    simpa using ⟨⟨hnd, hq⟩, hlow, hcap, hhigh⟩

theorem EInv_reserveMany {s : Entities} {iss : List Entity} (n : Nat) (hinv : EInv s iss) :
    EInv (stepE s (.reserveMany n)).1 (iss ++ (stepE s (.reserveMany n)).2) := by
  obtain ⟨⟨hnd, hq⟩, hlow, hcap, hhigh⟩ := hinv
  by_cases hc : 2 ^ 32 ≤ n
  · have hr : s.reserveMany n = (.error (), s) := by
      unfold Entities.reserveMany
      rw [if_pos hc]
    have hstep : stepE s (.reserveMany n) = (s, []) := by
      simp only [stepE]
      rw [hr]
    rw [hstep]
    simpa using ⟨⟨hnd, hq⟩, hlow, hcap, hhigh⟩
  · by_cases hg : (s.reservoir + n + 2 ^ 32 - 1) % 2 ^ 32 <
        (Entities.MAX - s.all.length + s.free.length) % 2 ^ 32
    · have hr : s.reserveMany n =
          (.ok ((List.range n).map fun j =>
            if s.reservoir + j < s.free.length then s.free.getD (s.reservoir + j) default
            else ⟨(s.all.length + (s.reservoir + j) - s.free.length) % 2 ^ 32, 0⟩),
            { s with reservoir := s.reservoir + n }) := by
        unfold Entities.reserveMany
        rw [if_neg hc, if_pos hg]
      have hstep : stepE s (.reserveMany n) =
          ({ s with reservoir := s.reservoir + n },
            (List.range n).map fun j =>
              if s.reservoir + j < s.free.length then s.free.getD (s.reservoir + j) default
              else ⟨(s.all.length + (s.reservoir + j) - s.free.length) % 2 ^ 32, 0⟩) := by
        simp only [stepE]
        rw [hr]
      rw [hstep]
      dsimp only
      have hchar : ∀ h, (h ∈ (List.range n).map fun j =>
          if s.reservoir + j < s.free.length then s.free.getD (s.reservoir + j) default
          else ⟨(s.all.length + (s.reservoir + j) - s.free.length) % 2 ^ 32, 0⟩) →
          h ∈ s.free ∨ h.generation = 0 := by
        intro h hh
        rw [List.mem_map] at hh
        obtain ⟨j, _, hj⟩ := hh
        by_cases hjf : s.reservoir + j < s.free.length
        · rw [if_pos hjf] at hj
          exact Or.inl (hj ▸ getD_mem s.free (s.reservoir + j) default hjf)
        · rw [if_neg hjf] at hj
          exact Or.inr (hj ▸ rfl)
      refine ⟨⟨hnd, hq⟩, ?_, ?_, ?_⟩
      · intro h hh hlt
        rcases List.mem_append.mp hh with hh | hh
        · exact hlow h hh hlt
        · rcases hchar h hh with hmem | hzero
          · exact (hq _ hmem).2 ▸ by omega
          · exact hzero ▸ Nat.zero_le _
      · intro h hh f hf hid
        rcases List.mem_append.mp hh with hh | hh
        · exact hcap h hh f hf hid
        · rcases hchar h hh with hmem | hzero
          · have := nodup_map_inj hnd hf hmem hid
            rw [this]
          · exact hzero ▸ Nat.zero_le _
      · intro h hh hge
        have hge2 : s.all.length ≤ h.id := hge
        rcases List.mem_append.mp hh with hh | hh
        · exact hhigh h hh hge2
        · rcases hchar h hh with hmem | hzero
          · exact absurd (hq _ hmem).1 (by omega)
          · exact hzero
    · have hr : s.reserveMany n = (.error (), s) := by
        unfold Entities.reserveMany
        rw [if_neg hc, if_neg hg]
      have hstep : stepE s (.reserveMany n) = (s, []) := by
        simp only [stepE]
        rw [hr]
      rw [hstep]
      simpa using ⟨⟨hnd, hq⟩, hlow, hcap, hhigh⟩

theorem EInv_spawn {s : Entities} {iss : List Entity} (hinv : EInv s iss) :
    EInv (stepE s .spawn).1 (iss ++ (stepE s .spawn).2) := by
  obtain ⟨⟨hnd, hq⟩, hlow, hcap, hhigh⟩ := hinv
  by_cases hr0 : s.reservoir ≠ 0
  · have hs : s.spawn = (.error .notFlushed, s) := by
      unfold Entities.spawn
      rw [if_pos hr0]
    have hstep : stepE s .spawn = (s, []) := by
      simp only [stepE]
      rw [hs]
    rw [hstep]
    simpa using ⟨⟨hnd, hq⟩, hlow, hcap, hhigh⟩
  · by_cases hm : Entities.MAX ≤ s.all.length
    · have hs : s.spawn = (.error .tooMany, s) := by
        unfold Entities.spawn
        rw [if_neg hr0, if_pos hm]
      have hstep : stepE s .spawn = (s, []) := by
        simp only [stepE]
        rw [hs]
      rw [hstep]
      simpa using ⟨⟨hnd, hq⟩, hlow, hcap, hhigh⟩
    · cases hfree : s.free with
      | cons f rest =>
        have hfmem : f ∈ s.free := by
          rw [hfree]
          exact List.mem_cons_self ..
        obtain ⟨hflt, hfgen⟩ := hq f hfmem
        have hs : s.spawn = (.ok f, { s with
            all := s.all.set f.id ⟨(s.all.getD f.id default).generation - 1, none⟩,
            free := rest }) := by
          unfold Entities.spawn
          rw [if_neg hr0, if_neg hm, hfree]
        have hstep : stepE s .spawn = ({ s with
            all := s.all.set f.id ⟨(s.all.getD f.id default).generation - 1, none⟩,
            free := rest }, [f]) := by
          simp only [stepE]
          rw [hs]
        rw [hstep]
        dsimp only
        have hndrest : (rest.map Entity.id).Nodup := by
          have := hfree ▸ hnd
          simp only [List.map_cons, List.nodup_cons] at this
          exact this.2
        have hfid_notin : f.id ∉ rest.map Entity.id := by
          have := hfree ▸ hnd
          simp only [List.map_cons, List.nodup_cons] at this
          exact this.1
        have hrestmem : ∀ g ∈ rest, g ∈ s.free := by
          intro g hg
          rw [hfree]
          exact List.mem_cons_of_mem _ hg
        have hlen : (s.all.set f.id ⟨(s.all.getD f.id default).generation - 1, none⟩).length
            = s.all.length := List.length_set ..
        refine ⟨⟨hndrest, ?_⟩, ?_, ?_, ?_⟩
        · intro g hg
          have hgne : g.id ≠ f.id := by
            intro hc
            exact hfid_notin (hc ▸ List.mem_map_of_mem Entity.id hg)
          refine ⟨hlen ▸ (hq g (hrestmem g hg)).1, ?_⟩
          rw [getD_set_ne _ _ _ _ _ (fun hc => hgne hc.symm)]
          exact (hq g (hrestmem g hg)).2
        · intro h hh hlt
          have hlt2 : h.id < s.all.length := hlen ▸ hlt
          rcases List.mem_append.mp hh with hh | hh
          · by_cases hid : h.id = f.id
            · rw [hid, getD_set_self _ _ _ _ hflt]
              have := hcap h hh f hfmem hid.symm
              simp only []
              omega
            · rw [getD_set_ne _ _ _ _ _ (fun hc => hid hc.symm)]
              exact hlow h hh hlt2
          · rw [List.mem_singleton] at hh
            subst hh
            rw [getD_set_self _ _ _ _ hflt, hfgen]
            simp
        · intro h hh g hg hid
          rcases List.mem_append.mp hh with hh | hh
          · exact hcap h hh g (hrestmem g hg) hid
          · rw [List.mem_singleton] at hh
            subst hh
            exfalso
            exact hfid_notin (hid ▸ List.mem_map_of_mem Entity.id hg)
        · intro h hh hge
          have hge2 : s.all.length ≤ h.id := hlen ▸ hge
          rcases List.mem_append.mp hh with hh | hh
          · exact hhigh h hh hge2
          · rw [List.mem_singleton] at hh
            subst hh
            omega
      | nil =>
        have hs : s.spawn =
            (.ok ⟨(s.all ++ [(⟨0, none⟩ : EntityIndex)]).length % 2 ^ 32 - 1, 0⟩,
            { s with all := s.all ++ [(⟨0, none⟩ : EntityIndex)] }) := by
          unfold Entities.spawn
          rw [if_neg hr0, if_neg hm, hfree]
        have hstep : stepE s .spawn =
            ({ s with all := s.all ++ [(⟨0, none⟩ : EntityIndex)] },
            [⟨(s.all ++ [(⟨0, none⟩ : EntityIndex)]).length % 2 ^ 32 - 1, 0⟩]) := by
          simp only [stepE]
          rw [hs]
        rw [hstep]
        dsimp only
        refine ⟨⟨by rw [hfree]; exact List.nodup_nil, ?_⟩, ?_, ?_, ?_⟩
        · intro g hg
          rw [hfree] at hg
          cases hg
        · intro h hh hlt
          rcases List.mem_append.mp hh with hh | hh
          · by_cases hid : h.id < s.all.length
            · rw [getD_append_left _ _ _ _ hid]
              exact hlow h hh hid
            · have := hhigh h hh (by omega)
              omega
          · rw [List.mem_singleton] at hh
            subst hh
            exact Nat.zero_le _
        · intro h hh g hg hid
          rw [hfree] at hg
          cases hg
        · intro h hh hge
          have hge2 : (s.all ++ [(⟨0, none⟩ : EntityIndex)]).length ≤ h.id := hge
          rw [List.length_append, List.length_singleton] at hge2
          rcases List.mem_append.mp hh with hh | hh
          · exact hhigh h hh (by omega)
          · rw [List.mem_singleton] at hh
            subst hh
            rfl

theorem EInv_free {s : Entities} {iss : List Entity} {x : Entity} (hinv : EInv s iss)
    (hx : x ∈ iss) :
    EInv (stepE s (.free x)).1 (iss ++ (stepE s (.free x)).2) := by
  have hinv' := hinv
  obtain ⟨⟨hnd, hq⟩, hlow, hcap, hhigh⟩ := hinv
  have hstep : stepE s (.free x) = (s.freeEnt x, []) := by
    simp only [stepE]
  rw [hstep]
  dsimp only
  rw [List.append_nil]
  rcases freeEnt_cases s x with ⟨hcon, heq, hgen, hlt⟩ | ⟨hcon, heq⟩
  · rw [heq]
    have hnotq : ∀ f ∈ s.free, f.id ≠ x.id := issued_free_not_queued hinv' hx hgen
    have hlen : (s.all.set x.id ⟨(s.all.getD x.id default).generation + 2,
        (s.all.getD x.id default).location⟩).length = s.all.length := List.length_set ..
    refine ⟨⟨?_, ?_⟩, ?_, ?_, ?_⟩
    · simp only [List.map_append, List.map_singleton]
      rw [List.nodup_append]
      refine ⟨hnd, List.nodup_singleton _, ?_⟩
      intro a ha hb
      rw [List.mem_singleton] at hb
      subst hb
      rw [List.mem_map] at ha
      obtain ⟨f, hf, hfid⟩ := ha
      exact hnotq f hf hfid
    · intro f hf
      rcases List.mem_append.mp hf with hf | hf
      · have hne : f.id ≠ x.id := hnotq f hf
        refine ⟨hlen ▸ (hq f hf).1, ?_⟩
        rw [getD_set_ne _ _ _ _ _ (fun hc => hne hc.symm)]
        exact (hq f hf).2
      · rw [List.mem_singleton] at hf
        subst hf
        refine ⟨hlen ▸ hlt, ?_⟩
        rw [getD_set_self _ _ _ _ hlt]
        simp only []
        omega
    · intro h hh hlt2
      have hlt3 : h.id < s.all.length := hlen ▸ hlt2
      by_cases hid : h.id = x.id
      · rw [hid, getD_set_self _ _ _ _ hlt]
        have := hlow h hh (hid ▸ hlt3)
        rw [hid] at this
        simp only []
        omega
      · rw [getD_set_ne _ _ _ _ _ (fun hc => hid hc.symm)]
        exact hlow h hh hlt3
    · intro h hh f hf hid
      rcases List.mem_append.mp hf with hf | hf
      · exact hcap h hh f hf hid
      · rw [List.mem_singleton] at hf
        subst hf
        have hid2 : x.id = h.id := hid
        have hlow2 := hlow h hh (hid2 ▸ hlt)
        rw [← hid2] at hlow2
        rw [hgen] at hlow2
        show h.generation ≤ x.generation + 1
        omega
    · intro h hh hge
      exact hhigh h hh (hlen ▸ hge)
  · rw [heq]
    exact ⟨⟨hnd, hq⟩, hlow, hcap, hhigh⟩

/-- Closed form of `Entities::flush` when there are pending reservations. -/
theorem flush_eq (s : Entities) (h : ¬ s.reservoir = 0) :
    s.flush = Entities.mk 0
      (if s.free.length < s.reservoir then
        ((s.free.take (min s.reservoir s.free.length)).foldl
          (fun acc f => acc.set f.id ⟨(acc.getD f.id default).generation - 1, none⟩) s.all)
          ++ List.replicate (s.reservoir - s.free.length) default
      else
        (s.free.take (min s.reservoir s.free.length)).foldl
          (fun acc f => acc.set f.id ⟨(acc.getD f.id default).generation - 1, none⟩) s.all)
      (s.free.drop (min s.reservoir s.free.length)) := by
  unfold Entities.flush
  rw [if_neg h]

theorem EInv_flush {s : Entities} {iss : List Entity} (hinv : EInv s iss) :
    EInv (stepE s .flush).1 (iss ++ (stepE s .flush).2) := by
  obtain ⟨⟨hnd, hq⟩, hlow, hcap, hhigh⟩ := hinv
  have hstep : stepE s .flush = (s.flush, []) := by
    simp only [stepE]
  rw [hstep]
  dsimp only
  rw [List.append_nil]
  by_cases hr0 : s.reservoir = 0
  · have : s.flush = { s with reservoir := 0 } := by
      unfold Entities.flush
      rw [if_pos hr0]
    rw [this]
    exact ⟨⟨hnd, hq⟩, hlow, hcap, hhigh⟩
  · rw [flush_eq s hr0]
    set k := min s.reservoir s.free.length with hk
    have hksub : ∀ f ∈ s.free.take k, f ∈ s.free := fun f hf => List.take_subset _ _ hf
    have hdropsub : ∀ f ∈ s.free.drop k, f ∈ s.free := fun f hf => List.drop_subset _ _ hf
    have hndtake : ((s.free.take k).map Entity.id).Nodup := by
      rw [List.map_take]
      exact List.Nodup.sublist (List.take_sublist ..) hnd
    have hnddrop : ((s.free.drop k).map Entity.id).Nodup := by
      rw [List.map_drop]
      exact List.Nodup.sublist (List.drop_sublist ..) hnd
    have hndboth : ((s.free.take k).map Entity.id ++ (s.free.drop k).map Entity.id).Nodup := by
      rw [← List.map_append, List.take_append_drop]
      exact hnd
    have hdisj : ∀ g ∈ s.free.take k, ∀ f ∈ s.free.drop k, g.id ≠ f.id := by
      intro g hg f hf hc
      exact (List.nodup_append.mp hndboth).2.2 (List.mem_map_of_mem Entity.id hg)
        (hc ▸ List.mem_map_of_mem Entity.id hf)
    obtain ⟨hlen1, hproc, hother⟩ := flushFold (s.free.take k) s.all hndtake
      (fun f hf => (hq f (hksub f hf)).1) (fun f hf => (hq f (hksub f hf)).2)
    set all1 := (s.free.take k).foldl
      (fun acc f => acc.set f.id ⟨(acc.getD f.id default).generation - 1, none⟩) s.all
      with hall1
    -- getD facts about `all1` lifted to the possibly grown table
    have hgetD_all1 : ∀ j, j < s.all.length →
        (if s.free.length < s.reservoir then
          all1 ++ List.replicate (s.reservoir - s.free.length) default else all1).getD j default
        = all1.getD j default := by
      intro j hj
      split
      · exact getD_append_left _ _ _ _ (by omega)
      · rfl
    have hlen2 : s.all.length ≤ (if s.free.length < s.reservoir then
        all1 ++ List.replicate (s.reservoir - s.free.length) default else all1).length := by
      split
      · rw [List.length_append, hlen1]
        omega
      · omega
    have hlen3 : (if s.free.length < s.reservoir then
        all1 ++ List.replicate (s.reservoir - s.free.length) default else all1).length
        = s.all.length + (s.reservoir - min s.reservoir s.free.length) := by
      split
      next hgrow =>
        rw [List.length_append, hlen1, List.length_replicate]
        omega
      next hgrow =>
        rw [hlen1]
        omega
    refine ⟨⟨hnddrop, ?_⟩, ?_, ?_, ?_⟩
    · intro f hf
      have hfmem := hdropsub f hf
      have hfne : ∀ g ∈ s.free.take k, g.id ≠ f.id := fun g hg => hdisj g hg f hf
      refine ⟨lt_of_lt_of_le (hq f hfmem).1 hlen2, ?_⟩
      rw [hgetD_all1 f.id (hq f hfmem).1, getD_eq_get?, hother f.id hfne, ← getD_eq_get?]
      exact (hq f hfmem).2
    · intro h hh hlt
      by_cases hid : h.id < s.all.length
      · rw [hgetD_all1 h.id hid]
        by_cases hp : ∃ g ∈ s.free.take k, g.id = h.id
        · obtain ⟨g, hg, hgid⟩ := hp
          rw [← hgid, hproc g hg]
          exact hcap h hh g (hksub g hg) hgid
        · push_neg at hp
          rw [getD_eq_get?, hother h.id hp, ← getD_eq_get?]
          exact hlow h hh hid
      · have h0 := hhigh h hh (by omega)
        rw [h0]
        exact Nat.zero_le _
    · intro h hh f hf hid
      exact hcap h hh f (hdropsub f hf) hid
    · intro h hh hge
      have : s.all.length ≤ h.id := le_trans hlen2 hge
      exact hhigh h hh this

theorem reserve_snd_all (s : Entities) : (s.reserve).2.all = s.all := by
  unfold Entities.reserve
  split <;> rfl

theorem reserve_snd_free (s : Entities) : (s.reserve).2.free = s.free := by
  unfold Entities.reserve
  split <;> rfl

theorem reserveMany_snd_all (s : Entities) (n : Nat) : (s.reserveMany n).2.all = s.all := by
  unfold Entities.reserveMany
  split
  · rfl
  · split <;> rfl

theorem reserveMany_snd_free (s : Entities) (n : Nat) :
    (s.reserveMany n).2.free = s.free := by
  unfold Entities.reserveMany
  split
  · rfl
  · split <;> rfl

/-- Preservation of the issued-handle invariant by any legitimate operation. -/
theorem EInv_step {s : Entities} {iss : List Entity} (op : EOp) (hinv : EInv s iss)
    (hleg : match op with | .free x => x ∈ iss | _ => True) :
    EInv (stepE s op).1 (iss ++ (stepE s op).2) := by
  cases op with
  | reserve => exact EInv_reserve hinv
  | reserveMany n => exact EInv_reserveMany n hinv
  | spawn => exact EInv_spawn hinv
  | free x => exact EInv_free hinv hleg
  | flush => exact EInv_flush hinv

/-- Preservation of the freed-handle invariant by any legitimate operation. -/
theorem FreedInv_step (e : Entity) {s : Entities} {iss : List Entity} (op : EOp)
    (hf : FreedInv e s iss)
    (hleg : match op with | .free x => x ∈ iss | _ => True) :
    FreedInv e (stepE s op).1 (iss ++ (stepE s op).2) := by
  obtain ⟨hinv, hA, hB, hC⟩ := hf
  have hinv' : EInv (stepE s op).1 (iss ++ (stepE s op).2) := EInv_step op hinv hleg
  refine ⟨hinv', ?_⟩
  cases op with
  | reserve =>
    have ha : (stepE s .reserve).1.all = s.all := by
      simp only [stepE]
      exact reserve_snd_all s
    have hfr : (stepE s .reserve).1.free = s.free := by
      simp only [stepE]
      exact reserve_snd_free s
    rw [ha, hfr]
    exact ⟨hA, hB, hC⟩
  | reserveMany n =>
    have ha : (stepE s (.reserveMany n)).1.all = s.all := by
      simp only [stepE]
      exact reserveMany_snd_all s n
    have hfr : (stepE s (.reserveMany n)).1.free = s.free := by
      simp only [stepE]
      exact reserveMany_snd_free s n
    rw [ha, hfr]
    exact ⟨hA, hB, hC⟩
  | spawn =>
    obtain ⟨⟨hnd, hq⟩, hlow, hcap, hhigh⟩ := hinv
    by_cases hr0 : s.reservoir ≠ 0
    · have hs : s.spawn = (.error .notFlushed, s) := by
        unfold Entities.spawn
        rw [if_pos hr0]
      have hstep : stepE s .spawn = (s, []) := by
        simp only [stepE]
        rw [hs]
      rw [hstep]
      exact ⟨hA, hB, hC⟩
    · by_cases hm : Entities.MAX ≤ s.all.length
      · have hs : s.spawn = (.error .tooMany, s) := by
          unfold Entities.spawn
          rw [if_neg hr0, if_pos hm]
        have hstep : stepE s .spawn = (s, []) := by
          simp only [stepE]
          rw [hs]
        rw [hstep]
        exact ⟨hA, hB, hC⟩
      · cases hfree : s.free with
        | cons f rest =>
          have hfmem : f ∈ s.free := by
            rw [hfree]
            exact List.mem_cons_self ..
          have hs : s.spawn = (.ok f, { s with
              all := s.all.set f.id ⟨(s.all.getD f.id default).generation - 1, none⟩,
              free := rest }) := by
            unfold Entities.spawn
            rw [if_neg hr0, if_neg hm, hfree]
          have hstep : stepE s .spawn = ({ s with
              all := s.all.set f.id ⟨(s.all.getD f.id default).generation - 1, none⟩,
              free := rest }, [f]) := by
            simp only [stepE]
            rw [hs]
          rw [hstep]
          dsimp only
          have hlen : (s.all.set f.id
              ⟨(s.all.getD f.id default).generation - 1, none⟩).length = s.all.length :=
            List.length_set ..
          refine ⟨hlen ▸ hA, ?_, ?_⟩
          · by_cases hid : f.id = e.id
            · have hqf := (hq f hfmem).2
              rw [hid] at hqf
              rw [hid, getD_set_self _ _ _ _ (hid ▸ (hq f hfmem).1)]
              have hCe := hC f hfmem hid
              simp only []
              omega
            · rw [getD_set_ne _ _ _ _ _ hid]
              exact hB
          · intro g hg hgid
            have : g ∈ s.free := by
              rw [hfree]
              exact List.mem_cons_of_mem _ hg
            exact hC g this hgid
        | nil =>
          have hs : s.spawn =
              (.ok ⟨(s.all ++ [(⟨0, none⟩ : EntityIndex)]).length % 2 ^ 32 - 1, 0⟩,
              { s with all := s.all ++ [(⟨0, none⟩ : EntityIndex)] }) := by
            unfold Entities.spawn
            rw [if_neg hr0, if_neg hm, hfree]
          have hstep : stepE s .spawn =
              ({ s with all := s.all ++ [(⟨0, none⟩ : EntityIndex)] },
              [⟨(s.all ++ [(⟨0, none⟩ : EntityIndex)]).length % 2 ^ 32 - 1, 0⟩]) := by
            simp only [stepE]
            rw [hs]
          rw [hstep]
          dsimp only
          refine ⟨by rw [List.length_append]; omega, ?_, ?_⟩
          · rw [getD_append_left _ _ _ _ hA]
            exact hB
          · intro g hg hgid
            exact hC g hg hgid
  | free x =>
    have hstep : stepE s (.free x) = (s.freeEnt x, []) := by
      simp only [stepE]
    rw [hstep]
    dsimp only
    rcases freeEnt_cases s x with ⟨hcon, heq, hgen, hlt⟩ | ⟨hcon, heq⟩
    · rw [heq]
      dsimp only
      have hlen : (s.all.set x.id ⟨(s.all.getD x.id default).generation + 2,
          (s.all.getD x.id default).location⟩).length = s.all.length := List.length_set ..
      refine ⟨hlen ▸ hA, ?_, ?_⟩
      · by_cases hid : x.id = e.id
        · rw [hid, getD_set_self _ _ _ _ (hid ▸ hlt)]
          rw [hid] at hgen
          simp only []
          omega
        · rw [getD_set_ne _ _ _ _ _ hid]
          exact hB
      · intro g hg hgid
        rcases List.mem_append.mp hg with hg | hg
        · exact hC g hg hgid
        · rw [List.mem_singleton] at hg
          subst hg
          have hid2 : x.id = e.id := hgid
          rw [← hid2] at hB
          rw [hgen] at hB
          show e.generation < x.generation + 1
          omega
    · rw [heq]
      exact ⟨hA, hB, hC⟩
  | flush =>
    have hstep : stepE s .flush = (s.flush, []) := by
      simp only [stepE]
    rw [hstep]
    dsimp only
    by_cases hr0 : s.reservoir = 0
    · have : s.flush = { s with reservoir := 0 } := by
        unfold Entities.flush
        rw [if_pos hr0]
      rw [this]
      exact ⟨hA, hB, hC⟩
    · obtain ⟨⟨hnd, hq⟩, hlow, hcap, hhigh⟩ := hinv
      rw [flush_eq s hr0]
      dsimp only
      set k := min s.reservoir s.free.length with hk
      have hksub : ∀ f ∈ s.free.take k, f ∈ s.free := fun f hf => List.take_subset _ _ hf
      have hndtake : ((s.free.take k).map Entity.id).Nodup := by
        rw [List.map_take]
        exact List.Nodup.sublist (List.take_sublist ..) hnd
      obtain ⟨hlen1, hproc, hother⟩ := flushFold (s.free.take k) s.all hndtake
        (fun f hf => (hq f (hksub f hf)).1) (fun f hf => (hq f (hksub f hf)).2)
      set all1 := (s.free.take k).foldl
        (fun acc f => acc.set f.id ⟨(acc.getD f.id default).generation - 1, none⟩) s.all
        with hall1
      have hgetD_all1 : ∀ j, j < s.all.length →
          (if s.free.length < s.reservoir then
            all1 ++ List.replicate (s.reservoir - s.free.length) default else all1).getD j
            default = all1.getD j default := by
        intro j hj
        split
        · exact getD_append_left _ _ _ _ (by omega)
        · rfl
      have hlen2 : s.all.length ≤ (if s.free.length < s.reservoir then
          all1 ++ List.replicate (s.reservoir - s.free.length) default else all1).length := by
        split
        · rw [List.length_append, hlen1]
          omega
        · omega
      refine ⟨by omega, ?_, ?_⟩
      · rw [hgetD_all1 e.id hA]
        by_cases hp : ∃ g ∈ s.free.take k, g.id = e.id
        · obtain ⟨g, hg, hgid⟩ := hp
          rw [← hgid, hproc g hg]
          have := hC g (hksub g hg) hgid
          simp only []
          omega
        · push_neg at hp
          rw [getD_eq_get?, hother e.id hp, ← getD_eq_get?]
          exact hB
      · intro g hg hgid
        exact hC g (List.drop_subset _ _ hg) hgid

/-- A handle in the freed state is not contained. -/
theorem contains_false_of_freedInv {e : Entity} {s : Entities} {iss : List Entity}
    (h : FreedInv e s iss) : s.contains e = false := by
  obtain ⟨_, hlt, hgt, _⟩ := h
  unfold Entities.contains
  rw [get?_eq_some_getD s.all e.id default hlt]
  simp only [decide_eq_false_iff_not]
  omega

/-- Along any legitimate trace from a freed state the handle stays invalid. -/
theorem freed_stays_invalid (e : Entity) (ops : List EOp) :
    ∀ (s : Entities) (iss : List Entity), FreedInv e s iss → LegitE s iss ops →
    (runE s iss ops).1.contains e = false := by
  induction ops with
  | nil =>
    intro s iss hf _
    exact contains_false_of_freedInv hf
  | cons op rest ih =>
    intro s iss hf hleg
    exact ih _ _ (FreedInv_step e op hf hleg.1) hleg.2

/-- One legitimate, bounded operation either issues no handle with the freed
id — and the pending-reuse state persists — or the first handle it issues
with that id carries exactly `e.generation + 1`. -/
theorem pending_step (e : Entity) (op : EOp) {s : Entities} {iss : List Entity}
    (hf : FreedInv e s iss) (hp : PendingReuse e s iss)
    (hleg : match op with | .free x => x ∈ iss | _ => True)
    (hbnd : (stepE s op).1.all.length + (stepE s op).1.reservoir < 2 ^ 32) :
    (∀ h ∈ (stepE s op).2, h.id = e.id → h.generation = e.generation + 1) ∧
    ((∀ h ∈ (stepE s op).2, h.id ≠ e.id) →
      PendingReuse e (stepE s op).1 (iss ++ (stepE s op).2)) := by
  obtain ⟨hinv, hA, hB, hC⟩ := hf
  obtain ⟨⟨hnd, hq⟩, hlow, hcap, hhigh⟩ := hinv
  obtain ⟨hcapE, hcase⟩ := hp
  have hfreeE : ∀ g ∈ s.free, g.id = e.id → g = ⟨e.id, e.generation + 1⟩ := by
    intro g hg hgid
    rcases hcase with ⟨hmem, huniq, hst⟩ | ⟨hnone, hst⟩
    · exact huniq g hg hgid
    · exact absurd hgid (hnone g hg)
  cases op with
  | reserve =>
    by_cases hg : s.reservoir < Entities.MAX - s.all.length + s.free.length
    · have hr : s.reserve =
          (.ok (if s.reservoir < s.free.length then s.free.getD s.reservoir default
            else ⟨(s.all.length + s.reservoir - s.free.length) % 2 ^ 32, 0⟩),
            { s with reservoir := s.reservoir + 1 }) := by
        unfold Entities.reserve
        rw [if_pos hg]
      have hstep : stepE s .reserve =
          ({ s with reservoir := s.reservoir + 1 },
            [if s.reservoir < s.free.length then s.free.getD s.reservoir default
              else ⟨(s.all.length + s.reservoir - s.free.length) % 2 ^ 32, 0⟩]) := by
        simp only [stepE]
        rw [hr]
      rw [hstep] at hbnd ⊢
      have hbnd2 : s.all.length + (s.reservoir + 1) < 2 ^ 32 := hbnd
      constructor
      · intro h hh hid
        rw [List.mem_singleton] at hh
        subst hh
        revert hid
        split
        next hkf =>
          intro hid
          have hmem := getD_mem s.free s.reservoir default hkf
          rw [hfreeE _ hmem hid]
        next hkf =>
          intro hid
          exfalso
          have hmod : (s.all.length + s.reservoir - s.free.length) % 2 ^ 32 =
              s.all.length + s.reservoir - s.free.length := Nat.mod_eq_of_lt (by omega)
          have : (⟨(s.all.length + s.reservoir - s.free.length) % 2 ^ 32, 0⟩ : Entity).id
              = e.id := hid
          simp only [] at this
          omega
      · intro hnone
        refine ⟨?_, ?_⟩
        · intro h hh hid
          rcases List.mem_append.mp hh with hh | hh
          · exact hcapE h hh hid
          · exact absurd hid (hnone h hh)
        · exact hcase
    · have hr : s.reserve = (.error (), s) := by
        unfold Entities.reserve
        rw [if_neg hg]
      have hstep : stepE s .reserve = (s, []) := by
        simp only [stepE]
        rw [hr]
      rw [hstep]
      refine ⟨by simp, fun _ => ?_⟩
      rw [List.append_nil]
      exact ⟨hcapE, hcase⟩
  | reserveMany n =>
    by_cases hc : 2 ^ 32 ≤ n
    · have hr : s.reserveMany n = (.error (), s) := by
        unfold Entities.reserveMany
        rw [if_pos hc]
      have hstep : stepE s (.reserveMany n) = (s, []) := by
        simp only [stepE]
        rw [hr]
      rw [hstep]
      refine ⟨by simp, fun _ => ?_⟩
      rw [List.append_nil]
      exact ⟨hcapE, hcase⟩
    · by_cases hg : (s.reservoir + n + 2 ^ 32 - 1) % 2 ^ 32 <
          (Entities.MAX - s.all.length + s.free.length) % 2 ^ 32
      · have hr : s.reserveMany n =
            (.ok ((List.range n).map fun j =>
              if s.reservoir + j < s.free.length then s.free.getD (s.reservoir + j) default
              else ⟨(s.all.length + (s.reservoir + j) - s.free.length) % 2 ^ 32, 0⟩),
              { s with reservoir := s.reservoir + n }) := by
          unfold Entities.reserveMany
          rw [if_neg hc, if_pos hg]
        have hstep : stepE s (.reserveMany n) =
            ({ s with reservoir := s.reservoir + n },
              (List.range n).map fun j =>
                if s.reservoir + j < s.free.length then s.free.getD (s.reservoir + j) default
                else ⟨(s.all.length + (s.reservoir + j) - s.free.length) % 2 ^ 32, 0⟩) := by
          simp only [stepE]
          rw [hr]
        rw [hstep] at hbnd ⊢
        have hbnd2 : s.all.length + (s.reservoir + n) < 2 ^ 32 := hbnd
        constructor
        · intro h hh hid
          rw [List.mem_map] at hh
          obtain ⟨j, hjr, hj⟩ := hh
          rw [List.mem_range] at hjr
          by_cases hjf : s.reservoir + j < s.free.length
          · rw [if_pos hjf] at hj
            have hmem := getD_mem s.free (s.reservoir + j) default hjf
            rw [← hj] at hid ⊢
            rw [hfreeE _ hmem hid]
          · rw [if_neg hjf] at hj
            exfalso
            have hmod : (s.all.length + (s.reservoir + j) - s.free.length) % 2 ^ 32 =
                s.all.length + (s.reservoir + j) - s.free.length :=
              Nat.mod_eq_of_lt (by omega)
            rw [← hj] at hid
            have : (⟨(s.all.length + (s.reservoir + j) - s.free.length) % 2 ^ 32, 0⟩ :
                Entity).id = e.id := hid
            simp only [] at this
            omega
        · intro hnone
          refine ⟨?_, ?_⟩
          · intro h hh hid
            rcases List.mem_append.mp hh with hh | hh
            · exact hcapE h hh hid
            · exact absurd hid (hnone h hh)
          · exact hcase
      · have hr : s.reserveMany n = (.error (), s) := by
          unfold Entities.reserveMany
          rw [if_neg hc, if_neg hg]
        have hstep : stepE s (.reserveMany n) = (s, []) := by
          simp only [stepE]
          rw [hr]
        rw [hstep]
        refine ⟨by simp, fun _ => ?_⟩
        rw [List.append_nil]
        exact ⟨hcapE, hcase⟩
  | spawn =>
    by_cases hr0 : s.reservoir ≠ 0
    · have hs : s.spawn = (.error .notFlushed, s) := by
        unfold Entities.spawn
        rw [if_pos hr0]
      have hstep : stepE s .spawn = (s, []) := by
        simp only [stepE]
        rw [hs]
      rw [hstep]
      refine ⟨by simp, fun _ => ?_⟩
      rw [List.append_nil]
      exact ⟨hcapE, hcase⟩
    · by_cases hm : Entities.MAX ≤ s.all.length
      · have hs : s.spawn = (.error .tooMany, s) := by
          unfold Entities.spawn
          rw [if_neg hr0, if_pos hm]
        have hstep : stepE s .spawn = (s, []) := by
          simp only [stepE]
          rw [hs]
        rw [hstep]
        refine ⟨by simp, fun _ => ?_⟩
        rw [List.append_nil]
        exact ⟨hcapE, hcase⟩
      · cases hfree : s.free with
        | cons f rest =>
          have hfmem : f ∈ s.free := by
            rw [hfree]
            exact List.mem_cons_self ..
          have hs : s.spawn = (.ok f, { s with
              all := s.all.set f.id ⟨(s.all.getD f.id default).generation - 1, none⟩,
              free := rest }) := by
            unfold Entities.spawn
            rw [if_neg hr0, if_neg hm, hfree]
          have hstep : stepE s .spawn = ({ s with
              all := s.all.set f.id ⟨(s.all.getD f.id default).generation - 1, none⟩,
              free := rest }, [f]) := by
            simp only [stepE]
            rw [hs]
          rw [hstep]
          constructor
          · intro h hh hid
            rw [List.mem_singleton] at hh
            subst hh
            rw [hfreeE _ hfmem hid]
          · intro hnone
            have hne : f.id ≠ e.id := hnone f (List.mem_singleton_self _)
            refine ⟨?_, ?_⟩
            · intro h hh hid
              rcases List.mem_append.mp hh with hh | hh
              · exact hcapE h hh hid
              · rw [List.mem_singleton] at hh
                subst hh
                exact absurd hid hne
            · have hgd : ({ s with
                  all := s.all.set f.id ⟨(s.all.getD f.id default).generation - 1, none⟩,
                  free := rest } : Entities).all.getD e.id default
                  = s.all.getD e.id default :=
                getD_set_ne _ _ _ _ _ hne
              rcases hcase with ⟨hmem, huniq, hst⟩ | ⟨hnone2, hst⟩
              · left
                have hmem' : (⟨e.id, e.generation + 1⟩ : Entity) ∈ rest := by
                  rw [hfree] at hmem
                  rcases List.mem_cons.mp hmem with h1 | h2
                  · exact absurd (by rw [← h1]) hne
                  · exact h2
                refine ⟨hmem', ?_, ?_⟩
                · intro g hg hgid
                  have : g ∈ s.free := by
                    rw [hfree]
                    exact List.mem_cons_of_mem _ hg
                  exact huniq g this hgid
                · rw [hgd]
                  exact hst
              · right
                refine ⟨?_, ?_⟩
                · intro g hg
                  have : g ∈ s.free := by
                    rw [hfree]
                    exact List.mem_cons_of_mem _ hg
                  exact hnone2 g this
                · rw [hgd]
                  exact hst
        | nil =>
          have hs : s.spawn =
              (.ok ⟨(s.all ++ [(⟨0, none⟩ : EntityIndex)]).length % 2 ^ 32 - 1, 0⟩,
              { s with all := s.all ++ [(⟨0, none⟩ : EntityIndex)] }) := by
            unfold Entities.spawn
            rw [if_neg hr0, if_neg hm, hfree]
          have hstep : stepE s .spawn =
              ({ s with all := s.all ++ [(⟨0, none⟩ : EntityIndex)] },
              [⟨(s.all ++ [(⟨0, none⟩ : EntityIndex)]).length % 2 ^ 32 - 1, 0⟩]) := by
            simp only [stepE]
            rw [hs]
          rw [hstep] at hbnd ⊢
          have hbnd2 : (s.all.length + 1) + s.reservoir < 2 ^ 32 := by
            have : (s.all ++ [(⟨0, none⟩ : EntityIndex)]).length + s.reservoir < 2 ^ 32 := hbnd
            rw [List.length_append, List.length_singleton] at this
            exact this
          have hidval : (s.all ++ [(⟨0, none⟩ : EntityIndex)]).length % 2 ^ 32 - 1
              = s.all.length := by
            rw [List.length_append, List.length_singleton,
              Nat.mod_eq_of_lt (by omega)]
            omega
          constructor
          · intro h hh hid
            rw [List.mem_singleton] at hh
            subst hh
            exfalso
            have : (s.all ++ [(⟨0, none⟩ : EntityIndex)]).length % 2 ^ 32 - 1 = e.id := hid
            rw [hidval] at this
            omega
          · intro hnone
            refine ⟨?_, ?_⟩
            · intro h hh hid
              rcases List.mem_append.mp hh with hh | hh
              · exact hcapE h hh hid
              · exact absurd hid (hnone h hh)
            · have hgd : ({ s with all := s.all ++ [(⟨0, none⟩ : EntityIndex)] } :
                  Entities).all.getD e.id default = s.all.getD e.id default :=
                getD_append_left _ _ _ _ hA
              rcases hcase with ⟨hmem, huniq, hst⟩ | ⟨hnone2, hst⟩
              · rw [hfree] at hmem
                cases hmem
              · right
                refine ⟨?_, ?_⟩
                · intro g hg
                  have hg2 : g ∈ s.free := hg
                  exact hnone2 g hg2
                · rw [hgd]
                  exact hst
  | free x =>
    have hstep : stepE s (.free x) = (s.freeEnt x, []) := by
      simp only [stepE]
    rw [hstep]
    refine ⟨by simp, fun _ => ?_⟩
    rw [List.append_nil]
    rcases freeEnt_cases s x with ⟨hcon, heq, hgen, hlt⟩ | ⟨hcon, heq⟩
    · have hxne : x.id ≠ e.id := by
        intro hxe
        have hcapx := hcapE x hleg hxe
        rw [hxe] at hgen
        rcases hcase with ⟨_, _, hst⟩ | ⟨_, hst⟩ <;> omega
      rw [heq]
      have hgd : (s.all.set x.id ⟨(s.all.getD x.id default).generation + 2,
          (s.all.getD x.id default).location⟩).getD e.id default
          = s.all.getD e.id default := getD_set_ne _ _ _ _ _ hxne
      refine ⟨hcapE, ?_⟩
      rcases hcase with ⟨hmem, huniq, hst⟩ | ⟨hnone2, hst⟩
      · left
        refine ⟨List.mem_append_left _ hmem, ?_, ?_⟩
        · intro g hg hgid
          rcases List.mem_append.mp hg with hg | hg
          · exact huniq g hg hgid
          · rw [List.mem_singleton] at hg
            subst hg
            exact absurd hgid hxne
        · rw [hgd]
          exact hst
      · right
        refine ⟨?_, ?_⟩
        · intro g hg
          rcases List.mem_append.mp hg with hg | hg
          · exact hnone2 g hg
          · rw [List.mem_singleton] at hg
            subst hg
            exact hxne
        · rw [hgd]
          exact hst
    · rw [heq]
      exact ⟨hcapE, hcase⟩
  | flush =>
    have hstep : stepE s .flush = (s.flush, []) := by
      simp only [stepE]
    rw [hstep]
    refine ⟨by simp, fun _ => ?_⟩
    rw [List.append_nil]
    by_cases hr0 : s.reservoir = 0
    · have : s.flush = { s with reservoir := 0 } := by
        unfold Entities.flush
        rw [if_pos hr0]
      rw [this]
      exact ⟨hcapE, hcase⟩
    · rw [flush_eq s hr0]
      set k := min s.reservoir s.free.length with hk
      have hksub : ∀ f ∈ s.free.take k, f ∈ s.free := fun f hf => List.take_subset _ _ hf
      have hndtake : ((s.free.take k).map Entity.id).Nodup := by
        rw [List.map_take]
        exact List.Nodup.sublist (List.take_sublist ..) hnd
      have hndboth : ((s.free.take k).map Entity.id ++
          (s.free.drop k).map Entity.id).Nodup := by
        rw [← List.map_append, List.take_append_drop]
        exact hnd
      have hdisj : ∀ g ∈ s.free.take k, ∀ f ∈ s.free.drop k, g.id ≠ f.id := by
        intro g hg f hf hc
        exact (List.nodup_append.mp hndboth).2.2 (List.mem_map_of_mem Entity.id hg)
          (hc ▸ List.mem_map_of_mem Entity.id hf)
      obtain ⟨hlen1, hproc, hother⟩ := flushFold (s.free.take k) s.all hndtake
        (fun f hf => (hq f (hksub f hf)).1) (fun f hf => (hq f (hksub f hf)).2)
      set all1 := (s.free.take k).foldl
        (fun acc f => acc.set f.id ⟨(acc.getD f.id default).generation - 1, none⟩) s.all
        with hall1
      have hgetD_all1 : ∀ j, j < s.all.length →
          (if s.free.length < s.reservoir then
            all1 ++ List.replicate (s.reservoir - s.free.length) default else all1).getD j
            default = all1.getD j default := by
        intro j hj
        split
        · exact getD_append_left _ _ _ _ (by omega)
        · rfl
      refine ⟨hcapE, ?_⟩
      rcases hcase with ⟨hmem, huniq, hst⟩ | ⟨hnone2, hst⟩
      · by_cases hinq : (⟨e.id, e.generation + 1⟩ : Entity) ∈ s.free.take k
        · right
          refine ⟨?_, ?_⟩
          · intro f hf hfid
            have hfe := huniq f (List.drop_subset _ _ hf) hfid
            subst hfe
            exact absurd rfl (hdisj _ hinq _ hf)
          · rw [hgetD_all1 e.id hA]
            have := hproc _ hinq
            rw [this]
        · left
          have hdropmem : (⟨e.id, e.generation + 1⟩ : Entity) ∈ s.free.drop k := by
            have hmem2 : (⟨e.id, e.generation + 1⟩ : Entity) ∈
                s.free.take k ++ s.free.drop k := by
              rw [List.take_append_drop]
              exact hmem
            rcases List.mem_append.mp hmem2 with h1 | h2
            · exact absurd h1 hinq
            · exact h2
          refine ⟨hdropmem, ?_, ?_⟩
          · intro f hf hfid
            exact huniq f (List.drop_subset _ _ hf) hfid
          · have hpne : ∀ g ∈ s.free.take k, g.id ≠ e.id := by
              intro g hg hgid
              have := huniq g (hksub g hg) hgid
              subst this
              exact hinq hg
            rw [hgetD_all1 e.id hA, getD_eq_get?, hother e.id hpne, ← getD_eq_get?]
            exact hst
      · right
        refine ⟨fun f hf => hnone2 f (List.drop_subset _ _ hf), ?_⟩
        have hpne : ∀ g ∈ s.free.take k, g.id ≠ e.id := fun g hg => hnone2 g (hksub g hg)
        rw [hgetD_all1 e.id hA, getD_eq_get?, hother e.id hpne, ← getD_eq_get?]
        exact hst

/-- Along any legitimate bounded trace from a pending-reuse state, the first
handle issued with the freed id carries generation `e.generation + 1`. -/
theorem first_reissue_gen (e : Entity) (ops : List EOp) :
    ∀ (s : Entities) (iss : List Entity), FreedInv e s iss → PendingReuse e s iss →
    LegitE s iss ops → BoundedE s ops →
    ∀ h, firstIssueAt e.id s ops = some h → h.generation = e.generation + 1 := by
  induction ops with
  | nil =>
    intro s iss _ _ _ _ h hc
    simp [firstIssueAt] at hc
  | cons op rest ih =>
    intro s iss hf hp hleg hbnd h hfind
    have hbnd' : (stepE s op).1.all.length + (stepE s op).1.reservoir < 2 ^ 32 :=
      BoundedE_head hbnd.2
    unfold firstIssueAt at hfind
    cases hfq : ((stepE s op).2).find? (fun x => x.id = e.id) with
    | some h' =>
      rw [hfq] at hfind
      have hmem := List.mem_of_find?_eq_some hfq
      have hpred := List.find?_some hfq
      have hid : h'.id = e.id := by simpa using hpred
      have hgen := (pending_step e op hf hp hleg.1 hbnd').1 h' hmem hid
      cases hfind
      exact hgen
    | none =>
      rw [hfq] at hfind
      have hnone : ∀ x ∈ (stepE s op).2, x.id ≠ e.id := by
        intro x hx
        have := List.find?_eq_none.mp hfq x hx
        simpa using this
      exact ih _ _ (FreedInv_step e op hf hleg.1)
        ((pending_step e op hf hp hleg.1 hbnd').2 hnone) hleg.2 hbnd.2 h hfind

/-- C3 (amended: the subsequent operations must free only handles previously
issued by `reserve`/`reserve_many`/`spawn`, and the id space must stay within
`u32` — the original claim fails for forged handles, see
`free_resurrection_refuted`): after `free(e)` succeeds on an issued handle,
`contains e` is false and stays false across any such sequence of
reserve/spawn/free/flush operations, and the first subsequent reissue of
`e.id` (if any) is a handle with generation exactly `e.generation + 1`. -/
theorem freed_handle_cycle (s₀ : Entities) (iss₀ : List Entity) (e : Entity)
    (hinv : EInv s₀ iss₀) (he : e ∈ iss₀) (hc : s₀.contains e = true) (ops : List EOp)
    (hleg : LegitE (s₀.freeEnt e) iss₀ ops)
    (hbnd : BoundedE (s₀.freeEnt e) ops) :
    (s₀.freeEnt e).contains e = false ∧
    (runE (s₀.freeEnt e) iss₀ ops).1.contains e = false ∧
    (∀ h, firstIssueAt e.id (s₀.freeEnt e) ops = some h →
      h.generation = e.generation + 1) := by
  rcases freeEnt_cases s₀ e with ⟨_, heq, hgen, hlt⟩ | ⟨hcon, _⟩
  · obtain ⟨⟨hnd, hq⟩, hlow, hcap, hhigh⟩ := hinv
    have hnotq : ∀ f ∈ s₀.free, f.id ≠ e.id :=
      issued_free_not_queued ⟨⟨hnd, hq⟩, hlow, hcap, hhigh⟩ he hgen
    have hinv1 : EInv (s₀.freeEnt e) iss₀ := by
      have := @EInv_free s₀ iss₀ e ⟨⟨hnd, hq⟩, hlow, hcap, hhigh⟩ he
      rw [show (stepE s₀ (.free e)).1 = s₀.freeEnt e from by simp only [stepE]] at this
      rw [show (stepE s₀ (.free e)).2 = [] from by simp only [stepE]] at this
      rw [List.append_nil] at this
      exact this
    have hlen : (s₀.all.set e.id ⟨(s₀.all.getD e.id default).generation + 2,
        (s₀.all.getD e.id default).location⟩).length = s₀.all.length := List.length_set ..
    have hfreed : FreedInv e (s₀.freeEnt e) iss₀ := by
      refine ⟨hinv1, ?_, ?_, ?_⟩
      · rw [heq]
        exact hlen ▸ hlt
      · rw [heq]
        show e.generation < ((s₀.all.set e.id _).getD e.id default).generation
        rw [getD_set_self _ _ _ _ hlt]
        simp only []
        omega
      · rw [heq]
        intro f hf hfid
        rcases List.mem_append.mp hf with hf | hf
        · exact absurd hfid (hnotq f hf)
        · rw [List.mem_singleton] at hf
          subst hf
          show e.generation < e.generation + 1
          omega
    have hpend : PendingReuse e (s₀.freeEnt e) iss₀ := by
      refine ⟨?_, Or.inl ⟨?_, ?_, ?_⟩⟩
      · intro h hh hid
        have := hlow h hh (hid ▸ hlt)
        rw [hid] at this
        rw [hgen] at this
        exact this
      · rw [heq]
        exact List.mem_append_right _ (List.mem_singleton_self _)
      · rw [heq]
        intro f hf hfid
        rcases List.mem_append.mp hf with hf | hf
        · exact absurd hfid (hnotq f hf)
        · rw [List.mem_singleton] at hf
          exact hf.symm ▸ rfl
      · rw [heq]
        show ((s₀.all.set e.id _).getD e.id default).generation = e.generation + 2
        rw [getD_set_self _ _ _ _ hlt]
        simp only []
        omega
    exact ⟨contains_false_of_freedInv hfreed,
      freed_stays_invalid e ops _ _ hfreed hleg,
      first_reissue_gen e ops _ _ hfreed hpend hleg hbnd⟩
  · rw [hcon] at hc
    cases hc

/-- Witness for `freed_handle_cycle`: spawn one entity, free it, then spawn
again; the freed handle stays invalid and the reissued handle has its
generation bumped by one. -/
theorem freed_handle_cycle_witness :
    ((⟨0, [⟨0, none⟩], []⟩ : Entities).freeEnt ⟨0, 0⟩).contains ⟨0, 0⟩ = false ∧
    (runE ((⟨0, [⟨0, none⟩], []⟩ : Entities).freeEnt ⟨0, 0⟩) [⟨0, 0⟩] [.spawn]).1.contains
      ⟨0, 0⟩ = false ∧
    (∀ h, firstIssueAt 0 ((⟨0, [⟨0, none⟩], []⟩ : Entities).freeEnt ⟨0, 0⟩) [.spawn]
      = some h → h.generation = 0 + 1) :=
  freed_handle_cycle ⟨0, [⟨0, none⟩], []⟩ [⟨0, 0⟩] ⟨0, 0⟩ (by decide) (by decide)
    (by decide) [.spawn] (by decide) (by decide)

/-- C3 counterexample to the claim as stated: over the operation sequence
`spawn; free (0,0); free (0,2); spawn; spawn` from an empty allocator the
free of the (never-issued, but `contains`-valid) handle `(0, 2)` succeeds,
`contains (0, 2)` becomes false, and then becomes true again after the two
spawns — so a successfully freed handle does not stay invalid under arbitrary
subsequent operations. -/
theorem free_resurrection_refuted :
    ((((Entities.spawn ⟨0, [], []⟩).2.freeEnt ⟨0, 0⟩).contains ⟨0, 2⟩) = true) ∧
    (((((Entities.spawn ⟨0, [], []⟩).2.freeEnt ⟨0, 0⟩).freeEnt ⟨0, 2⟩).contains ⟨0, 2⟩)
      = false) ∧
    ((((((Entities.spawn ⟨0, [], []⟩).2.freeEnt ⟨0, 0⟩).freeEnt
      ⟨0, 2⟩).spawn.2).spawn.2).contains ⟨0, 2⟩ = true) := by decide



end Fei

namespace Fei

/-! ### Change marks (`fei-ecs/src/change.rs`) -/

/-- `ChangeMark`: a monotonic `u32` tick. -/
structure ChangeMark where
  tick : Nat
deriving DecidableEq

/-- `ChangeMark::newer_than` (`self.tick > other.tick`). -/
def ChangeMark.newer_than (a b : ChangeMark) : Bool :=
  b.tick < a.tick

/-- `ChangeMarks`: the added/updated pair. -/
structure ChangeMarks where
  added : ChangeMark
  updated : ChangeMark
deriving DecidableEq

/-- `MutErased`: the state behind a mutable change-aware reference — the
marks it points at, the reader's `last` mark, and the caller's `current`
mark.  (The data pointer itself is irrelevant to the claims.) -/
structure MutErased where
  currentMarks : ChangeMarks
  lastMark : ChangeMark
  currentMark : ChangeMark
deriving DecidableEq

/-- `MutErased::update`: stamp `updated` with the caller's current mark. -/
def MutErased.update (m : MutErased) : MutErased :=
  { m with currentMarks := { m.currentMarks with updated := m.currentMark } }

/-- `MutErased::is_updated`. -/
def MutErased.isUpdated (m : MutErased) : Bool :=
  m.currentMarks.updated.newer_than m.lastMark

/-- `MutErased::get_mut`'s effect on the marks: it calls `update` before
handing out the pointer. -/
def MutErased.getMutMarks (m : MutErased) : MutErased :=
  m.update

/-- `RefErased`: a shared change-aware reference — the marks it observed and
the reader's `last` mark. -/
structure RefErased where
  currentMarks : ChangeMarks
  lastMark : ChangeMark
deriving DecidableEq

/-- `RefErased::is_updated`. -/
def RefErased.isUpdated (r : RefErased) : Bool :=
  r.currentMarks.updated.newer_than r.lastMark

/-- C6: after any write through a mutable change-aware reference at tick `t`,
the datum's `updated` mark equals `t`, and a reader with last-seen mark
`last` observes `is_updated() = true` exactly when `last < t` (hence false
when `last ≥ t`) — stated for both shared and mutable readers. -/
theorem change_mark_write_read (m : MutErased) (t : Nat) (ht : m.currentMark = ⟨t⟩) :
    ((m.getMutMarks).currentMarks.updated = ⟨t⟩ ∧ (m.update).currentMarks.updated = ⟨t⟩) ∧
    (∀ r : RefErased, r.currentMarks.updated = ⟨t⟩ →
      (r.isUpdated = true ↔ r.lastMark.tick < t)) ∧
    (∀ m' : MutErased, m'.currentMarks.updated = ⟨t⟩ →
      (m'.isUpdated = true ↔ m'.lastMark.tick < t)) := by
  refine ⟨⟨?_, ?_⟩, ?_, ?_⟩
  · simp [MutErased.getMutMarks, MutErased.update, ht]
  · simp [MutErased.update, ht]
  · intro r hr
    simp [RefErased.isUpdated, ChangeMark.newer_than, hr]
  · intro m' hm
    simp [MutErased.isUpdated, ChangeMark.newer_than, hm]

/-- Witness for `change_mark_write_read` at tick 5 and last mark 3. -/
theorem change_mark_write_read_witness :
    ((MutErased.getMutMarks ⟨⟨⟨0⟩, ⟨0⟩⟩, ⟨3⟩, ⟨5⟩⟩).currentMarks.updated = ⟨5⟩ ∧
      (MutErased.update ⟨⟨⟨0⟩, ⟨0⟩⟩, ⟨3⟩, ⟨5⟩⟩).currentMarks.updated = ⟨5⟩) ∧
    (∀ r : RefErased, r.currentMarks.updated = ⟨5⟩ →
      (r.isUpdated = true ↔ r.lastMark.tick < 5)) ∧
    (∀ m' : MutErased, m'.currentMarks.updated = ⟨5⟩ →
      (m'.isUpdated = true ↔ m'.lastMark.tick < 5)) :=
  change_mark_write_read ⟨⟨⟨0⟩, ⟨0⟩⟩, ⟨3⟩, ⟨5⟩⟩ 5 rfl

/-! ### Resources (`fei-ecs/src/resource/collection.rs`) -/

/-- Thread identity (`std::thread::ThreadId`). -/
abbrev ThreadId := Nat

/-- `LocalError { origin, caller }`. -/
structure LocalError where
  origin : ThreadId
  caller : ThreadId
deriving DecidableEq

/-- `ResourceData` with the `BoxErased` payload abstracted to a value. -/
structure ResourceData where
  inner : Val
  added : ChangeMark
  updated : ChangeMark
deriving DecidableEq

/-- The resource collection: send containers, non-send containers, and the
per-non-send-id originating-thread record (`MaybeUninit<ThreadId>` modeled
as `Option ThreadId`, `none` = uninitialized). -/
structure Resources where
  containers : List (Nat × ResourceData)
  localContainers : List (Nat × ResourceData)
  localThreads : List (Option ThreadId)
deriving DecidableEq

/-- `Resources::insert_local`; `caller` models `std::thread::current().id()`. -/
def Resources.insertLocal (r : Resources) (id : Nat) (resource : Val)
    (current : ChangeMark) (caller : ThreadId) :
    Except LocalError (Option Val) × Resources :=
  match alGet r.localContainers id with
  | some prev =>
    let origin := (r.localThreads.getD id none).getD 0
    if origin = caller then
      (.ok (some prev.inner),
        { r with localContainers :=
            alPut r.localContainers id ⟨resource, current, current⟩ })
    else (.error ⟨origin, caller⟩, r)
  | none =>
    (.ok none,
      { r with
        localContainers := alPut r.localContainers id ⟨resource, current, current⟩,
        localThreads := r.localThreads.set id (some caller) })

/-- `Resources::remove_local`. -/
def Resources.removeLocal (r : Resources) (id : Nat) (caller : ThreadId) :
    Except LocalError (Option Val) × Resources :=
  match alGet r.localContainers id with
  | some data =>
    let origin := (r.localThreads.getD id none).getD 0
    if origin = caller then
      (.ok (some data.inner), { r with localContainers := alRemove r.localContainers id })
    else (.error ⟨origin, caller⟩, r)
  | none => (.ok none, r)

/-- `Resources::get_local`. -/
def Resources.getLocal (r : Resources) (id : Nat) (caller : ThreadId) :
    Except LocalError (Option ResourceData) :=
  match alGet r.localContainers id with
  | some v =>
    let origin := (r.localThreads.getD id none).getD 0
    if origin = caller then .ok (some v) else .error ⟨origin, caller⟩
  | none => .ok none

/-- `Resources::get_local_mut` (identical guard to `get_local`). -/
def Resources.getLocalMut (r : Resources) (id : Nat) (caller : ThreadId) :
    Except LocalError (Option ResourceData) :=
  match alGet r.localContainers id with
  | some v =>
    let origin := (r.localThreads.getD id none).getD 0
    if origin = caller then .ok (some v) else .error ⟨origin, caller⟩
  | none => .ok none

/-- C7: for a non-send resource installed from thread X (present with
recorded origin X), every accessor invoked from Y ≠ X — `get_local`,
`get_local_mut`, `remove_local`, and `insert_local` on the already-present
resource — returns `LocalError { origin := X, caller := Y }` (leaving the
state unchanged where it returns one), and the same accessors invoked from X
succeed. -/
theorem resource_thread_affinity (r : Resources) (id : Nat) (X Y : ThreadId)
    (data : ResourceData) (v : Val) (mark : ChangeMark)
    (hpresent : alGet r.localContainers id = some data)
    (horigin : r.localThreads.getD id none = some X)
    (hne : Y ≠ X) :
    (r.getLocal id Y = .error ⟨X, Y⟩) ∧
    (r.getLocalMut id Y = .error ⟨X, Y⟩) ∧
    ((r.removeLocal id Y).1 = .error ⟨X, Y⟩ ∧ (r.removeLocal id Y).2 = r) ∧
    ((r.insertLocal id v mark Y).1 = .error ⟨X, Y⟩ ∧ (r.insertLocal id v mark Y).2 = r) ∧
    (r.getLocal id X = .ok (some data)) ∧
    (r.getLocalMut id X = .ok (some data)) ∧
    ((r.removeLocal id X).1 = .ok (some data.inner)) ∧
    ((r.insertLocal id v mark X).1 = .ok (some data.inner)) := by
  have hXY : ¬ X = Y := fun hh => hne hh.symm
  simp only [List.getD_eq_getElem?_getD] at horigin
  refine ⟨?_, ?_, ⟨?_, ?_⟩, ⟨?_, ?_⟩, ?_, ?_, ?_, ?_⟩ <;>
    simp [Resources.getLocal, Resources.getLocalMut, Resources.removeLocal,
      Resources.insertLocal, hpresent, horigin, hXY]

/-- Witness for `resource_thread_affinity` at a concrete resource table. -/
theorem resource_thread_affinity_witness :
    ((⟨[], [(0, ⟨7, ⟨1⟩, ⟨1⟩⟩)], [some 4]⟩ : Resources).getLocal 0 9
      = .error ⟨4, 9⟩) ∧
    ((⟨[], [(0, ⟨7, ⟨1⟩, ⟨1⟩⟩)], [some 4]⟩ : Resources).getLocal 0 4
      = .ok (some ⟨7, ⟨1⟩, ⟨1⟩⟩)) := by
  have h := resource_thread_affinity ⟨[], [(0, ⟨7, ⟨1⟩, ⟨1⟩⟩)], [some 4]⟩ 0 4 9
    ⟨7, ⟨1⟩, ⟨1⟩⟩ 0 ⟨0⟩ (by decide) (by decide) (by decide)
  exact ⟨h.1, h.2.2.2.2.1⟩

end Fei

namespace Fei

/-! ### Component store (`fei-ecs/src/component/`)

The archetype-based component store: component/set registries, the archetype
graph with cached transitions, tables (structure-of-arrays columns), the
sparse-set store and the ZST bitset store.  Component values are modeled at
per-field granularity (`Val` at a byte offset), and the `PtrOwned` holding a
component-set value is modeled as a function from byte offset to `Val`. -/

/-- `ComponentStorage` (declared storage kind of a sized component). -/
inductive StorageKind where
  | table
  | sparseSet
deriving DecidableEq

/-- The result of `ComponentInfo::storage()`: `none` for zero-sized types
(which always live in bitsets), otherwise the declared kind. -/
structure CompInfo where
  storage : Option StorageKind
deriving DecidableEq

instance : Inhabited CompInfo := ⟨⟨none⟩⟩

/-- `ComponentSetInfo`: sorted component ids, their bitset, per-id byte
offsets, and the sparse-set / ZST / table partitions.  (`table_components`
is referenced by `Table::update` but missing from the `ComponentSetInfo`
declaration in `component/def.rs`, which is mid-refactor; per the spec the
table components are the complement of the sparse-set and ZST subsets.) -/
structure SetInfo where
  components : List Nat
  componentBits : Finset Nat
  componentOffsets : List (Nat × Nat)
  sparseSetComponents : List Nat
  zstComponents : List Nat
  tableComponents : List Nat
deriving DecidableEq

instance : Inhabited SetInfo := ⟨⟨[], ∅, [], [], [], []⟩⟩

/-- Byte offset of a component inside a set value. -/
def offsetOf (si : SetInfo) (id : Nat) : Nat :=
  (alGet si.componentOffsets id).getD 0

/-- `Archetype`: component bitset, storage partitions, optional table, and
the cached insertion/removal transitions keyed by component-set id. -/
structure Archetype where
  componentBits : Finset Nat
  sparseSetComponents : List Nat
  zstComponents : List Nat
  tableId : Option Nat
  insertions : List (Nat × Nat)
  removals : List (Nat × Option Nat)
deriving DecidableEq

instance : Inhabited Archetype := ⟨⟨∅, [], [], none, [], []⟩⟩

/-- `Table`: sorted table-stored component ids, their bitset, the entity per
row, and one column (list of values, same length as `entities`) per id. -/
structure Table where
  components : List Nat
  componentBits : Finset Nat
  entities : List Entity
  columns : List (Nat × List Val)
deriving DecidableEq

instance : Inhabited Table := ⟨⟨[], ∅, [], []⟩⟩

/-- `Table::new`. -/
def Table.new (comps : List Nat) : Table :=
  ⟨comps, comps.toFinset, [], comps.map fun id => (id, [])⟩

/-- `Table::insert`: push a fresh row for an entity from a set value;
returns the row index. -/
def Table.insertRow (t : Table) (e : Entity) (v : Nat → Val) (si : SetInfo) : Table × Nat :=
  (⟨t.components, t.componentBits, t.entities ++ [e],
    t.components.foldl
      (fun cols id => alModify cols id fun col => col ++ [v (offsetOf si id)]) t.columns⟩,
   t.entities.length)

/-- `Table::update`: overwrite the set's table components at a row in place
(dropping the previous values). -/
def Table.update (t : Table) (i : Nat) (v : Nat → Val) (si : SetInfo) : Table :=
  ⟨t.components, t.componentBits, t.entities,
    si.tableComponents.foldl
      (fun cols id => alModify cols id fun col => col.set i (v (offsetOf si id))) t.columns⟩

/-- `Table::insert_from`: move a row from `f` into `t`, overwriting the
columns named by the set with the set's values (dropping the moved-out
values there) and migrating the remaining shared columns; also returns the
entity swapped into the vacated row of `f` and the new row index in `t`. -/
def Table.insertFrom (t f : Table) (fromIndex : Nat) (v : Nat → Val) (si : SetInfo) :
    Table × Table × Option Entity × Nat :=
  let entity := f.entities.getD fromIndex default
  let fEntities := swapRemove f.entities fromIndex
  let cols := t.components.foldl
    (fun (acc : List (Nat × List Val) × List (Nat × List Val)) id =>
      match alGet acc.2 id with
      | some fcol =>
        match alGet si.componentOffsets id with
        | some off =>
          (alModify acc.1 id (fun col => col ++ [v off]),
            alPut acc.2 id (swapRemove fcol fromIndex))
        | none =>
          (alModify acc.1 id (fun col => col ++ [fcol.getD fromIndex 0]),
            alPut acc.2 id (swapRemove fcol fromIndex))
      | none =>
        (alModify acc.1 id (fun col => col ++ [v (offsetOf si id)]), acc.2))
    (t.columns, f.columns)
  (⟨t.components, t.componentBits, t.entities ++ [entity], cols.1⟩,
   ⟨f.components, f.componentBits, fEntities, cols.2⟩,
   fEntities.get? fromIndex,
   t.entities.length)

/-- `Table::remove_from`: move a row from `f` into `t`, dropping the values
of columns absent from `t`. -/
def Table.removeFrom (t f : Table) (fromIndex : Nat) : Table × Table × Option Entity × Nat :=
  let entity := f.entities.getD fromIndex default
  let fEntities := swapRemove f.entities fromIndex
  let cols := f.components.foldl
    (fun (acc : List (Nat × List Val) × List (Nat × List Val)) id =>
      let fcol := (alGet acc.2 id).getD []
      match alGet acc.1 id with
      | some _ =>
        (alModify acc.1 id (fun col => col ++ [fcol.getD fromIndex 0]),
          alPut acc.2 id (swapRemove fcol fromIndex))
      | none => (acc.1, alPut acc.2 id (swapRemove fcol fromIndex)))
    (t.columns, f.columns)
  (⟨t.components, t.componentBits, t.entities ++ [entity], cols.1⟩,
   ⟨f.components, f.componentBits, fEntities, cols.2⟩,
   fEntities.get? fromIndex,
   t.entities.length)

/-- `Table::extract_from`: like `remove_from`, but values of columns absent
from `t` are handed to the caller as `(component id, value)` pairs. -/
def Table.extractFrom (t f : Table) (fromIndex : Nat) :
    Table × Table × List (Nat × Val) × Option Entity × Nat :=
  let entity := f.entities.getD fromIndex default
  let fEntities := swapRemove f.entities fromIndex
  let cols := f.components.foldl
    (fun (acc : List (Nat × List Val) × List (Nat × List Val) × List (Nat × Val)) id =>
      let fcol := (alGet acc.2.1 id).getD []
      match alGet acc.1 id with
      | some _ =>
        (alModify acc.1 id (fun col => col ++ [fcol.getD fromIndex 0]),
          alPut acc.2.1 id (swapRemove fcol fromIndex), acc.2.2)
      | none =>
        (acc.1, alPut acc.2.1 id (swapRemove fcol fromIndex),
          acc.2.2 ++ [(id, fcol.getD fromIndex 0)]))
    (t.columns, f.columns, [])
  (⟨t.components, t.componentBits, t.entities ++ [entity], cols.1⟩,
   ⟨f.components, f.componentBits, fEntities, cols.2.1⟩,
   cols.2.2,
   fEntities.get? fromIndex,
   t.entities.length)

/-- `Table::remove`: swap-remove a row, dropping all its values. -/
def Table.removeRow (t : Table) (i : Nat) : Table × Option Entity :=
  let ents := swapRemove t.entities i
  (⟨t.components, t.componentBits, ents,
    t.components.foldl (fun cols id => alModify cols id fun col => swapRemove col i)
      t.columns⟩,
   ents.get? i)

/-- `Table::extract`: swap-remove a row, handing every value to the caller. -/
def Table.extractRow (t : Table) (i : Nat) : Table × List (Nat × Val) × Option Entity :=
  let ents := swapRemove t.entities i
  let res := t.components.foldl
    (fun (acc : List (Nat × List Val) × List (Nat × Val)) id =>
      (alModify acc.1 id (fun col => swapRemove col i),
        acc.2 ++ [(id, ((alGet acc.1 id).getD []).getD i 0)]))
    (t.columns, [])
  (⟨t.components, t.componentBits, ents, res.1⟩, res.2, ents.get? i)

/-- `SparseSets::insert`: write the set's sparse-set components for an
entity id, replacing (and dropping) previous occupants. -/
def sparseInsert (ss : List (Nat × List (Nat × Val))) (eid : Nat) (v : Nat → Val)
    (si : SetInfo) : List (Nat × List (Nat × Val)) :=
  si.sparseSetComponents.foldl
    (fun ss id => alModify ss id fun m => alPut m eid (v (offsetOf si id))) ss

/-- `SparseSets::remove` (drops present values; absent keys are no-ops). -/
def sparseRemove (ss : List (Nat × List (Nat × Val))) (eid : Nat) (comps : List Nat) :
    List (Nat × List (Nat × Val)) :=
  comps.foldl (fun ss id => alModify ss id fun m => alRemove m eid) ss

/-- `SparseSets::extract`: remove present values and hand them out as
`(component id, value)` pairs (absent keys produce no callback). -/
def sparseExtract (ss : List (Nat × List (Nat × Val))) (eid : Nat) (comps : List Nat) :
    List (Nat × List (Nat × Val)) × List (Nat × Val) :=
  comps.foldl
    (fun (acc : List (Nat × List (Nat × Val)) × List (Nat × Val)) id =>
      match alGet ((alGet acc.1 id).getD []) eid with
      | some value =>
        (alModify acc.1 id (fun m => alRemove m eid), acc.2 ++ [(id, value)])
      | none => (acc.1, acc.2))
    (ss, [])

/-- `Bitset::insert` for the set's ZST components (dropper side effects are
not modeled; membership is what mattered). -/
def bitsetInsert (bs : List (Nat × Finset Nat)) (eid : Nat) (si : SetInfo) :
    List (Nat × Finset Nat) :=
  si.zstComponents.foldl (fun bs id => alModify bs id fun st => insert eid st) bs

/-- `Bitset::remove`. -/
def bitsetRemove (bs : List (Nat × Finset Nat)) (eid : Nat) (comps : List Nat) :
    List (Nat × Finset Nat) :=
  comps.foldl (fun bs id => alModify bs id fun st => st.erase eid) bs

/-- `Bitset::extract` (clears the bits unconditionally; ZSTs carry no data). -/
def bitsetExtract (bs : List (Nat × Finset Nat)) (eid : Nat) (comps : List Nat) :
    List (Nat × Finset Nat) :=
  comps.foldl (fun bs id => alModify bs id fun st => st.erase eid) bs

/-- `Components`: the component store. -/
structure Components where
  bitsets : List (Nat × Finset Nat)
  sparseSets : List (Nat × List (Nat × Val))
  tables : List Table
  tableIds : List (List Nat × Nat)
  archetypes : List Archetype
  archetypeKeys : List (List Nat × Nat)
  archetypeStarts : List (Nat × Nat)
  componentInfo : List CompInfo
  componentSetInfo : List SetInfo
deriving DecidableEq

/-- `ComponentInfo` of a registered component id. -/
def Components.infoOf (c : Components) (id : Nat) : CompInfo :=
  c.componentInfo.getD id ⟨none⟩

/-- Component bitset of an archetype id. -/
def Components.archBits (c : Components) (a : Nat) : Finset Nat :=
  (c.archetypes.getD a default).componentBits

/-- Component bitset of a registered set id. -/
def Components.setBits (c : Components) (sid : Nat) : Finset Nat :=
  (c.componentSetInfo.getD sid default).componentBits

/-- The component-id list a `FixedBitSet`'s `ones()` iteration yields: the
set bits in ascending order, bounded by the bitset capacity `n`. -/
def keyList (n : Nat) (s : Finset Nat) : List Nat :=
  (List.range n).filter (· ∈ s)

/-- The archetype/table key built from a component bitset (`ones()` with the
registry size as capacity). -/
def Components.keyOf (c : Components) (s : Finset Nat) : List Nat :=
  keyList c.componentInfo.length s

/-- `Components::arch`: look up the archetype for a sorted component-id key,
creating it (and, when it has table components, looking up or creating the
shared table) on a miss. -/
def Components.arch (c : Components) (key : List Nat) (bits : Finset Nat) :
    Components × Nat :=
  match alGet c.archetypeKeys key with
  | some id => (c, id)
  | none =>
    let tableComps := key.filter fun id => (c.infoOf id).storage = some .table
    let sparseComps := key.filter fun id => (c.infoOf id).storage = some .sparseSet
    let zstComps := key.filter fun id => (c.infoOf id).storage = none
    let tData : List Table × List (List Nat × Nat) × Option Nat :=
      if tableComps.isEmpty then (c.tables, c.tableIds, none)
      else
        match alGet c.tableIds tableComps with
        | some t => (c.tables, c.tableIds, some t)
        | none =>
          (c.tables ++ [Table.new tableComps],
            alPut c.tableIds tableComps c.tables.length, some c.tables.length)
    ({ c with
        tables := tData.1,
        tableIds := tData.2.1,
        archetypes := c.archetypes ++ [⟨bits, sparseComps, zstComps, tData.2.2, [], []⟩],
        archetypeKeys := alPut c.archetypeKeys key c.archetypes.length },
      c.archetypes.length)

/-- Record a cached insertion transition on an archetype. -/
def Components.cacheInsertion (c : Components) (a sid target : Nat) : Components :=
  { c with archetypes := listModify c.archetypes a fun arch =>
      ⟨arch.componentBits, arch.sparseSetComponents, arch.zstComponents, arch.tableId,
        alPut arch.insertions sid target, arch.removals⟩ }

/-- Record a cached removal transition on an archetype. -/
def Components.cacheRemoval (c : Components) (a sid : Nat) (target : Option Nat) :
    Components :=
  { c with archetypes := listModify c.archetypes a fun arch =>
      ⟨arch.componentBits, arch.sparseSetComponents, arch.zstComponents, arch.tableId,
        arch.insertions, alPut arch.removals sid target⟩ }

/-- `Components::arch_insertion`. -/
def Components.archInsertion (c : Components) (loc : Option EntityLocation) (sid : Nat) :
    Components × Option Nat × Nat :=
  let si := c.componentSetInfo.getD sid default
  match loc with
  | some l =>
    let a := l.archetypeId
    let arch := c.archetypes.getD a default
    match alGet arch.insertions sid with
    | some target => (c, some a, target)
    | none =>
      if si.componentBits ⊆ arch.componentBits then
        (c.cacheInsertion a sid a, some a, a)
      else
        let bits := arch.componentBits ∪ si.componentBits
        let res := c.arch (c.keyOf bits) bits
        (res.1.cacheInsertion a sid res.2, some a, res.2)
  | none =>
    match alGet c.archetypeStarts sid with
    | some aid => (c, none, aid)
    | none =>
      let res := c.arch si.components si.componentBits
      ({ res.1 with archetypeStarts := alPut res.1.archetypeStarts sid res.2 },
        none, res.2)

/-- `Components::arch_removal`. -/
def Components.archRemoval (c : Components) (l : EntityLocation) (sid : Nat) :
    Components × Nat × Option Nat :=
  let si := c.componentSetInfo.getD sid default
  let a := l.archetypeId
  let arch := c.archetypes.getD a default
  match alGet arch.removals sid with
  | some target => (c, a, target)
  | none =>
    if arch.componentBits ⊆ si.componentBits then
      (c.cacheRemoval a sid none, a, none)
    else if Disjoint arch.componentBits si.componentBits then
      (c.cacheRemoval a sid (some a), a, some a)
    else
      let bits := arch.componentBits \ si.componentBits
      let res := c.arch (c.keyOf bits) bits
      (res.1.cacheRemoval a sid (some res.2), a, some res.2)

/-- The world state the component claims range over. -/
structure World where
  comps : Components
  ents : Entities
deriving DecidableEq

/-- Overwrite an entity's location. -/
def setLocation (es : Entities) (eid : Nat) (loc : Option EntityLocation) : Entities :=
  { es with all := listModify es.all eid fun ix => ⟨ix.generation, loc⟩ }

/-- Overwrite the table-row index inside an entity's location. -/
def setTableIndex (es : Entities) (eid : Nat) (ti : Option Nat) : Entities :=
  { es with all := listModify es.all eid fun ix =>
      ⟨ix.generation, ix.location.map fun l => ⟨l.archetypeId, ti⟩⟩ }

end Fei

namespace Fei

/-- `Components::insert` (`component/collection.rs` 153-217): move an entity
to the archetype with the set added, writing the set's values into the
sparse sets, bitsets and table columns.  The set value is a function from
byte offset to `Val`. -/
def World.insertSet (w : World) (e : Entity) (v : Nat → Val) (sid : Nat) : World :=
  let loc0 := (w.ents.all.getD e.id default).location
  let si := w.comps.componentSetInfo.getD sid default
  let ar := w.comps.archInsertion loc0 sid
  let c1 := ar.1
  let toId := ar.2.2
  let c3 : Components :=
    { c1 with
        sparseSets := sparseInsert c1.sparseSets e.id v si,
        bitsets := bitsetInsert c1.bitsets e.id si }
  match ar.2.1, loc0 with
  | some fid, some l =>
    if fid = toId then
      match (c3.archetypes.getD fid default).tableId with
      | some tid =>
        ⟨{ c3 with tables := (listModify c3.tables tid
              fun tt => tt.update (l.tableIndex.getD 0) v si) },
          setLocation w.ents e.id (some ⟨toId, l.tableIndex⟩)⟩
      | none => ⟨c3, setLocation w.ents e.id (some ⟨toId, l.tableIndex⟩)⟩
    else
      match (c3.archetypes.getD toId default).tableId with
      | some toT =>
        match (c3.archetypes.getD fid default).tableId with
        | some fromT =>
          if fromT = toT then
            ⟨{ c3 with tables := (listModify c3.tables toT
                  fun tt => tt.update (l.tableIndex.getD 0) v si) },
              setLocation w.ents e.id (some ⟨toId, l.tableIndex⟩)⟩
          else
            let fromIndex := l.tableIndex.getD 0
            let mig := Table.insertFrom (c3.tables.getD toT default)
              (c3.tables.getD fromT default) fromIndex v si
            let ents1 := setLocation w.ents e.id (some ⟨toId, some mig.2.2.2⟩)
            ⟨{ c3 with tables := (c3.tables.set toT mig.1).set fromT mig.2.1 },
              match mig.2.2.1 with
              | some sw => setTableIndex ents1 sw.id (some fromIndex)
              | none => ents1⟩
        | none =>
          let ins := (c3.tables.getD toT default).insertRow e v si
          ⟨{ c3 with tables := c3.tables.set toT ins.1 },
            setLocation w.ents e.id (some ⟨toId, some ins.2⟩)⟩
      | none => ⟨c3, setLocation w.ents e.id (some ⟨toId, l.tableIndex⟩)⟩
  | _, _ =>
    match (c3.archetypes.getD toId default).tableId with
    | some tid =>
      let ins := (c3.tables.getD tid default).insertRow e v si
      ⟨{ c3 with tables := c3.tables.set tid ins.1 },
        setLocation w.ents e.id (some ⟨toId, some ins.2⟩)⟩
    | none => ⟨c3, setLocation w.ents e.id (some ⟨toId, none⟩)⟩

/-- `Components::remove` (`component/collection.rs` 219-274): move an entity
to the archetype with the set removed, dropping the removed values. -/
def World.removeSet (w : World) (e : Entity) (sid : Nat) : World :=
  let si := w.comps.componentSetInfo.getD sid default
  match (w.ents.all.getD e.id default).location with
  | none => w
  | some l =>
    let ar := w.comps.archRemoval l sid
    let fid := ar.2.1
    let c3 : Components :=
      { ar.1 with
          sparseSets := sparseRemove ar.1.sparseSets e.id si.sparseSetComponents,
          bitsets := bitsetRemove ar.1.bitsets e.id si.zstComponents }
    match ar.2.2 with
    | some toId =>
      if fid = toId then ⟨c3, setLocation w.ents e.id (some ⟨toId, l.tableIndex⟩)⟩
      else
        match (c3.archetypes.getD fid default).tableId with
        | some fromT =>
          let fromIndex := l.tableIndex.getD 0
          match (c3.archetypes.getD toId default).tableId with
          | some toT =>
            if fromT = toT then ⟨c3, setLocation w.ents e.id (some ⟨toId, l.tableIndex⟩)⟩
            else
              let mig := Table.removeFrom (c3.tables.getD toT default)
                (c3.tables.getD fromT default) fromIndex
              let ents1 := setLocation w.ents e.id (some ⟨toId, some mig.2.2.2⟩)
              ⟨{ c3 with tables := (c3.tables.set toT mig.1).set fromT mig.2.1 },
                match mig.2.2.1 with
                | some sw => setTableIndex ents1 sw.id (some fromIndex)
                | none => ents1⟩
          | none =>
            let rem := (c3.tables.getD fromT default).removeRow fromIndex
            let ents1 := setLocation w.ents e.id (some ⟨toId, none⟩)
            ⟨{ c3 with tables := c3.tables.set fromT rem.1 },
              match rem.2 with
              | some sw => setTableIndex ents1 sw.id (some fromIndex)
              | none => ents1⟩
        | none => ⟨c3, setLocation w.ents e.id (some ⟨toId, l.tableIndex⟩)⟩
    | none =>
      match (c3.archetypes.getD fid default).tableId with
      | some tid =>
        let index := l.tableIndex.getD 0
        let rem := (c3.tables.getD tid default).removeRow index
        let ents1 := setLocation w.ents e.id none
        ⟨{ c3 with tables := c3.tables.set tid rem.1 },
          match rem.2 with
          | some sw => setTableIndex ents1 sw.id (some index)
          | none => ents1⟩
      | none => ⟨c3, setLocation w.ents e.id none⟩

/-- `Components::extract` (`component/collection.rs` 276-358): like `remove`,
but the removed values are handed to the caller as `(byte offset, value)`
writes (the `size` argument of the callback is not modeled; values are
already per-field).  Returns whether the set was present, the writes in
callback order, and the new world. -/
def World.extractSet (w : World) (e : Entity) (sid : Nat) :
    Bool × List (Nat × Val) × World :=
  let si := w.comps.componentSetInfo.getD sid default
  match (w.ents.all.getD e.id default).location with
  | none => (false, [], w)
  | some l =>
    if ¬ si.componentBits ⊆ w.comps.archBits l.archetypeId then (false, [], w)
    else
      let ar := w.comps.archRemoval l sid
      let fid := ar.2.1
      let sx := sparseExtract ar.1.sparseSets e.id si.sparseSetComponents
      let out0 := sx.2.map fun p => (offsetOf si p.1, p.2)
      let c3 : Components :=
        { ar.1 with
            sparseSets := sx.1,
            bitsets := bitsetExtract ar.1.bitsets e.id si.zstComponents }
      match ar.2.2 with
      | some toId =>
        if fid = toId then
          (true, out0, ⟨c3, setLocation w.ents e.id (some ⟨toId, l.tableIndex⟩)⟩)
        else
          match (c3.archetypes.getD fid default).tableId with
          | some fromT =>
            let fromIndex := l.tableIndex.getD 0
            match (c3.archetypes.getD toId default).tableId with
            | some toT =>
              if fromT = toT then
                (true, out0, ⟨c3, setLocation w.ents e.id (some ⟨toId, l.tableIndex⟩)⟩)
              else
                let mig := Table.extractFrom (c3.tables.getD toT default)
                  (c3.tables.getD fromT default) fromIndex
                let ents1 := setLocation w.ents e.id (some ⟨toId, some mig.2.2.2.2⟩)
                (true, out0 ++ mig.2.2.1.map fun p => (offsetOf si p.1, p.2),
                  ⟨{ c3 with tables := (c3.tables.set toT mig.1).set fromT mig.2.1 },
                    match mig.2.2.2.1 with
                    | some sw => setTableIndex ents1 sw.id (some fromIndex)
                    | none => ents1⟩)
            | none =>
              let ext := (c3.tables.getD fromT default).extractRow fromIndex
              let ents1 := setLocation w.ents e.id (some ⟨toId, none⟩)
              (true, out0 ++ ext.2.1.map fun p => (offsetOf si p.1, p.2),
                ⟨{ c3 with tables := c3.tables.set fromT ext.1 },
                  match ext.2.2 with
                  | some sw => setTableIndex ents1 sw.id (some fromIndex)
                  | none => ents1⟩)
          | none =>
            (true, out0, ⟨c3, setLocation w.ents e.id (some ⟨toId, l.tableIndex⟩)⟩)
      | none =>
        match (c3.archetypes.getD fid default).tableId with
        | some tid =>
          let index := l.tableIndex.getD 0
          let ext := (c3.tables.getD tid default).extractRow index
          let ents1 := setLocation w.ents e.id none
          (true, out0 ++ ext.2.1.map fun p => (offsetOf si p.1, p.2),
            ⟨{ c3 with tables := c3.tables.set tid ext.1 },
              match ext.2.2 with
              | some sw => setTableIndex ents1 sw.id (some index)
              | none => ents1⟩)
        | none => (true, out0, ⟨c3, setLocation w.ents e.id none⟩)

/-- The value a sequence of `(offset, value)` writes into uninitialized
memory leaves at an offset (the last write wins), as read back by
`extract_as`'s `assume_init`. -/
def writesAt (ws : List (Nat × Val)) (off : Nat) : Option Val :=
  alGet ws.reverse off

/-- `Components::extract_as` (`component/collection.rs` 360-374), for an
already-registered set id: run `extract` writing each value at its byte
offset into a fresh set value; `Some` of the assembled writes on success,
`None` on failure. -/
def World.extractAs (w : World) (e : Entity) (sid : Nat) :
    Option (List (Nat × Val)) × World :=
  let r := w.extractSet e sid
  (if r.1 then some r.2.1 else none, r.2.2)

end Fei

namespace Fei

/-- On a missing location or a non-superset archetype, `extract` returns
`false` without touching anything. -/
lemma extractSet_fail (w : World) (e : Entity) (sid : Nat)
    (h : ∀ l, (w.ents.all.getD e.id default).location = some l →
      ¬ w.comps.setBits sid ⊆ w.comps.archBits l.archetypeId) :
    w.extractSet e sid = (false, [], w) := by
  simp only [World.extractSet]
  cases hl : (w.ents.all.getD e.id default).location with
  | none => rfl
  | some l =>
    dsimp only
    rw [if_pos]
    exact h l hl

/-- When the location exists and the archetype covers the set, `extract`
returns `true`. -/
lemma extractSet_fst_true (w : World) (e : Entity) (sid : Nat) (l : EntityLocation)
    (hl : (w.ents.all.getD e.id default).location = some l)
    (hs : w.comps.setBits sid ⊆ w.comps.archBits l.archetypeId) :
    (w.extractSet e sid).1 = true := by
  simp only [World.extractSet]
  rw [hl]
  dsimp only
  rw [if_neg (not_not_intro
    (show (w.comps.componentSetInfo.getD sid default).componentBits ⊆
        w.comps.archBits l.archetypeId from hs))]
  repeat' split
  all_goals rfl

end Fei

namespace Fei

/-- C4: `extract` (and hence `extract_as`) reports "not present" if and only
if the entity has no location or the archetype's component bitset is not a
superset of the set's bitset; in that failure case the returned world — the
entity locations, every store, and the archetype graph — is exactly the
input world and no value is handed out. -/
theorem extract_not_present_iff (w : World) (e : Entity) (sid : Nat) :
    ((w.extractAs e sid).1 = none ↔
      ∀ l, (w.ents.all.getD e.id default).location = some l →
        ¬ w.comps.setBits sid ⊆ w.comps.archBits l.archetypeId) ∧
    ((w.extractAs e sid).1 = none → w.extractSet e sid = (false, [], w)) := by
  by_cases h : ∀ l, (w.ents.all.getD e.id default).location = some l →
      ¬ w.comps.setBits sid ⊆ w.comps.archBits l.archetypeId
  · have hfail := extractSet_fail w e sid h
    refine ⟨⟨fun _ => h, fun _ => ?_⟩, fun _ => hfail⟩
    simp only [World.extractAs, hfail]
    rfl
  · push_neg at h
    obtain ⟨l, hl, hs⟩ := h
    have htrue := extractSet_fst_true w e sid l hl hs
    constructor
    · constructor
      · intro hnone
        simp [World.extractAs, htrue] at hnone
      · intro hall
        exact absurd hs (hall l hl)
    · intro hnone
      simp [World.extractAs, htrue] at hnone

/-- C4 witness: on a concrete world whose single live entity has no
location, `extract_as` returns `None` and the world is untouched; the iff
and frame parts of the theorem are applied at that input. -/
theorem extract_not_present_iff_witness :
    ((World.mk
        ⟨[], [], [], [], [], [], [], [], []⟩
        ⟨0, [⟨0, none⟩], []⟩).extractAs ⟨0, 0⟩ 0).1 = none ∧
    (World.mk
        ⟨[], [], [], [], [], [], [], [], []⟩
        ⟨0, [⟨0, none⟩], []⟩).extractSet ⟨0, 0⟩ 0 =
      (false, [], World.mk
        ⟨[], [], [], [], [], [], [], [], []⟩
        ⟨0, [⟨0, none⟩], []⟩) := by
  have h := extract_not_present_iff
    (World.mk ⟨[], [], [], [], [], [], [], [], []⟩ ⟨0, [⟨0, none⟩], []⟩) ⟨0, 0⟩ 0
  have hnone : ((World.mk
      ⟨[], [], [], [], [], [], [], [], []⟩
      ⟨0, [⟨0, none⟩], []⟩).extractAs ⟨0, 0⟩ 0).1 = none :=
    h.1.mpr (by decide)
  exact ⟨hnone, h.2 hnone⟩

end Fei

namespace Fei

lemma listModify_length {α : Type} (l : List α) (i : Nat) (f : α → α) :
    (listModify l i f).length = l.length := by
  unfold listModify
  cases h : l.get? i with
  | none => rfl
  | some x => simp

lemma listModify_oob {α : Type} (l : List α) (i : Nat) (f : α → α)
    (h : ¬ i < l.length) : listModify l i f = l := by
  unfold listModify
  rw [List.get?_eq_none.mpr (by omega)]

lemma getD_listModify_self {α : Type} (l : List α) (i : Nat) (f : α → α) (d : α)
    (h : i < l.length) : (listModify l i f).getD i d = f (l.getD i d) := by
  unfold listModify
  rw [get?_eq_some_getD l i d h, getD_set_self _ _ _ _ h]

lemma getD_listModify_ne {α : Type} (l : List α) (i j : Nat) (f : α → α) (d : α)
    (h : i ≠ j) : (listModify l i f).getD j d = l.getD j d := by
  unfold listModify
  cases hg : l.get? i with
  | none => rfl
  | some x => rw [getD_set_ne _ _ _ _ _ h]

lemma getD_concat_self {α : Type} (l : List α) (x d : α) :
    (l ++ [x]).getD l.length d = x := by
  rw [getD_eq_get?, List.get?_append_right (Nat.le_refl _)]
  simp

/-- A bounded bitset is recovered from its key list. -/
lemma keyList_toFinset {n : Nat} {s : Finset Nat} (h : ∀ x ∈ s, x < n) :
    (keyList n s).toFinset = s := by
  ext x
  simp only [keyList, List.mem_toFinset, List.mem_filter, List.mem_range,
    decide_eq_true_eq]
  exact ⟨fun hx => hx.2, fun hx => ⟨h x hx, hx⟩⟩

/-- Key lists are injective on bounded bitsets. -/
lemma keyList_inj {n : Nat} {s t : Finset Nat} (hs : ∀ x ∈ s, x < n)
    (ht : ∀ x ∈ t, x < n) (h : keyList n s = keyList n t) : s = t := by
  have h2 := congrArg List.toFinset h
  rwa [keyList_toFinset hs, keyList_toFinset ht] at h2

lemma cacheRemoval_archBits (c : Components) (a sid : Nat) (t : Option Nat) (b : Nat) :
    (c.cacheRemoval a sid t).archBits b = c.archBits b := by
  unfold Components.cacheRemoval Components.archBits
  dsimp only
  by_cases h : a < c.archetypes.length
  · by_cases hab : a = b
    · subst hab
      rw [getD_listModify_self _ _ _ _ h]
    · rw [getD_listModify_ne _ _ _ _ _ hab]
  · rw [listModify_oob _ _ _ h]

lemma cacheRemoval_length (c : Components) (a sid : Nat) (t : Option Nat) :
    (c.cacheRemoval a sid t).archetypes.length = c.archetypes.length :=
  listModify_length _ _ _

lemma cacheRemoval_removals_self (c : Components) (a sid : Nat) (t : Option Nat)
    (ha : a < c.archetypes.length) :
    alGet ((c.cacheRemoval a sid t).archetypes.getD a default).removals sid = some t := by
  unfold Components.cacheRemoval
  dsimp only
  rw [getD_listModify_self _ _ _ _ ha]
  exact alGet_put_self _ _ _

/-- Two archetype ids with the same bits are equal, from key-surjectivity. -/
lemma archBits_inj {c : Components}
    (hsurj : ∀ a, a < c.archetypes.length →
      alGet c.archetypeKeys (c.keyOf (c.archBits a)) = some a)
    {b b' : Nat} (hb : b < c.archetypes.length) (hb' : b' < c.archetypes.length)
    (h : c.archBits b = c.archBits b') : b = b' := by
  have h1 := hsurj b hb
  have h2 := hsurj b' hb'
  rw [h, h2] at h1
  exact (Option.some.inj h1).symm

end Fei

namespace Fei

/-- `Components::arch` on a cached key returns it unchanged. -/
lemma arch_hit {c : Components} {key : List Nat} {bits : Finset Nat} {id : Nat}
    (h : alGet c.archetypeKeys key = some id) : c.arch key bits = (c, id) := by
  unfold Components.arch
  rw [h]

/-- Canonicality of `Components::arch` with a bitset-derived key: the
returned archetype id has exactly the requested bits, is the unique such id
in the resulting graph, and pre-existing archetypes keep their bits. -/
lemma arch_canonical (c : Components) (bits : Finset Nat)
    (hkeys : ∀ p ∈ c.archetypeKeys, p.2 < c.archetypes.length ∧
      p.1 = c.keyOf (c.archBits p.2))
    (hsurj : ∀ a, a < c.archetypes.length →
      alGet c.archetypeKeys (c.keyOf (c.archBits a)) = some a)
    (hbnd : ∀ a, a < c.archetypes.length →
      ∀ x ∈ c.archBits a, x < c.componentInfo.length)
    (hb : ∀ x ∈ bits, x < c.componentInfo.length) :
    (c.arch (c.keyOf bits) bits).1.archBits (c.arch (c.keyOf bits) bits).2
        = bits ∧
    (c.arch (c.keyOf bits) bits).2 <
        (c.arch (c.keyOf bits) bits).1.archetypes.length ∧
    c.archetypes.length ≤ (c.arch (c.keyOf bits) bits).1.archetypes.length ∧
    (∀ b, b < (c.arch (c.keyOf bits) bits).1.archetypes.length →
      (c.arch (c.keyOf bits) bits).1.archBits b = bits →
      b = (c.arch (c.keyOf bits) bits).2) ∧
    (∀ b, b < c.archetypes.length →
      (c.arch (c.keyOf bits) bits).1.archBits b = c.archBits b) := by
  cases hk : alGet c.archetypeKeys (c.keyOf bits) with
  | some id =>
    rw [arch_hit hk]
    have hmem := alGet_eq_some_mem hk
    obtain ⟨hlt, hkey⟩ := hkeys _ hmem
    dsimp only at hlt hkey
    have hbits : c.archBits id = bits :=
      keyList_inj (hbnd id hlt) hb (hkey.symm : c.keyOf (c.archBits id) = c.keyOf bits)
    refine ⟨hbits, hlt, Nat.le_refl _, ?_, fun b _ => rfl⟩
    intro b hb hbb
    exact archBits_inj hsurj hb hlt (hbits ▸ hbb)
  | none =>
    have h1 : (c.arch (c.keyOf bits) bits).2 = c.archetypes.length := by
      unfold Components.arch
      rw [hk]
    have h2 : (c.arch (c.keyOf bits) bits).1.archetypes.length
        = c.archetypes.length + 1 := by
      unfold Components.arch
      rw [hk]
      simp
    have h3 : (c.arch (c.keyOf bits) bits).1.archBits c.archetypes.length = bits := by
      unfold Components.arch Components.archBits
      rw [hk]
      dsimp only
      rw [getD_concat_self]
    have h4 : ∀ b, b < c.archetypes.length →
        (c.arch (c.keyOf bits) bits).1.archBits b = c.archBits b := by
      intro b hb
      unfold Components.arch Components.archBits
      rw [hk]
      dsimp only
      rw [getD_append_left _ _ _ _ hb]
    refine ⟨h1 ▸ h3, ?_, ?_, ?_, h4⟩
    · rw [h1, h2]
      omega
    · rw [h2]
      omega
    · intro b hb hbb
      rw [h2] at hb
      rw [h1]
      by_cases hbl : b < c.archetypes.length
      · exfalso
        rw [h4 b hbl] at hbb
        have := hsurj b hbl
        rw [hbb, hk] at this
        exact Option.noConfusion this
      · omega

end Fei

namespace Fei

/-- Correctness of one cached removal entry `(sid, tgt)` on archetype `a`:
the formula of `Components::arch_removal`. -/
def RemovalFormula (c : Components) (a sid : Nat) (tgt : Option Nat) : Prop :=
  if c.archBits a ⊆ c.setBits sid then tgt = none
  else if Disjoint (c.archBits a) (c.setBits sid) then tgt = some a
  else match tgt with
    | some b => b < c.archetypes.length ∧
        c.archBits b = c.archBits a \ c.setBits sid
    | none => False

instance (c : Components) (a sid : Nat) (tgt : Option Nat) :
    Decidable (RemovalFormula c a sid tgt) := by
  unfold RemovalFormula
  cases tgt <;> infer_instance

/-- Well-formedness of the archetype graph: the key map points at existing
archetypes and stores exactly their bit-derived keys, every archetype is
found under its own key, archetype bits only name registered components,
and every cached removal edge satisfies the removal formula. -/
def GraphWF (c : Components) : Prop :=
  (∀ p ∈ c.archetypeKeys, p.2 < c.archetypes.length ∧
    p.1 = c.keyOf (c.archBits p.2)) ∧
  (∀ a, a < c.archetypes.length →
    alGet c.archetypeKeys (c.keyOf (c.archBits a)) = some a) ∧
  (∀ a, a < c.archetypes.length →
    ∀ x ∈ c.archBits a, x < c.componentInfo.length) ∧
  (∀ a, a < c.archetypes.length →
    ∀ p ∈ (c.archetypes.getD a default).removals, RemovalFormula c a p.1 p.2)

instance (c : Components) : Decidable (GraphWF c) := by
  unfold GraphWF
  infer_instance

end Fei

namespace Fei

/-- C5: for an existing archetype `A` (at `l.archetypeId`) and a component
set `S`, `arch_removal` keeps `A` as the source and computes: `none` when
A's bits are a subset of S's bits, `some A` when they are disjoint, and
otherwise `some B` for the unique archetype `B` in the resulting graph
whose bits are A's bits minus S's bits; the computed target is cached on
`A` under the set's id. -/
theorem arch_removal_formula (c : Components) (l : EntityLocation) (sid : Nat)
    (hwf : GraphWF c) (ha : l.archetypeId < c.archetypes.length)
    (hsb : ∀ x ∈ c.setBits sid, x < c.componentInfo.length) :
    (c.archRemoval l sid).2.1 = l.archetypeId ∧
    (c.archBits l.archetypeId ⊆ c.setBits sid → (c.archRemoval l sid).2.2 = none) ∧
    (¬ c.archBits l.archetypeId ⊆ c.setBits sid →
      Disjoint (c.archBits l.archetypeId) (c.setBits sid) →
      (c.archRemoval l sid).2.2 = some l.archetypeId) ∧
    (¬ c.archBits l.archetypeId ⊆ c.setBits sid →
      ¬ Disjoint (c.archBits l.archetypeId) (c.setBits sid) →
      ∃ b, (c.archRemoval l sid).2.2 = some b ∧
        (c.archRemoval l sid).1.archBits b
          = c.archBits l.archetypeId \ c.setBits sid ∧
        ∀ b', b' < (c.archRemoval l sid).1.archetypes.length →
          (c.archRemoval l sid).1.archBits b'
            = c.archBits l.archetypeId \ c.setBits sid → b' = b) ∧
    alGet ((c.archRemoval l sid).1.archetypes.getD l.archetypeId default).removals sid
      = some (c.archRemoval l sid).2.2 := by
  obtain ⟨hkeys, hsurj, hbnd, hcache⟩ := hwf
  simp only [Components.archRemoval]
  cases hc : alGet (c.archetypes.getD l.archetypeId default).removals sid with
  | some tgt =>
    dsimp only
    have hform := hcache l.archetypeId ha _ (alGet_eq_some_mem hc)
    unfold RemovalFormula at hform
    dsimp only at hform
    refine ⟨rfl, ?_, ?_, ?_, hc⟩
    · intro hsub
      rw [if_pos hsub] at hform
      exact hform
    · intro hns hd
      rw [if_neg hns, if_pos hd] at hform
      exact hform
    · intro hns hnd
      rw [if_neg hns, if_neg hnd] at hform
      cases tgt with
      | none => exact hform.elim
      | some b =>
        refine ⟨b, rfl, hform.2, ?_⟩
        intro b' hb' hbb
        exact archBits_inj hsurj hb' hform.1 (hbb.trans hform.2.symm)
  | none =>
    dsimp only
    split
    next hsub =>
      refine ⟨rfl, fun _ => rfl, fun hns _ => absurd hsub hns,
        fun hns _ => absurd hsub hns, ?_⟩
      exact cacheRemoval_removals_self _ _ _ _ ha
    next hsub =>
      split
      next hdisj =>
        refine ⟨rfl, fun hs => absurd hs hsub, fun _ _ => rfl,
          fun _ hnd => absurd hdisj hnd, ?_⟩
        exact cacheRemoval_removals_self _ _ _ _ ha
      next hdisj =>
        have hcan := arch_canonical c
          ((c.archetypes.getD l.archetypeId default).componentBits \
            (c.componentSetInfo.getD sid default).componentBits) hkeys hsurj hbnd
          (fun x hx => hbnd l.archetypeId ha x (Finset.mem_sdiff.mp hx).1)
        obtain ⟨hcb, hclt, hcge, huniq, hold⟩ := hcan
        refine ⟨rfl, fun hs => absurd hs hsub, fun _ hd => absurd hd hdisj,
          fun _ _ => ?_, ?_⟩
        · refine ⟨_, rfl, ?_, ?_⟩
          · rw [cacheRemoval_archBits]
            exact hcb
          · intro b' hb' hbb
            rw [cacheRemoval_length] at hb'
            rw [cacheRemoval_archBits] at hbb
            exact huniq b' hb' hbb
        · refine cacheRemoval_removals_self _ _ _ _ ?_
          omega

end Fei

namespace Fei

/-- A sample store: one archetype with component bits `{0, 1}` and a
registered set 0 with bits `{1}`, both components sparse-set stored. -/
def remSample : Components :=
  ⟨[], [], [], [], [⟨{0, 1}, [0, 1], [], none, [], []⟩], [([0, 1], 0)], [],
    [⟨some .sparseSet⟩, ⟨some .sparseSet⟩],
    [⟨[1], {1}, [(1, 0)], [1], [], []⟩]⟩

/-- C5 witness: the sample graph is well-formed, and removing set 0 (bits
`{1}`) from archetype 0 (bits `{0, 1}`) lands in a fresh archetype 1 whose
bits are `{0}`, with the transition cached on archetype 0. -/
theorem arch_removal_formula_witness :
    GraphWF remSample ∧ 0 < remSample.archetypes.length ∧
    (remSample.archRemoval ⟨0, none⟩ 0).2.1 = 0 ∧
    alGet
        ((remSample.archRemoval ⟨0, none⟩ 0).1.archetypes.getD 0 default).removals 0
      = some (remSample.archRemoval ⟨0, none⟩ 0).2.2 ∧
    (remSample.archRemoval ⟨0, none⟩ 0).2.2 = some 1 ∧
    (remSample.archRemoval ⟨0, none⟩ 0).1.archBits 1 = {0} := by
  have h := arch_removal_formula remSample ⟨0, none⟩ 0 (by decide) (by decide) (by decide)
  exact ⟨by decide, by decide, h.1, h.2.2.2.2, by decide, by decide⟩

end Fei

namespace Fei

lemma alPut_of_none {κ α : Type} [DecidableEq κ] {l : List (κ × α)} {k : κ} (v : α)
    (h : alGet l k = none) : alPut l k v = l ++ [(k, v)] := by
  induction l with
  | nil => rfl
  | cons hd tl ih =>
    obtain ⟨k', v'⟩ := hd
    unfold alGet at h
    unfold alPut
    by_cases hk : k' = k
    · rw [if_pos hk] at h
      exact Option.noConfusion h
    · rw [if_neg hk] at h
      rw [if_neg hk, ih h]
      rfl

lemma alGet_append_left {κ α : Type} [DecidableEq κ] {l l' : List (κ × α)} {k : κ}
    {v : α} (h : alGet l k = some v) : alGet (l ++ l') k = some v := by
  induction l with
  | nil => exact Option.noConfusion h
  | cons hd tl ih =>
    obtain ⟨k', v'⟩ := hd
    rw [List.cons_append]
    unfold alGet at h ⊢
    by_cases hk : k' = k
    · rwa [if_pos hk] at h ⊢
    · rw [if_neg hk] at h ⊢
      exact ih h

lemma alGet_append_of_none {κ α : Type} [DecidableEq κ] {l l' : List (κ × α)} {k : κ}
    (h : alGet l k = none) : alGet (l ++ l') k = alGet l' k := by
  induction l with
  | nil => rfl
  | cons hd tl ih =>
    obtain ⟨k', v'⟩ := hd
    rw [List.cons_append]
    unfold alGet at h
    by_cases hk : k' = k
    · rw [if_pos hk] at h
      exact Option.noConfusion h
    · rw [if_neg hk] at h
      show (if k' = k then some v' else alGet (tl ++ l') k) = alGet l' k
      rw [if_neg hk]
      exact ih h

lemma mem_alPut {κ α : Type} [DecidableEq κ] {l : List (κ × α)} {k : κ} {v : α}
    {p : κ × α} (h : p ∈ alPut l k v) : p = (k, v) ∨ p ∈ l := by
  induction l with
  | nil =>
    unfold alPut at h
    simp at h
    exact Or.inl h
  | cons hd tl ih =>
    obtain ⟨k', v'⟩ := hd
    unfold alPut at h
    by_cases hk : k' = k
    · rw [if_pos hk] at h
      rcases List.mem_cons.mp h with h1 | h1
      · subst hk
        exact Or.inl h1
      · exact Or.inr (List.mem_cons_of_mem _ h1)
    · rw [if_neg hk] at h
      rcases List.mem_cons.mp h with h1 | h1
      · exact Or.inr (h1 ▸ List.mem_cons_self _ _)
      · rcases ih h1 with h2 | h2
        · exact Or.inl h2
        · exact Or.inr (List.mem_cons_of_mem _ h2)

/-- Correctness of one cached insertion edge `(sid, tgt)` on archetype `a`:
the formula of `Components::arch_insertion`. -/
def InsertionFormula (c : Components) (a sid : Nat) (tgt : Nat) : Prop :=
  if c.setBits sid ⊆ c.archBits a then tgt = a
  else tgt < c.archetypes.length ∧ c.archBits tgt = c.archBits a ∪ c.setBits sid

instance (c : Components) (a sid tgt : Nat) :
    Decidable (InsertionFormula c a sid tgt) := by
  unfold InsertionFormula
  infer_instance

/-- Well-formedness of the component-set registry: each set stores the key
list derived from its bits, and its bits name registered components. -/
def SetsWF (c : Components) : Prop :=
  ∀ si ∈ c.componentSetInfo,
    si.components = c.keyOf si.componentBits ∧
    ∀ x ∈ si.componentBits, x < c.componentInfo.length

instance (c : Components) : Decidable (SetsWF c) := by
  unfold SetsWF
  infer_instance

/-- `GraphWF` extended with coherent cached insertion edges, coherent start
archetypes, and a well-formed set registry. -/
def GraphWF2 (c : Components) : Prop :=
  GraphWF c ∧
  (∀ a, a < c.archetypes.length →
    ∀ p ∈ (c.archetypes.getD a default).insertions, InsertionFormula c a p.1 p.2) ∧
  (∀ p ∈ c.archetypeStarts, p.2 < c.archetypes.length ∧
    c.archBits p.2 = c.setBits p.1) ∧
  SetsWF c

instance (c : Components) : Decidable (GraphWF2 c) := by
  unfold GraphWF2
  infer_instance

/-- A stored location (if any) points at an existing archetype. -/
def locOk (c : Components) (o : Option EntityLocation) : Prop :=
  match o with
  | some l => l.archetypeId < c.archetypes.length
  | none => True

instance (c : Components) (o : Option EntityLocation) : Decidable (locOk c o) := by
  unfold locOk
  cases o <;> infer_instance

lemma locOk_some {c : Components} {o : Option EntityLocation} {l : EntityLocation}
    (h : locOk c o) (ho : o = some l) : l.archetypeId < c.archetypes.length := by
  subst ho
  exact h

/-- Every stored entity location points at an existing archetype. -/
def LocWF (c : Components) (es : Entities) : Prop :=
  ∀ i, i < es.all.length → locOk c (es.all.getD i default).location

instance (c : Components) (es : Entities) : Decidable (LocWF c es) := by
  unfold LocWF
  infer_instance

/-- The world invariant for archetype canonicality. -/
def WorldWF (w : World) : Prop :=
  GraphWF2 w.comps ∧ LocWF w.comps w.ents

instance (w : World) : Decidable (WorldWF w) := by
  unfold WorldWF
  infer_instance

/-- Operations on a world through the safe API: `World::spawn_empty`, and
insert/remove of a registered component set on a live entity through
`World::view_mut` (which checks `contains` and returns an error otherwise,
leaving the world untouched).  Inserted set values are per-field constant. -/
inductive WOp where
  | spawn
  | insert (e : Entity) (sid : Nat) (v : Val)
  | remove (e : Entity) (sid : Nat)
deriving DecidableEq

def stepW (w : World) : WOp → World
  | .spawn => ⟨w.comps, (w.ents.spawn).2⟩
  | .insert e sid v =>
    if w.ents.contains e ∧ sid < w.comps.componentSetInfo.length then
      w.insertSet e (fun _ => v) sid
    else w
  | .remove e sid =>
    if w.ents.contains e ∧ sid < w.comps.componentSetInfo.length then
      w.removeSet e sid
    else w

def runW : World → List WOp → World
  | w, [] => w
  | w, op :: ops => runW (stepW w op) ops

end Fei

namespace Fei

lemma getD_oob {α : Type} (l : List α) (i : Nat) (d : α) (h : l.length ≤ i) :
    l.getD i d = d := by
  rw [getD_eq_get?, List.get?_eq_none.mpr h]
  rfl

lemma arch_componentInfo (c : Components) (k : List Nat) (b : Finset Nat) :
    (c.arch k b).1.componentInfo = c.componentInfo := by
  unfold Components.arch
  cases h : alGet c.archetypeKeys k <;> rfl

lemma arch_componentSetInfo (c : Components) (k : List Nat) (b : Finset Nat) :
    (c.arch k b).1.componentSetInfo = c.componentSetInfo := by
  unfold Components.arch
  cases h : alGet c.archetypeKeys k <;> rfl

lemma arch_starts (c : Components) (k : List Nat) (b : Finset Nat) :
    (c.arch k b).1.archetypeStarts = c.archetypeStarts := by
  unfold Components.arch
  cases h : alGet c.archetypeKeys k <;> rfl

lemma arch_setBits (c : Components) (k : List Nat) (b : Finset Nat) (sid : Nat) :
    (c.arch k b).1.setBits sid = c.setBits sid := by
  unfold Components.setBits
  rw [arch_componentSetInfo]

lemma arch_keyOf (c : Components) (k : List Nat) (b : Finset Nat) (s : Finset Nat) :
    (c.arch k b).1.keyOf s = c.keyOf s := by
  unfold Components.keyOf
  rw [arch_componentInfo]

lemma arch_length_le (c : Components) (k : List Nat) (b : Finset Nat) :
    c.archetypes.length ≤ (c.arch k b).1.archetypes.length := by
  unfold Components.arch
  cases h : alGet c.archetypeKeys k with
  | some id => exact Nat.le_refl _
  | none => simp

lemma arch_entry (c : Components) (k : List Nat) (b : Finset Nat) (a : Nat)
    (ha : a < c.archetypes.length) :
    (c.arch k b).1.archetypes.getD a default = c.archetypes.getD a default := by
  unfold Components.arch
  cases h : alGet c.archetypeKeys k with
  | some id => rfl
  | none => exact getD_append_left _ _ _ _ ha

lemma arch_archBits (c : Components) (k : List Nat) (b : Finset Nat) (a : Nat)
    (ha : a < c.archetypes.length) : (c.arch k b).1.archBits a = c.archBits a := by
  unfold Components.archBits
  rw [arch_entry _ _ _ _ ha]

lemma arch_removals_eq (c : Components) (k : List Nat) (b : Finset Nat) (a : Nat) :
    ((c.arch k b).1.archetypes.getD a default).removals
      = (c.archetypes.getD a default).removals := by
  unfold Components.arch
  cases h : alGet c.archetypeKeys k with
  | some id => rfl
  | none =>
    by_cases ha : a < c.archetypes.length
    · rw [getD_append_left _ _ _ _ ha]
    · by_cases he : a = c.archetypes.length
      · subst he
        rw [getD_concat_self, getD_oob _ _ _ (Nat.le_refl _)]
        rfl
      · rw [getD_oob _ _ _ (by simp; omega), getD_oob _ _ _ (by omega)]

lemma arch_insertions_eq (c : Components) (k : List Nat) (b : Finset Nat) (a : Nat) :
    ((c.arch k b).1.archetypes.getD a default).insertions
      = (c.archetypes.getD a default).insertions := by
  unfold Components.arch
  cases h : alGet c.archetypeKeys k with
  | some id => rfl
  | none =>
    by_cases ha : a < c.archetypes.length
    · rw [getD_append_left _ _ _ _ ha]
    · by_cases he : a = c.archetypes.length
      · subst he
        rw [getD_concat_self, getD_oob _ _ _ (Nat.le_refl _)]
        rfl
      · rw [getD_oob _ _ _ (by simp; omega), getD_oob _ _ _ (by omega)]

end Fei

namespace Fei

lemma cacheInsertion_archBits (c : Components) (a sid t : Nat) (b : Nat) :
    (c.cacheInsertion a sid t).archBits b = c.archBits b := by
  unfold Components.cacheInsertion Components.archBits
  dsimp only
  by_cases h : a < c.archetypes.length
  · by_cases hab : a = b
    · subst hab
      rw [getD_listModify_self _ _ _ _ h]
    · rw [getD_listModify_ne _ _ _ _ _ hab]
  · rw [listModify_oob _ _ _ h]

lemma cacheInsertion_length (c : Components) (a sid t : Nat) :
    (c.cacheInsertion a sid t).archetypes.length = c.archetypes.length :=
  listModify_length _ _ _

lemma cacheInsertion_insertions_self (c : Components) (a sid t : Nat)
    (ha : a < c.archetypes.length) :
    alGet ((c.cacheInsertion a sid t).archetypes.getD a default).insertions sid
      = some t := by
  unfold Components.cacheInsertion
  dsimp only
  rw [getD_listModify_self _ _ _ _ ha]
  exact alGet_put_self _ _ _

lemma cacheInsertion_insertions_mem (c : Components) (a sid t : Nat) (b : Nat)
    {p : Nat × Nat}
    (h : p ∈ ((c.cacheInsertion a sid t).archetypes.getD b default).insertions) :
    (b = a ∧ p = (sid, t)) ∨ p ∈ (c.archetypes.getD b default).insertions := by
  unfold Components.cacheInsertion at h
  dsimp only at h
  by_cases hlt : a < c.archetypes.length
  · by_cases hab : a = b
    · subst hab
      rw [getD_listModify_self _ _ _ _ hlt] at h
      rcases mem_alPut h with h1 | h1
      · exact Or.inl ⟨rfl, h1⟩
      · exact Or.inr h1
    · rw [getD_listModify_ne _ _ _ _ _ hab] at h
      exact Or.inr h
  · rw [listModify_oob _ _ _ hlt] at h
    exact Or.inr h

lemma cacheInsertion_removals_eq (c : Components) (a sid t : Nat) (b : Nat) :
    ((c.cacheInsertion a sid t).archetypes.getD b default).removals
      = (c.archetypes.getD b default).removals := by
  unfold Components.cacheInsertion
  dsimp only
  by_cases hlt : a < c.archetypes.length
  · by_cases hab : a = b
    · subst hab
      rw [getD_listModify_self _ _ _ _ hlt]
    · rw [getD_listModify_ne _ _ _ _ _ hab]
  · rw [listModify_oob _ _ _ hlt]

lemma cacheRemoval_removals_mem (c : Components) (a sid : Nat) (t : Option Nat)
    (b : Nat) {p : Nat × Option Nat}
    (h : p ∈ ((c.cacheRemoval a sid t).archetypes.getD b default).removals) :
    (b = a ∧ p = (sid, t)) ∨ p ∈ (c.archetypes.getD b default).removals := by
  unfold Components.cacheRemoval at h
  dsimp only at h
  by_cases hlt : a < c.archetypes.length
  · by_cases hab : a = b
    · subst hab
      rw [getD_listModify_self _ _ _ _ hlt] at h
      rcases mem_alPut h with h1 | h1
      · exact Or.inl ⟨rfl, h1⟩
      · exact Or.inr h1
    · rw [getD_listModify_ne _ _ _ _ _ hab] at h
      exact Or.inr h
  · rw [listModify_oob _ _ _ hlt] at h
    exact Or.inr h

lemma cacheRemoval_insertions_eq (c : Components) (a sid : Nat) (t : Option Nat)
    (b : Nat) :
    ((c.cacheRemoval a sid t).archetypes.getD b default).insertions
      = (c.archetypes.getD b default).insertions := by
  unfold Components.cacheRemoval
  dsimp only
  by_cases hlt : a < c.archetypes.length
  · by_cases hab : a = b
    · subst hab
      rw [getD_listModify_self _ _ _ _ hlt]
    · rw [getD_listModify_ne _ _ _ _ _ hab]
  · rw [listModify_oob _ _ _ hlt]

lemma cacheInsertion_keyOf (c : Components) (a sid t : Nat) (s : Finset Nat) :
    (c.cacheInsertion a sid t).keyOf s = c.keyOf s := rfl

lemma cacheRemoval_keyOf (c : Components) (a sid : Nat) (t : Option Nat)
    (s : Finset Nat) : (c.cacheRemoval a sid t).keyOf s = c.keyOf s := rfl

end Fei

namespace Fei

lemma arch_miss_len {c : Components} {k : List Nat} {b : Finset Nat}
    (h : alGet c.archetypeKeys k = none) :
    (c.arch k b).1.archetypes.length = c.archetypes.length + 1 := by
  unfold Components.arch
  rw [h]
  simp

lemma arch_miss_snd {c : Components} {k : List Nat} {b : Finset Nat}
    (h : alGet c.archetypeKeys k = none) :
    (c.arch k b).2 = c.archetypes.length := by
  unfold Components.arch
  rw [h]

lemma arch_miss_keys {c : Components} {k : List Nat} {b : Finset Nat}
    (h : alGet c.archetypeKeys k = none) :
    (c.arch k b).1.archetypeKeys = c.archetypeKeys ++ [(k, c.archetypes.length)] := by
  unfold Components.arch
  rw [h]
  dsimp only
  exact alPut_of_none _ h

lemma arch_miss_bits {c : Components} {k : List Nat} {b : Finset Nat}
    (h : alGet c.archetypeKeys k = none) :
    (c.arch k b).1.archBits c.archetypes.length = b := by
  unfold Components.arch Components.archBits
  rw [h]
  dsimp only
  rw [getD_concat_self]

/-- `Components::arch` with a bit-derived key preserves the key-map
well-formedness, surjectivity and boundedness of the graph. -/
lemma arch_keys_wf (c : Components) (bits : Finset Nat)
    (hkeys : ∀ p ∈ c.archetypeKeys, p.2 < c.archetypes.length ∧
      p.1 = c.keyOf (c.archBits p.2))
    (hsurj : ∀ a, a < c.archetypes.length →
      alGet c.archetypeKeys (c.keyOf (c.archBits a)) = some a)
    (hbnd : ∀ a, a < c.archetypes.length →
      ∀ x ∈ c.archBits a, x < c.componentInfo.length)
    (hb : ∀ x ∈ bits, x < c.componentInfo.length) :
    (∀ p ∈ (c.arch (c.keyOf bits) bits).1.archetypeKeys,
      p.2 < (c.arch (c.keyOf bits) bits).1.archetypes.length ∧
      p.1 = (c.arch (c.keyOf bits) bits).1.keyOf
        ((c.arch (c.keyOf bits) bits).1.archBits p.2)) ∧
    (∀ a, a < (c.arch (c.keyOf bits) bits).1.archetypes.length →
      alGet (c.arch (c.keyOf bits) bits).1.archetypeKeys
        ((c.arch (c.keyOf bits) bits).1.keyOf
          ((c.arch (c.keyOf bits) bits).1.archBits a)) = some a) ∧
    (∀ a, a < (c.arch (c.keyOf bits) bits).1.archetypes.length →
      ∀ x ∈ (c.arch (c.keyOf bits) bits).1.archBits a,
        x < (c.arch (c.keyOf bits) bits).1.componentInfo.length) := by
  cases hk : alGet c.archetypeKeys (c.keyOf bits) with
  | some id =>
    rw [arch_hit hk]
    exact ⟨hkeys, hsurj, hbnd⟩
  | none =>
    have hlen := @arch_miss_len c (c.keyOf bits) bits hk
    have hkeys' := @arch_miss_keys c (c.keyOf bits) bits hk
    have hbitsn := @arch_miss_bits c (c.keyOf bits) bits hk
    refine ⟨?_, ?_, ?_⟩
    · intro p hp
      rw [hkeys'] at hp
      rcases List.mem_append.mp hp with hp | hp
      · obtain ⟨hlt, hkey⟩ := hkeys p hp
        refine ⟨by omega, ?_⟩
        rw [arch_keyOf, arch_archBits _ _ _ _ hlt]
        exact hkey
      · have hp2 : p = (c.keyOf bits, c.archetypes.length) := by simpa using hp
        subst hp2
        refine ⟨by rw [hlen]; omega, ?_⟩
        dsimp only
        rw [arch_keyOf, hbitsn]
    · intro a ha
      rw [hlen] at ha
      by_cases hlt : a < c.archetypes.length
      · rw [arch_keyOf, arch_archBits _ _ _ _ hlt, hkeys']
        exact alGet_append_left (hsurj a hlt)
      · have hae : a = c.archetypes.length := by omega
        subst hae
        rw [arch_keyOf, hbitsn, hkeys']
        rw [alGet_append_of_none hk]
        simp [alGet]
    · intro a ha
      rw [hlen] at ha
      rw [arch_componentInfo]
      by_cases hlt : a < c.archetypes.length
      · rw [arch_archBits _ _ _ _ hlt]
        exact hbnd a hlt
      · have hae : a = c.archetypes.length := by omega
        subst hae
        rw [hbitsn]
        exact hb

end Fei


namespace Fei

lemma cacheInsertion_setBits (c : Components) (a0 sid0 t0 sid : Nat) :
    (c.cacheInsertion a0 sid0 t0).setBits sid = c.setBits sid := rfl

lemma cacheRemoval_setBits (c : Components) (a0 sid0 : Nat) (t0 : Option Nat)
    (sid : Nat) : (c.cacheRemoval a0 sid0 t0).setBits sid = c.setBits sid := rfl

lemma RemovalFormula_arch {c : Components} {k : List Nat} {b : Finset Nat}
    {a sid : Nat} {tgt : Option Nat} (ha : a < c.archetypes.length)
    (h : RemovalFormula c a sid tgt) : RemovalFormula (c.arch k b).1 a sid tgt := by
  unfold RemovalFormula at h ⊢
  rw [arch_archBits _ _ _ _ ha, arch_setBits]
  by_cases h1 : c.archBits a ⊆ c.setBits sid
  · rw [if_pos h1] at h ⊢
    exact h
  · rw [if_neg h1] at h ⊢
    by_cases h2 : Disjoint (c.archBits a) (c.setBits sid)
    · rw [if_pos h2] at h ⊢
      exact h
    · rw [if_neg h2] at h ⊢
      cases tgt with
      | none => exact h.elim
      | some b' =>
        refine ⟨lt_of_lt_of_le h.1 (arch_length_le _ _ _), ?_⟩
        rw [arch_archBits _ _ _ _ h.1]
        exact h.2

lemma RemovalFormula_cacheInsertion {c : Components} {a0 sid0 t0 : Nat}
    {a sid : Nat} {tgt : Option Nat} (h : RemovalFormula c a sid tgt) :
    RemovalFormula (c.cacheInsertion a0 sid0 t0) a sid tgt := by
  unfold RemovalFormula at h ⊢
  rw [cacheInsertion_archBits, cacheInsertion_setBits, cacheInsertion_length]
  by_cases h1 : c.archBits a ⊆ c.setBits sid
  · rw [if_pos h1] at h ⊢
    exact h
  · rw [if_neg h1] at h ⊢
    by_cases h2 : Disjoint (c.archBits a) (c.setBits sid)
    · rw [if_pos h2] at h ⊢
      exact h
    · rw [if_neg h2] at h ⊢
      cases tgt with
      | none => exact h.elim
      | some b' =>
        refine ⟨h.1, ?_⟩
        rw [cacheInsertion_archBits]
        exact h.2

lemma RemovalFormula_cacheRemoval {c : Components} {a0 sid0 : Nat} {t0 : Option Nat}
    {a sid : Nat} {tgt : Option Nat} (h : RemovalFormula c a sid tgt) :
    RemovalFormula (c.cacheRemoval a0 sid0 t0) a sid tgt := by
  unfold RemovalFormula at h ⊢
  rw [cacheRemoval_archBits, cacheRemoval_setBits, cacheRemoval_length]
  by_cases h1 : c.archBits a ⊆ c.setBits sid
  · rw [if_pos h1] at h ⊢
    exact h
  · rw [if_neg h1] at h ⊢
    by_cases h2 : Disjoint (c.archBits a) (c.setBits sid)
    · rw [if_pos h2] at h ⊢
      exact h
    · rw [if_neg h2] at h ⊢
      cases tgt with
      | none => exact h.elim
      | some b' =>
        refine ⟨h.1, ?_⟩
        rw [cacheRemoval_archBits]
        exact h.2

lemma InsertionFormula_arch {c : Components} {k : List Nat} {b : Finset Nat}
    {a sid tgt : Nat} (ha : a < c.archetypes.length)
    (h : InsertionFormula c a sid tgt) : InsertionFormula (c.arch k b).1 a sid tgt := by
  unfold InsertionFormula at h ⊢
  rw [arch_archBits _ _ _ _ ha, arch_setBits]
  by_cases h1 : c.setBits sid ⊆ c.archBits a
  · rw [if_pos h1] at h ⊢
    exact h
  · rw [if_neg h1] at h ⊢
    refine ⟨lt_of_lt_of_le h.1 (arch_length_le _ _ _), ?_⟩
    rw [arch_archBits _ _ _ _ h.1]
    exact h.2

lemma InsertionFormula_cacheInsertion {c : Components} {a0 sid0 t0 : Nat}
    {a sid tgt : Nat} (h : InsertionFormula c a sid tgt) :
    InsertionFormula (c.cacheInsertion a0 sid0 t0) a sid tgt := by
  unfold InsertionFormula at h ⊢
  rw [cacheInsertion_archBits, cacheInsertion_setBits, cacheInsertion_length]
  by_cases h1 : c.setBits sid ⊆ c.archBits a
  · rw [if_pos h1] at h ⊢
    exact h
  · rw [if_neg h1] at h ⊢
    refine ⟨h.1, ?_⟩
    rw [cacheInsertion_archBits]
    exact h.2

lemma InsertionFormula_cacheRemoval {c : Components} {a0 sid0 : Nat} {t0 : Option Nat}
    {a sid tgt : Nat} (h : InsertionFormula c a sid tgt) :
    InsertionFormula (c.cacheRemoval a0 sid0 t0) a sid tgt := by
  unfold InsertionFormula at h ⊢
  rw [cacheRemoval_archBits, cacheRemoval_setBits, cacheRemoval_length]
  by_cases h1 : c.setBits sid ⊆ c.archBits a
  · rw [if_pos h1] at h ⊢
    exact h
  · rw [if_neg h1] at h ⊢
    refine ⟨h.1, ?_⟩
    rw [cacheRemoval_archBits]
    exact h.2

end Fei

namespace Fei

lemma GraphWF2_arch {c : Components} {bits : Finset Nat} (hwf : GraphWF2 c)
    (hb : ∀ x ∈ bits, x < c.componentInfo.length) :
    GraphWF2 (c.arch (c.keyOf bits) bits).1 := by
  obtain ⟨⟨hkeys, hsurj, hbnd, hrem⟩, hins, hstarts, hsets⟩ := hwf
  obtain ⟨hkeys', hsurj', hbnd'⟩ := arch_keys_wf c bits hkeys hsurj hbnd hb
  refine ⟨⟨hkeys', hsurj', hbnd', ?_⟩, ?_, ?_, ?_⟩
  · intro a ha p hp
    rw [arch_removals_eq] at hp
    by_cases hlt : a < c.archetypes.length
    · exact RemovalFormula_arch hlt (hrem a hlt p hp)
    · rw [getD_oob _ _ _ (by omega)] at hp
      have hnil : (default : Archetype).removals = [] := rfl
      rw [hnil] at hp
      exact (List.not_mem_nil p hp).elim
  · intro a ha p hp
    rw [arch_insertions_eq] at hp
    by_cases hlt : a < c.archetypes.length
    · exact InsertionFormula_arch hlt (hins a hlt p hp)
    · rw [getD_oob _ _ _ (by omega)] at hp
      have hnil : (default : Archetype).insertions = [] := rfl
      rw [hnil] at hp
      exact (List.not_mem_nil p hp).elim
  · intro p hp
    rw [arch_starts] at hp
    obtain ⟨hlt, hbits⟩ := hstarts p hp
    refine ⟨lt_of_lt_of_le hlt (arch_length_le _ _ _), ?_⟩
    rw [arch_archBits _ _ _ _ hlt, arch_setBits]
    exact hbits
  · intro si hsi
    rw [arch_componentSetInfo] at hsi
    obtain ⟨h1, h2⟩ := hsets si hsi
    rw [arch_keyOf, arch_componentInfo]
    exact ⟨h1, h2⟩

lemma GraphWF2_cacheInsertion {c : Components} {a sid t : Nat} (hwf : GraphWF2 c)
    (hf : InsertionFormula c a sid t) : GraphWF2 (c.cacheInsertion a sid t) := by
  obtain ⟨⟨hkeys, hsurj, hbnd, hrem⟩, hins, hstarts, hsets⟩ := hwf
  refine ⟨⟨?_, ?_, ?_, ?_⟩, ?_, ?_, ?_⟩
  · intro p hp
    obtain ⟨hlt, hkey⟩ := hkeys p hp
    refine ⟨by rw [cacheInsertion_length]; exact hlt, ?_⟩
    rw [cacheInsertion_keyOf, cacheInsertion_archBits]
    exact hkey
  · intro a' ha'
    rw [cacheInsertion_length] at ha'
    rw [cacheInsertion_keyOf, cacheInsertion_archBits]
    exact hsurj a' ha'
  · intro a' ha'
    rw [cacheInsertion_length] at ha'
    rw [cacheInsertion_archBits]
    exact hbnd a' ha'
  · intro a' ha' p hp
    rw [cacheInsertion_length] at ha'
    rw [cacheInsertion_removals_eq] at hp
    exact RemovalFormula_cacheInsertion (hrem a' ha' p hp)
  · intro a' ha' p hp
    rw [cacheInsertion_length] at ha'
    rcases cacheInsertion_insertions_mem _ _ _ _ _ hp with ⟨hba, he⟩ | hold
    · subst hba
      rw [he]
      exact InsertionFormula_cacheInsertion hf
    · exact InsertionFormula_cacheInsertion (hins a' ha' p hold)
  · intro p hp
    obtain ⟨hlt, hb⟩ := hstarts p hp
    refine ⟨by rw [cacheInsertion_length]; exact hlt, ?_⟩
    rw [cacheInsertion_archBits, cacheInsertion_setBits]
    exact hb
  · intro si hsi
    obtain ⟨h1, h2⟩ := hsets si hsi
    rw [cacheInsertion_keyOf]
    exact ⟨h1, h2⟩

lemma GraphWF2_cacheRemoval {c : Components} {a sid : Nat} {t : Option Nat}
    (hwf : GraphWF2 c) (hf : RemovalFormula c a sid t) :
    GraphWF2 (c.cacheRemoval a sid t) := by
  obtain ⟨⟨hkeys, hsurj, hbnd, hrem⟩, hins, hstarts, hsets⟩ := hwf
  refine ⟨⟨?_, ?_, ?_, ?_⟩, ?_, ?_, ?_⟩
  · intro p hp
    obtain ⟨hlt, hkey⟩ := hkeys p hp
    refine ⟨by rw [cacheRemoval_length]; exact hlt, ?_⟩
    rw [cacheRemoval_keyOf, cacheRemoval_archBits]
    exact hkey
  · intro a' ha'
    rw [cacheRemoval_length] at ha'
    rw [cacheRemoval_keyOf, cacheRemoval_archBits]
    exact hsurj a' ha'
  · intro a' ha'
    rw [cacheRemoval_length] at ha'
    rw [cacheRemoval_archBits]
    exact hbnd a' ha'
  · intro a' ha' p hp
    rw [cacheRemoval_length] at ha'
    rcases cacheRemoval_removals_mem _ _ _ _ _ hp with ⟨hba, he⟩ | hold
    · subst hba
      rw [he]
      exact RemovalFormula_cacheRemoval hf
    · exact RemovalFormula_cacheRemoval (hrem a' ha' p hold)
  · intro a' ha' p hp
    rw [cacheRemoval_length] at ha'
    rw [cacheRemoval_insertions_eq] at hp
    exact InsertionFormula_cacheRemoval (hins a' ha' p hp)
  · intro p hp
    obtain ⟨hlt, hb⟩ := hstarts p hp
    refine ⟨by rw [cacheRemoval_length]; exact hlt, ?_⟩
    rw [cacheRemoval_archBits, cacheRemoval_setBits]
    exact hb
  · intro si hsi
    obtain ⟨h1, h2⟩ := hsets si hsi
    rw [cacheRemoval_keyOf]
    exact ⟨h1, h2⟩

end Fei

namespace Fei

/-- `arch_insertion` from a well-formed graph: the graph stays well-formed,
the registries are untouched, existing archetypes keep their bits, and the
target archetype's bits are the source's bits (empty for an unlocated
entity) united with the set's bits. -/
lemma archInsertion_wf (c : Components) (loc : Option EntityLocation) (sid : Nat)
    (hwf : GraphWF2 c) (hsid : sid < c.componentSetInfo.length)
    (hloc : locOk c loc) :
    GraphWF2 (c.archInsertion loc sid).1 ∧
    (c.archInsertion loc sid).1.componentInfo = c.componentInfo ∧
    (c.archInsertion loc sid).1.componentSetInfo = c.componentSetInfo ∧
    c.archetypes.length ≤ (c.archInsertion loc sid).1.archetypes.length ∧
    (∀ a, a < c.archetypes.length →
      (c.archInsertion loc sid).1.archBits a = c.archBits a) ∧
    (c.archInsertion loc sid).2.2 < (c.archInsertion loc sid).1.archetypes.length ∧
    (c.archInsertion loc sid).1.archBits (c.archInsertion loc sid).2.2
      = (match loc with
         | some l => c.archBits l.archetypeId ∪ c.setBits sid
         | none => c.setBits sid) := by
  have hsets := hwf.2.2.2
  have hsi := hsets _ (getD_mem c.componentSetInfo sid default hsid)
  simp only [Components.archInsertion]
  cases loc with
  | some l =>
    dsimp only
    have ha : l.archetypeId < c.archetypes.length := hloc
    cases hc : alGet (c.archetypes.getD l.archetypeId default).insertions sid with
    | some target =>
      dsimp only
      have hf := hwf.2.1 l.archetypeId ha _ (alGet_eq_some_mem hc)
      unfold InsertionFormula at hf
      dsimp only at hf
      refine ⟨hwf, rfl, rfl, Nat.le_refl _, fun a _ => rfl, ?_, ?_⟩
      · by_cases hsub : c.setBits sid ⊆ c.archBits l.archetypeId
        · rw [if_pos hsub] at hf
          rw [hf]
          exact ha
        · rw [if_neg hsub] at hf
          exact hf.1
      · by_cases hsub : c.setBits sid ⊆ c.archBits l.archetypeId
        · rw [if_pos hsub] at hf
          rw [hf, Finset.union_eq_left.mpr hsub]
        · rw [if_neg hsub] at hf
          exact hf.2
    | none =>
      dsimp only
      split
      next hsub =>
        have hsub' : c.setBits sid ⊆ c.archBits l.archetypeId := hsub
        have hf : InsertionFormula c l.archetypeId sid l.archetypeId := by
          unfold InsertionFormula
          rw [if_pos hsub']
        refine ⟨GraphWF2_cacheInsertion hwf hf, rfl, rfl, ?_, ?_, ?_, ?_⟩
        · rw [cacheInsertion_length]
        · intro a _
          exact cacheInsertion_archBits _ _ _ _ _
        · rw [cacheInsertion_length]
          exact ha
        · rw [cacheInsertion_archBits, Finset.union_eq_left.mpr hsub']
      next hsub =>
        have hsub' : ¬ c.setBits sid ⊆ c.archBits l.archetypeId := hsub
        have hb : ∀ x ∈ c.archBits l.archetypeId ∪ c.setBits sid,
            x < c.componentInfo.length := by
          intro x hx
          rcases Finset.mem_union.mp hx with hx | hx
          · exact hwf.1.2.2.1 l.archetypeId ha x hx
          · exact hsi.2 x hx
        have hcan := arch_canonical c (c.archBits l.archetypeId ∪ c.setBits sid)
          hwf.1.1 hwf.1.2.1 hwf.1.2.2.1 hb
        have harch := GraphWF2_arch hwf hb
        have hf : InsertionFormula
            (c.arch (c.keyOf (c.archBits l.archetypeId ∪ c.setBits sid))
              (c.archBits l.archetypeId ∪ c.setBits sid)).1 l.archetypeId sid
            (c.arch (c.keyOf (c.archBits l.archetypeId ∪ c.setBits sid))
              (c.archBits l.archetypeId ∪ c.setBits sid)).2 := by
          unfold InsertionFormula
          rw [arch_archBits _ _ _ _ ha, arch_setBits, if_neg hsub']
          exact ⟨hcan.2.1, hcan.1⟩
        refine ⟨GraphWF2_cacheInsertion harch hf, ?_, ?_, ?_, ?_, ?_, ?_⟩
        · show (c.arch _ _).1.componentInfo = c.componentInfo
          exact arch_componentInfo _ _ _
        · show (c.arch _ _).1.componentSetInfo = c.componentSetInfo
          exact arch_componentSetInfo _ _ _
        · rw [cacheInsertion_length]
          exact arch_length_le _ _ _
        · intro a halt
          rw [cacheInsertion_archBits]
          exact arch_archBits _ _ _ _ halt
        · rw [cacheInsertion_length]
          exact hcan.2.1
        · rw [cacheInsertion_archBits]
          exact hcan.1
  | none =>
    dsimp only
    cases hs : alGet c.archetypeStarts sid with
    | some aid =>
      dsimp only
      have hst := hwf.2.2.1 _ (alGet_eq_some_mem hs)
      exact ⟨hwf, rfl, rfl, Nat.le_refl _, fun a _ => rfl, hst.1, hst.2⟩
    | none =>
      dsimp only
      rw [hsi.1]
      have hb : ∀ x ∈ (c.componentSetInfo.getD sid default).componentBits,
          x < c.componentInfo.length := hsi.2
      have hcan := arch_canonical c (c.componentSetInfo.getD sid default).componentBits
        hwf.1.1 hwf.1.2.1 hwf.1.2.2.1 hb
      have harch := GraphWF2_arch hwf hb
      obtain ⟨⟨hkeys', hsurj', hbnd', hrem'⟩, hins', hstarts', hsets'⟩ := harch
      refine ⟨⟨⟨hkeys', hsurj', hbnd', hrem'⟩, hins', ?_, hsets'⟩,
        arch_componentInfo _ _ _, arch_componentSetInfo _ _ _,
        arch_length_le _ _ _, fun a halt => arch_archBits _ _ _ _ halt,
        hcan.2.1, hcan.1⟩
      · intro p hp
        rw [arch_starts] at hp
        rcases mem_alPut hp with he | hold
        · rw [he]
          exact ⟨hcan.2.1, hcan.1.trans (arch_setBits c _ _ sid).symm⟩
        · exact hstarts' p (by rw [arch_starts]; exact hold)
  
end Fei

namespace Fei

/-- `arch_removal` from a well-formed graph: the graph stays well-formed,
the registries are untouched, existing archetypes keep their bits, a `none`
target means the source bits were a subset of the set's bits, and a `some`
target has the source's bits minus the set's bits. -/
lemma archRemoval_wf (c : Components) (l : EntityLocation) (sid : Nat)
    (hwf : GraphWF2 c) (ha : l.archetypeId < c.archetypes.length) :
    GraphWF2 (c.archRemoval l sid).1 ∧
    (c.archRemoval l sid).1.componentInfo = c.componentInfo ∧
    (c.archRemoval l sid).1.componentSetInfo = c.componentSetInfo ∧
    c.archetypes.length ≤ (c.archRemoval l sid).1.archetypes.length ∧
    (∀ a, a < c.archetypes.length →
      (c.archRemoval l sid).1.archBits a = c.archBits a) ∧
    ((c.archRemoval l sid).2.2 = none ↔
      c.archBits l.archetypeId ⊆ c.setBits sid) ∧
    (∀ t, (c.archRemoval l sid).2.2 = some t →
      t < (c.archRemoval l sid).1.archetypes.length ∧
      (c.archRemoval l sid).1.archBits t
        = c.archBits l.archetypeId \ c.setBits sid) := by
  simp only [Components.archRemoval]
  cases hc : alGet (c.archetypes.getD l.archetypeId default).removals sid with
  | some tgt =>
    dsimp only
    have hform := hwf.1.2.2.2 l.archetypeId ha _ (alGet_eq_some_mem hc)
    unfold RemovalFormula at hform
    dsimp only at hform
    refine ⟨hwf, rfl, rfl, Nat.le_refl _, fun a _ => rfl, ?_, ?_⟩
    · constructor
      · intro hnone
        by_cases h1 : c.archBits l.archetypeId ⊆ c.setBits sid
        · exact h1
        · rw [if_neg h1] at hform
          by_cases h2 : Disjoint (c.archBits l.archetypeId) (c.setBits sid)
          · rw [if_pos h2] at hform
            rw [hform] at hnone
            exact Option.noConfusion hnone
          · rw [if_neg h2] at hform
            cases tgt with
            | none => exact hform.elim
            | some b => exact Option.noConfusion hnone
      · intro hsub
        rw [if_pos hsub] at hform
        exact hform
    · intro t ht
      by_cases h1 : c.archBits l.archetypeId ⊆ c.setBits sid
      · rw [if_pos h1] at hform
        rw [hform] at ht
        exact Option.noConfusion ht
      · rw [if_neg h1] at hform
        by_cases h2 : Disjoint (c.archBits l.archetypeId) (c.setBits sid)
        · rw [if_pos h2] at hform
          rw [hform] at ht
          have hta : t = l.archetypeId := (Option.some.inj ht).symm
          subst hta
          exact ⟨ha, (Finset.sdiff_eq_self_iff_disjoint.mpr h2).symm⟩
        · rw [if_neg h2] at hform
          cases tgt with
          | none => exact hform.elim
          | some b =>
            have htb : t = b := (Option.some.inj ht).symm
            subst htb
            exact hform
  | none =>
    dsimp only
    split
    next hsub =>
      have hsub' : c.archBits l.archetypeId ⊆ c.setBits sid := hsub
      have hf : RemovalFormula c l.archetypeId sid none := by
        unfold RemovalFormula
        rw [if_pos hsub']
      refine ⟨GraphWF2_cacheRemoval hwf hf, rfl, rfl, by rw [cacheRemoval_length],
        fun a _ => cacheRemoval_archBits _ _ _ _ _, ⟨fun _ => hsub', fun _ => rfl⟩,
        fun t ht => Option.noConfusion ht⟩
    next hsub =>
      have hsub' : ¬ c.archBits l.archetypeId ⊆ c.setBits sid := hsub
      split
      next hdisj =>
        have hdisj' : Disjoint (c.archBits l.archetypeId) (c.setBits sid) := hdisj
        have hf : RemovalFormula c l.archetypeId sid (some l.archetypeId) := by
          unfold RemovalFormula
          rw [if_neg hsub', if_pos hdisj']
        refine ⟨GraphWF2_cacheRemoval hwf hf, rfl, rfl, by rw [cacheRemoval_length],
          fun a _ => cacheRemoval_archBits _ _ _ _ _,
          ⟨fun hnone => Option.noConfusion hnone, fun hs => absurd hs hsub'⟩, ?_⟩
        intro t ht
        have hta : t = l.archetypeId := (Option.some.inj ht).symm
        subst hta
        rw [cacheRemoval_length, cacheRemoval_archBits]
        exact ⟨ha, (Finset.sdiff_eq_self_iff_disjoint.mpr hdisj').symm⟩
      next hdisj =>
        have hdisj' : ¬ Disjoint (c.archBits l.archetypeId) (c.setBits sid) := hdisj
        have hb : ∀ x ∈ (c.archetypes.getD l.archetypeId default).componentBits \
            (c.componentSetInfo.getD sid default).componentBits,
            x < c.componentInfo.length := by
          intro x hx
          exact hwf.1.2.2.1 l.archetypeId ha x (Finset.mem_sdiff.mp hx).1
        have hcan := arch_canonical c
          ((c.archetypes.getD l.archetypeId default).componentBits \
            (c.componentSetInfo.getD sid default).componentBits)
          hwf.1.1 hwf.1.2.1 hwf.1.2.2.1 hb
        have harch := GraphWF2_arch hwf hb
        have hf : RemovalFormula
            (c.arch (c.keyOf ((c.archetypes.getD l.archetypeId default).componentBits \
                (c.componentSetInfo.getD sid default).componentBits))
              ((c.archetypes.getD l.archetypeId default).componentBits \
                (c.componentSetInfo.getD sid default).componentBits)).1
            l.archetypeId sid
            (some (c.arch (c.keyOf ((c.archetypes.getD l.archetypeId
                default).componentBits \
                (c.componentSetInfo.getD sid default).componentBits))
              ((c.archetypes.getD l.archetypeId default).componentBits \
                (c.componentSetInfo.getD sid default).componentBits)).2) := by
          unfold RemovalFormula
          rw [arch_archBits _ _ _ _ ha, arch_setBits, if_neg hsub', if_neg hdisj']
          exact ⟨hcan.2.1, hcan.1⟩
        refine ⟨GraphWF2_cacheRemoval harch hf, ?_, ?_, ?_, ?_,
          ⟨fun hnone => Option.noConfusion hnone, fun hs => absurd hs hsub'⟩, ?_⟩
        · show (c.arch _ _).1.componentInfo = c.componentInfo
          exact arch_componentInfo _ _ _
        · show (c.arch _ _).1.componentSetInfo = c.componentSetInfo
          exact arch_componentSetInfo _ _ _
        · rw [cacheRemoval_length]
          exact arch_length_le _ _ _
        · intro a halt
          rw [cacheRemoval_archBits]
          exact arch_archBits _ _ _ _ halt
        · intro t ht
          have hte := Option.some.inj ht
          rw [cacheRemoval_length, cacheRemoval_archBits, ← hte]
          exact ⟨hcan.2.1, hcan.1⟩

end Fei

namespace Fei

lemma set_oob {α : Type} (l : List α) (i : Nat) (a : α) (h : l.length ≤ i) :
    l.set i a = l := by
  induction l generalizing i with
  | nil => rfl
  | cons hd tl ih =>
    cases i with
    | zero => simp at h
    | succ n =>
      simp only [List.set]
      rw [ih n (by simpa using h)]

lemma setLocation_length (es : Entities) (eid : Nat) (loc : Option EntityLocation) :
    (setLocation es eid loc).all.length = es.all.length :=
  listModify_length _ _ _

lemma setLocation_self (es : Entities) (eid : Nat) (loc : Option EntityLocation)
    (h : eid < es.all.length) :
    ((setLocation es eid loc).all.getD eid default).location = loc := by
  unfold setLocation
  dsimp only
  rw [getD_listModify_self _ _ _ _ h]

lemma setLocation_other (es : Entities) (eid : Nat) (loc : Option EntityLocation)
    (j : Nat) (h : eid ≠ j) :
    (setLocation es eid loc).all.getD j default = es.all.getD j default := by
  unfold setLocation
  dsimp only
  rw [getD_listModify_ne _ _ _ _ _ h]

lemma setTableIndex_length (es : Entities) (eid : Nat) (ti : Option Nat) :
    (setTableIndex es eid ti).all.length = es.all.length :=
  listModify_length _ _ _

lemma setTableIndex_archId (es : Entities) (eid : Nat) (ti : Option Nat) (j : Nat) :
    (((setTableIndex es eid ti).all.getD j default).location).map (·.archetypeId)
      = ((es.all.getD j default).location).map (·.archetypeId) := by
  unfold setTableIndex
  dsimp only
  by_cases h : eid < es.all.length
  · by_cases he : eid = j
    · subst he
      rw [getD_listModify_self _ _ _ _ h]
      cases (es.all.getD eid default).location <;> rfl
    · rw [getD_listModify_ne _ _ _ _ _ he]
  · rw [listModify_oob _ _ _ h]

lemma loc_arch_exists {o : Option EntityLocation} {aid : Nat}
    (h : o.map (·.archetypeId) = some aid) : ∃ ti, o = some ⟨aid, ti⟩ := by
  cases o with
  | none => exact Option.noConfusion h
  | some l =>
    refine ⟨l.tableIndex, ?_⟩
    have h2 : l.archetypeId = aid := Option.some.inj h
    rw [← h2]

end Fei

namespace Fei

/-- `insert` changes the archetype graph exactly as `arch_insertion` does:
the store writes touch only sparse sets, bitsets and tables. -/
lemma insertSet_graph (w : World) (e : Entity) (v : Nat → Val) (sid : Nat) :
    (w.insertSet e v sid).comps.archetypes
      = (w.comps.archInsertion (w.ents.all.getD e.id default).location sid).1.archetypes ∧
    (w.insertSet e v sid).comps.archetypeKeys
      = (w.comps.archInsertion (w.ents.all.getD e.id default).location sid).1.archetypeKeys ∧
    (w.insertSet e v sid).comps.archetypeStarts
      = (w.comps.archInsertion (w.ents.all.getD e.id default).location sid).1.archetypeStarts ∧
    (w.insertSet e v sid).comps.componentInfo
      = (w.comps.archInsertion (w.ents.all.getD e.id default).location sid).1.componentInfo ∧
    (w.insertSet e v sid).comps.componentSetInfo
      = (w.comps.archInsertion (w.ents.all.getD e.id default).location sid).1.componentSetInfo := by
  simp only [World.insertSet]
  repeat' split
  all_goals exact ⟨rfl, rfl, rfl, rfl, rfl⟩

/-- `insert` rewrites the entity's location to the target archetype (with
some table index), possibly fixing up the table index of one swapped
entity. -/
lemma insertSet_ents_shape (w : World) (e : Entity) (v : Nat → Val) (sid : Nat) :
    (∃ ti, (w.insertSet e v sid).ents
        = setLocation w.ents e.id (some ⟨(w.comps.archInsertion
            (w.ents.all.getD e.id default).location sid).2.2, ti⟩)) ∨
    (∃ ti sw tj, (w.insertSet e v sid).ents
        = setTableIndex (setLocation w.ents e.id (some ⟨(w.comps.archInsertion
            (w.ents.all.getD e.id default).location sid).2.2, ti⟩)) sw tj) := by
  simp only [World.insertSet]
  repeat' split
  all_goals first
    | exact Or.inl ⟨_, rfl⟩
    | exact Or.inr ⟨_, _, _, rfl⟩

lemma insertSet_loc (w : World) (e : Entity) (v : Nat → Val) (sid : Nat)
    (heid : e.id < w.ents.all.length) :
    (w.insertSet e v sid).ents.all.length = w.ents.all.length ∧
    (∃ ti, ((w.insertSet e v sid).ents.all.getD e.id default).location
        = some ⟨(w.comps.archInsertion
            (w.ents.all.getD e.id default).location sid).2.2, ti⟩) ∧
    (∀ j, j ≠ e.id →
      (((w.insertSet e v sid).ents.all.getD j default).location).map (·.archetypeId)
        = ((w.ents.all.getD j default).location).map (·.archetypeId)) := by
  rcases insertSet_ents_shape w e v sid with ⟨ti, hsh⟩ | ⟨ti, sw, tj, hsh⟩ <;> rw [hsh]
  · refine ⟨setLocation_length _ _ _, ⟨ti, setLocation_self _ _ _ heid⟩, ?_⟩
    intro j hj
    rw [setLocation_other _ _ _ _ (Ne.symm hj)]
  · refine ⟨(setTableIndex_length _ _ _).trans (setLocation_length _ _ _), ?_, ?_⟩
    · refine loc_arch_exists ?_
      rw [setTableIndex_archId, setLocation_self _ _ _ heid]
      rfl
    · intro j hj
      rw [setTableIndex_archId, setLocation_other _ _ _ _ (Ne.symm hj)]

end Fei

namespace Fei

/-- `remove` is a no-op without a location; otherwise it changes the graph
exactly as `arch_removal` does and rewrites the entity's location to the
removal target (archetype id from the target, table index recomputed),
possibly fixing up the table index of one swapped entity. -/
lemma removeSet_shape (w : World) (e : Entity) (sid : Nat) :
    ((w.ents.all.getD e.id default).location = none ∧ w.removeSet e sid = w) ∨
    (∃ l, (w.ents.all.getD e.id default).location = some l ∧
      ((w.removeSet e sid).comps.archetypes
          = (w.comps.archRemoval l sid).1.archetypes ∧
        (w.removeSet e sid).comps.archetypeKeys
          = (w.comps.archRemoval l sid).1.archetypeKeys ∧
        (w.removeSet e sid).comps.archetypeStarts
          = (w.comps.archRemoval l sid).1.archetypeStarts ∧
        (w.removeSet e sid).comps.componentInfo
          = (w.comps.archRemoval l sid).1.componentInfo ∧
        (w.removeSet e sid).comps.componentSetInfo
          = (w.comps.archRemoval l sid).1.componentSetInfo) ∧
      (∃ newLoc : Option EntityLocation,
        newLoc.map (·.archetypeId) = (w.comps.archRemoval l sid).2.2 ∧
        ((w.removeSet e sid).ents = setLocation w.ents e.id newLoc ∨
          ∃ sw tj, (w.removeSet e sid).ents
            = setTableIndex (setLocation w.ents e.id newLoc) sw tj))) := by
  simp only [World.removeSet]
  cases hl : (w.ents.all.getD e.id default).location with
  | none => exact Or.inl ⟨rfl, rfl⟩
  | some l =>
    dsimp only
    refine Or.inr ⟨l, rfl, ?_⟩
    cases ht : (w.comps.archRemoval l sid).2.2 with
    | some toId =>
      dsimp only
      repeat' split
      all_goals refine ⟨⟨rfl, rfl, rfl, rfl, rfl⟩, ?_⟩
      all_goals first
        | exact ⟨some ⟨toId, _⟩, rfl, Or.inl rfl⟩
        | exact ⟨some ⟨toId, _⟩, rfl, Or.inr ⟨_, _, rfl⟩⟩
    | none =>
      dsimp only
      repeat' split
      all_goals refine ⟨⟨rfl, rfl, rfl, rfl, rfl⟩, ?_⟩
      all_goals first
        | exact ⟨none, rfl, Or.inl rfl⟩
        | exact ⟨none, rfl, Or.inr ⟨_, _, rfl⟩⟩

end Fei

namespace Fei

/-- `spawn` only ever clears a location (recycled id) or appends a fresh
location-less slot; every other slot is untouched. -/
lemma spawn_locs (s : Entities) :
    s.all.length ≤ (s.spawn).2.all.length ∧
    ∀ i, ((s.spawn).2.all.getD i default).location = (s.all.getD i default).location ∨
      ((s.spawn).2.all.getD i default).location = none := by
  unfold Entities.spawn
  split
  next => exact ⟨Nat.le_refl _, fun i => Or.inl rfl⟩
  next =>
    split
    next => exact ⟨Nat.le_refl _, fun i => Or.inl rfl⟩
    next =>
      split
      next entity rest heq =>
        dsimp only
        constructor
        · simp
        · intro i
          by_cases hlt : entity.id < s.all.length
          · by_cases he : entity.id = i
            · subst he
              rw [getD_set_self _ _ _ _ hlt]
              exact Or.inr rfl
            · rw [getD_set_ne _ _ _ _ _ he]
              exact Or.inl rfl
          · rw [set_oob _ _ _ (by omega)]
            exact Or.inl rfl
      next heq =>
        dsimp only
        constructor
        · simp
        · intro i
          by_cases hlt : i < s.all.length
          · rw [getD_append_left _ _ _ _ hlt]
            exact Or.inl rfl
          · by_cases he : i = s.all.length
            · subst he
              rw [getD_concat_self]
              exact Or.inr rfl
            · rw [getD_oob _ _ _ (by simp; omega)]
              exact Or.inr rfl

end Fei

namespace Fei

lemma contains_lt {s : Entities} {e : Entity} (h : s.contains e = true) :
    e.id < s.all.length := by
  unfold Entities.contains at h
  by_cases hlt : e.id < s.all.length
  · exact hlt
  · rw [List.get?_eq_none.mpr (by omega)] at h
    exact Bool.noConfusion h

lemma locOk_of_map {c c' : Components} {o o' : Option EntityLocation}
    (hmap : o'.map (·.archetypeId) = o.map (·.archetypeId))
    (hlen : c.archetypes.length ≤ c'.archetypes.length)
    (h : locOk c o) : locOk c' o' := by
  cases o' with
  | none => trivial
  | some l' =>
    cases o with
    | none => exact Option.noConfusion hmap
    | some l =>
      have he : l'.archetypeId = l.archetypeId := Option.some.inj hmap
      have hless : l.archetypeId < c.archetypes.length := h
      show l'.archetypeId < c'.archetypes.length
      omega

/-- `GraphWF2` only looks at the graph fields and registries. -/
lemma GraphWF2_congr {c c' : Components}
    (h1 : c'.archetypes = c.archetypes) (h2 : c'.archetypeKeys = c.archetypeKeys)
    (h3 : c'.archetypeStarts = c.archetypeStarts)
    (h4 : c'.componentInfo = c.componentInfo)
    (h5 : c'.componentSetInfo = c.componentSetInfo)
    (h : GraphWF2 c) : GraphWF2 c' := by
  unfold GraphWF2 GraphWF SetsWF at h ⊢
  simp only [RemovalFormula, InsertionFormula, Components.archBits, Components.keyOf,
    Components.setBits, h1, h2, h3, h4, h5] at h ⊢
  exact h

end Fei

namespace Fei

/-- One world step preserves the archetype-canonicality invariant. -/
lemma WorldWF_step (w : World) (op : WOp) (hwf : WorldWF w) : WorldWF (stepW w op) := by
  obtain ⟨hg, hloc⟩ := hwf
  cases op with
  | spawn =>
    refine ⟨hg, ?_⟩
    intro i hi
    show locOk w.comps ((w.ents.spawn).2.all.getD i default).location
    rcases (spawn_locs w.ents).2 i with h | h
    · rw [h]
      by_cases hlt : i < w.ents.all.length
      · exact hloc i hlt
      · rw [getD_oob _ _ _ (by omega)]
        exact trivial
    · rw [h]
      exact trivial
  | insert e sid v =>
    simp only [stepW]
    split
    next hcond =>
      obtain ⟨hcont, hsid⟩ := hcond
      have heid := contains_lt hcont
      have hins := archInsertion_wf w.comps ((w.ents.all.getD e.id default).location)
        sid hg hsid (hloc e.id heid)
      obtain ⟨hg1, hg2, hg3, hg4, hg5⟩ := insertSet_graph w e (fun _ => v) sid
      obtain ⟨hlen, ⟨ti, hself⟩, hothers⟩ := insertSet_loc w e (fun _ => v) sid heid
      refine ⟨GraphWF2_congr hg1 hg2 hg3 hg4 hg5 hins.1, ?_⟩
      intro i hi
      by_cases hie : i = e.id
      · subst hie
        rw [hself]
        show (w.comps.archInsertion (w.ents.all.getD e.id default).location sid).2.2
          < (w.insertSet e (fun _ => v) sid).comps.archetypes.length
        rw [hg1]
        exact hins.2.2.2.2.2.1
      · have hlenle' : w.comps.archetypes.length
            ≤ (w.insertSet e (fun _ => v) sid).comps.archetypes.length := by
          rw [hg1]
          exact hins.2.2.2.1
        refine locOk_of_map (hothers i hie) hlenle' ?_
        by_cases hlt : i < w.ents.all.length
        · exact hloc i hlt
        · rw [getD_oob _ _ _ (by omega)]
          exact trivial
    next => exact ⟨hg, hloc⟩
  | remove e sid =>
    simp only [stepW]
    split
    next hcond =>
      obtain ⟨hcont, hsid⟩ := hcond
      have heid := contains_lt hcont
      rcases removeSet_shape w e sid with ⟨hnone, heq⟩ |
        ⟨l, hl, ⟨hh1, hh2, hh3, hh4, hh5⟩, newLoc, hmap, hshape⟩
      · rw [heq]
        exact ⟨hg, hloc⟩
      · have harm := archRemoval_wf w.comps l sid hg (locOk_some (hloc e.id heid) hl)
        refine ⟨GraphWF2_congr hh1 hh2 hh3 hh4 hh5 harm.1, ?_⟩
        intro i hi
        have hlenle : w.comps.archetypes.length
            ≤ (w.removeSet e sid).comps.archetypes.length := by
          rw [hh1]
          exact harm.2.2.2.1
        by_cases hie : i = e.id
        · subst hie
          have hmap2 : (((w.removeSet e sid).ents.all.getD e.id default).location).map
              (·.archetypeId) = (w.comps.archRemoval l sid).2.2 := by
            rcases hshape with hsh | ⟨sw, tj, hsh⟩
            · rw [hsh, setLocation_self _ _ _ heid, hmap]
            · rw [hsh, setTableIndex_archId, setLocation_self _ _ _ heid, hmap]
          cases ht : (w.comps.archRemoval l sid).2.2 with
          | none =>
            rw [ht] at hmap2
            have hn : ((w.removeSet e sid).ents.all.getD e.id default).location
                = none := by
              cases hx : ((w.removeSet e sid).ents.all.getD e.id default).location with
              | none => rfl
              | some lx =>
                rw [hx] at hmap2
                exact Option.noConfusion hmap2
            rw [hn]
            exact trivial
          | some t =>
            rw [ht] at hmap2
            obtain ⟨ti', hsome⟩ := loc_arch_exists hmap2
            rw [hsome]
            show t < (w.removeSet e sid).comps.archetypes.length
            rw [hh1]
            exact (harm.2.2.2.2.2.2 t ht).1
        · have hmapo : (((w.removeSet e sid).ents.all.getD i default).location).map
              (·.archetypeId)
              = ((w.ents.all.getD i default).location).map (·.archetypeId) := by
            rcases hshape with hsh | ⟨sw, tj, hsh⟩
            · rw [hsh, setLocation_other _ _ _ _ (Ne.symm hie)]
            · rw [hsh, setTableIndex_archId, setLocation_other _ _ _ _ (Ne.symm hie)]
          refine locOk_of_map hmapo hlenle ?_
          by_cases hlt : i < w.ents.all.length
          · exact hloc i hlt
          · rw [getD_oob _ _ _ (by omega)]
            exact trivial
    next => exact ⟨hg, hloc⟩

/-- The invariant holds along any operation trace. -/
lemma WorldWF_run (w : World) (ops : List WOp) (hwf : WorldWF w) :
    WorldWF (runW w ops) := by
  induction ops generalizing w with
  | nil => exact hwf
  | cons op rest ih => exact ih _ (WorldWF_step w op hwf)

end Fei

namespace Fei

/-- At any well-formed world: archetype ids are determined by their bits,
located entities with equal bits share an archetype id, and an insert or
remove step moves an entity to the archetype whose bits are the union with
(resp. difference by) the set's bits. -/
lemma canonical_state (w : World) (hwf : WorldWF w) :
    (∀ a b, a < w.comps.archetypes.length → b < w.comps.archetypes.length →
      w.comps.archBits a = w.comps.archBits b → a = b) ∧
    (∀ i j li lj, (w.ents.all.getD i default).location = some li →
      (w.ents.all.getD j default).location = some lj →
      i < w.ents.all.length → j < w.ents.all.length →
      w.comps.archBits li.archetypeId = w.comps.archBits lj.archetypeId →
      li.archetypeId = lj.archetypeId) ∧
    (∀ e sid v, w.ents.contains e = true →
      sid < w.comps.componentSetInfo.length →
      ∃ l1, ((stepW w (.insert e sid v)).ents.all.getD e.id default).location
          = some l1 ∧
        (stepW w (.insert e sid v)).comps.archBits l1.archetypeId
          = (match (w.ents.all.getD e.id default).location with
             | some l => w.comps.archBits l.archetypeId
             | none => ∅) ∪ w.comps.setBits sid) ∧
    (∀ e sid, w.ents.contains e = true →
      sid < w.comps.componentSetInfo.length →
      ∀ l, (w.ents.all.getD e.id default).location = some l →
      (w.comps.archBits l.archetypeId ⊆ w.comps.setBits sid →
        ((stepW w (.remove e sid)).ents.all.getD e.id default).location = none) ∧
      (¬ w.comps.archBits l.archetypeId ⊆ w.comps.setBits sid →
        ∃ l1, ((stepW w (.remove e sid)).ents.all.getD e.id default).location
            = some l1 ∧
          (stepW w (.remove e sid)).comps.archBits l1.archetypeId
            = w.comps.archBits l.archetypeId \ w.comps.setBits sid)) := by
  obtain ⟨hg, hloc⟩ := hwf
  refine ⟨?_, ?_, ?_, ?_⟩
  · intro a b ha hb h
    exact archBits_inj hg.1.2.1 ha hb h
  · intro i j li lj hli hlj hilen hjlen h
    exact archBits_inj hg.1.2.1 (locOk_some (hloc i hilen) hli)
      (locOk_some (hloc j hjlen) hlj) h
  · intro e sid v hcont hsid
    have heid := contains_lt hcont
    obtain ⟨hg1, _, _, _, _⟩ := insertSet_graph w e (fun _ => v) sid
    obtain ⟨_, ⟨ti, hself⟩, _⟩ := insertSet_loc w e (fun _ => v) sid heid
    cases hl0 : (w.ents.all.getD e.id default).location with
    | some l0 =>
      have hlocok : locOk w.comps (some l0) := by
        rw [← hl0]
        exact hloc e.id heid
      have hinsw := archInsertion_wf w.comps (some l0) sid hg hsid hlocok
      rw [hl0] at hg1 hself
      simp only [stepW]
      rw [if_pos ⟨hcont, hsid⟩]
      refine ⟨⟨(w.comps.archInsertion (some l0) sid).2.2, ti⟩, hself, ?_⟩
      show (w.insertSet e (fun _ => v) sid).comps.archBits
          (w.comps.archInsertion (some l0) sid).2.2 = _
      have hbits2 : (w.insertSet e (fun _ => v) sid).comps.archBits
          (w.comps.archInsertion (some l0) sid).2.2
          = (w.comps.archInsertion (some l0) sid).1.archBits
            (w.comps.archInsertion (some l0) sid).2.2 := by
        unfold Components.archBits
        rw [hg1]
      rw [hbits2]
      have hfin := hinsw.2.2.2.2.2.2
      dsimp only at hfin ⊢
      exact hfin
    | none =>
      have hinsw := archInsertion_wf w.comps none sid hg hsid trivial
      rw [hl0] at hg1 hself
      simp only [stepW]
      rw [if_pos ⟨hcont, hsid⟩]
      refine ⟨⟨(w.comps.archInsertion none sid).2.2, ti⟩, hself, ?_⟩
      show (w.insertSet e (fun _ => v) sid).comps.archBits
          (w.comps.archInsertion none sid).2.2 = _
      have hbits2 : (w.insertSet e (fun _ => v) sid).comps.archBits
          (w.comps.archInsertion none sid).2.2
          = (w.comps.archInsertion none sid).1.archBits
            (w.comps.archInsertion none sid).2.2 := by
        unfold Components.archBits
        rw [hg1]
      rw [hbits2]
      have hfin := hinsw.2.2.2.2.2.2
      dsimp only at hfin ⊢
      rw [Finset.empty_union]
      exact hfin
  · intro e sid hcont hsid l hl
    have heid := contains_lt hcont
    have harm := archRemoval_wf w.comps l sid hg (locOk_some (hloc e.id heid) hl)
    rcases removeSet_shape w e sid with ⟨hnone, _⟩ |
      ⟨l', hl', hgeq, newLoc, hmap, hshape⟩
    · rw [hl] at hnone
      exact Option.noConfusion hnone
    · have hll : l' = l := by
        rw [hl] at hl'
        exact Option.some.inj hl'.symm
      subst hll
      simp only [stepW]
      rw [if_pos ⟨hcont, hsid⟩]
      have hmape : (((w.removeSet e sid).ents.all.getD e.id default).location).map
          (·.archetypeId) = (w.comps.archRemoval l' sid).2.2 := by
        rcases hshape with hsh | ⟨sw, tj, hsh⟩
        · rw [hsh, setLocation_self _ _ _ heid, hmap]
        · rw [hsh, setTableIndex_archId, setLocation_self _ _ _ heid, hmap]
      constructor
      · intro hsub
        have ht := harm.2.2.2.2.2.1.mpr hsub
        rw [ht] at hmape
        cases hx : ((w.removeSet e sid).ents.all.getD e.id default).location with
        | none => rfl
        | some lx =>
          rw [hx] at hmape
          exact Option.noConfusion hmape
      · intro hsub
        have ht : (w.comps.archRemoval l' sid).2.2 ≠ none := by
          intro h
          exact hsub (harm.2.2.2.2.2.1.mp h)
        obtain ⟨t, htt⟩ := Option.ne_none_iff_exists'.mp ht
        rw [htt] at hmape
        obtain ⟨ti', hsome⟩ := loc_arch_exists hmape
        refine ⟨⟨t, ti'⟩, hsome, ?_⟩
        show (w.removeSet e sid).comps.archBits t = _
        have hbits2 : (w.removeSet e sid).comps.archBits t
            = (w.comps.archRemoval l' sid).1.archBits t := by
          unfold Components.archBits
          rw [hgeq.1]
        rw [hbits2]
        exact (harm.2.2.2.2.2.2 t htt).2

end Fei

namespace Fei

/-- C2: archetypes are canonical.  Along any trace of spawn/insert/remove
operations from a well-formed world, the invariant is preserved; at the
resulting state there is exactly one archetype per component bitset (ids
with equal bits coincide), any two located entities with equal component
bitsets have equal archetype ids, and one further insert (resp. remove)
step moves an entity to the archetype whose bits are exactly its previous
bits united with (resp. minus) the set's bits — so entities that end up
with the same component set land in the same archetype, regardless of the
operation order that produced them. -/
theorem archetype_canonical (w : World) (ops : List WOp) (hwf : WorldWF w) :
    WorldWF (runW w ops) ∧
    (∀ a b, a < (runW w ops).comps.archetypes.length →
      b < (runW w ops).comps.archetypes.length →
      (runW w ops).comps.archBits a = (runW w ops).comps.archBits b → a = b) ∧
    (∀ i j li lj, ((runW w ops).ents.all.getD i default).location = some li →
      ((runW w ops).ents.all.getD j default).location = some lj →
      i < (runW w ops).ents.all.length → j < (runW w ops).ents.all.length →
      (runW w ops).comps.archBits li.archetypeId
        = (runW w ops).comps.archBits lj.archetypeId →
      li.archetypeId = lj.archetypeId) ∧
    (∀ e sid v, (runW w ops).ents.contains e = true →
      sid < (runW w ops).comps.componentSetInfo.length →
      ∃ l1, ((stepW (runW w ops) (.insert e sid v)).ents.all.getD e.id
          default).location = some l1 ∧
        (stepW (runW w ops) (.insert e sid v)).comps.archBits l1.archetypeId
          = (match ((runW w ops).ents.all.getD e.id default).location with
             | some l => (runW w ops).comps.archBits l.archetypeId
             | none => ∅) ∪ (runW w ops).comps.setBits sid) ∧
    (∀ e sid, (runW w ops).ents.contains e = true →
      sid < (runW w ops).comps.componentSetInfo.length →
      ∀ l, ((runW w ops).ents.all.getD e.id default).location = some l →
      ((runW w ops).comps.archBits l.archetypeId
          ⊆ (runW w ops).comps.setBits sid →
        ((stepW (runW w ops) (.remove e sid)).ents.all.getD e.id
          default).location = none) ∧
      (¬ (runW w ops).comps.archBits l.archetypeId
          ⊆ (runW w ops).comps.setBits sid →
        ∃ l1, ((stepW (runW w ops) (.remove e sid)).ents.all.getD e.id
            default).location = some l1 ∧
          (stepW (runW w ops) (.remove e sid)).comps.archBits l1.archetypeId
            = (runW w ops).comps.archBits l.archetypeId
              \ (runW w ops).comps.setBits sid)) := by
  have hrun := WorldWF_run w ops hwf
  exact ⟨hrun, canonical_state (runW w ops) hrun⟩

/-- A world with one registered sparse-set component and one registered
component set `{0}`, and no entities yet. -/
def canonSample : World :=
  ⟨⟨[], [], [], [], [], [], [], [⟨some .sparseSet⟩],
    [⟨[0], {0}, [(0, 0)], [0], [], []⟩]⟩, ⟨0, [], []⟩⟩

/-- Spawn two entities and insert the same set on both. -/
def canonOps : List WOp :=
  [.spawn, .spawn, .insert ⟨0, 0⟩ 0 7, .insert ⟨1, 0⟩ 0 9]

/-- C2 witness: the sample world is well-formed; after two spawns and two
inserts of the same set the invariant still holds, both entities are
located in archetype 0, and the graph indeed has exactly one archetype. -/
theorem archetype_canonical_witness :
    WorldWF canonSample ∧
    WorldWF (runW canonSample canonOps) ∧
    ((runW canonSample canonOps).ents.all.getD 0 default).location
      = some ⟨0, none⟩ ∧
    ((runW canonSample canonOps).ents.all.getD 1 default).location
      = some ⟨0, none⟩ ∧
    (runW canonSample canonOps).comps.archetypes.length = 1 := by
  have h := archetype_canonical canonSample canonOps (by decide)
  exact ⟨by decide, h.1, by decide, by decide, by decide⟩

end Fei

namespace Fei

/-! ### Toolkit for the store folds (C1) -/

lemma alModify_keys {κ α : Type} [DecidableEq κ] (l : List (κ × α)) (k : κ)
    (f : α → α) : (alModify l k f).map Prod.fst = l.map Prod.fst := by
  induction l with
  | nil => rfl
  | cons hd tl ih =>
    obtain ⟨k', v'⟩ := hd
    unfold alModify
    by_cases hk : k' = k
    · rw [if_pos hk]
      simpa using ih
    · rw [if_neg hk]
      simpa using ih

lemma alGet_none_of_not_mem_keys {κ α : Type} [DecidableEq κ] {l : List (κ × α)}
    {k : κ} (h : k ∉ l.map Prod.fst) : alGet l k = none := by
  induction l with
  | nil => rfl
  | cons hd tl ih =>
    obtain ⟨k', v'⟩ := hd
    unfold alGet
    simp only [List.map_cons, List.mem_cons] at h
    push_neg at h
    rw [if_neg (fun he => h.1 he.symm)]
    exact ih h.2

lemma alGet_isSome_of_mem_keys {κ α : Type} [DecidableEq κ] {l : List (κ × α)}
    {k : κ} (h : k ∈ l.map Prod.fst) : (alGet l k).isSome := by
  induction l with
  | nil => simp at h
  | cons hd tl ih =>
    obtain ⟨k', v'⟩ := hd
    unfold alGet
    by_cases hk : k' = k
    · rw [if_pos hk]
      rfl
    · rw [if_neg hk]
      simp only [List.map_cons, List.mem_cons] at h
      rcases h with h | h
      · exact absurd h.symm hk
      · exact ih h

/-- Folding `alModify` over distinct keys: each key is rewritten once. -/
lemma foldl_modify_get {α : Type} (f : Nat → α → α) :
    ∀ (comps : List Nat) (cols : List (Nat × α)) (id : Nat), comps.Nodup →
    alGet (comps.foldl (fun cs i => alModify cs i (f i)) cols) id
      = if id ∈ comps then (alGet cols id).map (f id) else alGet cols id := by
  intro comps
  induction comps with
  | nil => intro cols id _; simp
  | cons c rest ih =>
    intro cols id hnd
    rw [List.foldl_cons, ih _ id (List.nodup_cons.mp hnd).2]
    by_cases hmem : id ∈ rest
    · rw [if_pos hmem, if_pos (List.mem_cons_of_mem _ hmem)]
      have hne : c ≠ id := by
        intro he
        exact (List.nodup_cons.mp hnd).1 (he ▸ hmem)
      rw [alGet_modify_ne _ _ _ _ hne]
    · rw [if_neg hmem]
      by_cases hc : id = c
      · subst hc
        rw [if_pos (List.mem_cons_self _ _), alGet_modify_self]
      · rw [if_neg (by simp [hc, hmem]), alGet_modify_ne _ _ _ _ (Ne.symm hc)]

lemma foldl_modify_keys {α : Type} (f : Nat → α → α) :
    ∀ (comps : List Nat) (cols : List (Nat × α)),
    (comps.foldl (fun cs i => alModify cs i (f i)) cols).map Prod.fst
      = cols.map Prod.fst := by
  intro comps
  induction comps with
  | nil => intro cols; rfl
  | cons c rest ih =>
    intro cols
    rw [List.foldl_cons, ih, alModify_keys]

/-- Looking up an offset in a write list whose written values are a
function of the offset: any occurrence yields that value. -/
lemma alGet_map_offsets {g : Nat → Nat} {v : Nat → Val} :
    ∀ (ids : List Nat) (id : Nat), id ∈ ids →
    alGet (ids.map fun i => (g i, v (g i))) (g id) = some (v (g id)) := by
  intro ids
  induction ids with
  | nil => intro id h; simp at h
  | cons a rest ih =>
    intro id hmem
    simp only [List.map_cons]
    unfold alGet
    by_cases hga : g a = g id
    · rw [if_pos hga, hga]
    · rw [if_neg hga]
      rcases List.mem_cons.mp hmem with he | hm
      · exact absurd (congrArg g he.symm) hga
      · exact ih id hm

end Fei

namespace Fei

lemma writesAt_map_offsets {g : Nat → Nat} {v : Nat → Val} (ids : List Nat) (id : Nat)
    (hmem : id ∈ ids) :
    writesAt (ids.map fun i => (g i, v (g i))) (g id) = some (v (g id)) := by
  unfold writesAt
  rw [← List.map_reverse]
  exact alGet_map_offsets _ _ (List.mem_reverse.mpr hmem)

lemma swapRemove_length {α : Type} (l : List α) (i : Nat) (h : 0 < l.length) :
    (swapRemove l i).length = l.length - 1 := by
  unfold swapRemove
  cases hg : l.getLast? with
  | none =>
    rw [List.getLast?_eq_none_iff] at hg
    subst hg
    simp at h
  | some last => simp

lemma alPut_keys_of_mem {κ α : Type} [DecidableEq κ] {l : List (κ × α)} {k : κ}
    (v : α) (h : k ∈ l.map Prod.fst) : (alPut l k v).map Prod.fst = l.map Prod.fst := by
  induction l with
  | nil => simp at h
  | cons hd tl ih =>
    obtain ⟨k', v'⟩ := hd
    unfold alPut
    by_cases hk : k' = k
    · rw [if_pos hk]
      rfl
    · rw [if_neg hk]
      simp only [List.map_cons, List.mem_cons] at h
      rcases h with h | h
      · exact absurd h.symm hk
      · simpa using ih h

/-- The value `Table::insert_from` writes into the target column `id` of the
new row: the set's value at the component's offset when the set carries the
component (or the source table lacks the column), the migrated source value
otherwise. -/
def insVal (f : Table) (v : Nat → Val) (si : SetInfo) (i : Nat) (id : Nat) : Val :=
  match alGet f.columns id with
  | some fcol =>
    match alGet si.componentOffsets id with
    | some off => v off
    | none => fcol.getD i 0
  | none => v (offsetOf si id)

lemma insertRow_spec (t : Table) (e : Entity) (v : Nat → Val) (si : SetInfo)
    (hnd : t.components.Nodup) :
    (t.insertRow e v si).2 = t.entities.length ∧
    (t.insertRow e v si).1.components = t.components ∧
    (t.insertRow e v si).1.entities = t.entities ++ [e] ∧
    (t.insertRow e v si).1.columns.map Prod.fst = t.columns.map Prod.fst ∧
    (∀ id, id ∈ t.components →
      alGet (t.insertRow e v si).1.columns id
        = (alGet t.columns id).map fun col => col ++ [v (offsetOf si id)]) ∧
    (∀ id, id ∉ t.components →
      alGet (t.insertRow e v si).1.columns id = alGet t.columns id) := by
  refine ⟨rfl, rfl, rfl, foldl_modify_keys _ _ _, ?_, ?_⟩
  · intro id hid
    have h := foldl_modify_get (fun i col => col ++ [v (offsetOf si i)])
      t.components t.columns id hnd
    rw [if_pos hid] at h
    exact h
  · intro id hid
    have h := foldl_modify_get (fun i col => col ++ [v (offsetOf si i)])
      t.components t.columns id hnd
    rw [if_neg hid] at h
    exact h

lemma update_nil (t : Table) (i : Nat) (v : Nat → Val) (si : SetInfo)
    (h : si.tableComponents = []) : t.update i v si = t := by
  unfold Table.update
  rw [h]
  rfl

end Fei

namespace Fei

/-- The fold step of `Table::insert_from`, named for reuse in proofs. -/
def insertFromStep (v : Nat → Val) (si : SetInfo) (fromIndex : Nat)
    (acc : List (Nat × List Val) × List (Nat × List Val)) (id : Nat) :
    List (Nat × List Val) × List (Nat × List Val) :=
  match alGet acc.2 id with
  | some fcol =>
    match alGet si.componentOffsets id with
    | some off =>
      (alModify acc.1 id (fun col => col ++ [v off]),
        alPut acc.2 id (swapRemove fcol fromIndex))
    | none =>
      (alModify acc.1 id (fun col => col ++ [fcol.getD fromIndex 0]),
        alPut acc.2 id (swapRemove fcol fromIndex))
  | none =>
    (alModify acc.1 id (fun col => col ++ [v (offsetOf si id)]), acc.2)

/-- The target columns of `insert_from` evolve like a plain per-component
append of `insVal` (reads of the source columns are not disturbed by the
source-side removals, since each component is visited once). -/
lemma insertFrom_fold_to (f : Table) (v : Nat → Val) (si : SetInfo) (i : Nat) :
    ∀ (comps : List Nat) (toCols fromCols : List (Nat × List Val)),
    comps.Nodup →
    (∀ id ∈ comps, alGet fromCols id = alGet f.columns id) →
    (comps.foldl (insertFromStep v si i) (toCols, fromCols)).1
      = comps.foldl (fun cs id => alModify cs id
          (fun col => col ++ [insVal f v si i id])) toCols := by
  intro comps
  induction comps with
  | nil => intro toCols fromCols _ _; rfl
  | cons c rest ih =>
    intro toCols fromCols hnd hfrom
    rw [List.foldl_cons, List.foldl_cons]
    have hc : alGet fromCols c = alGet f.columns c := hfrom c (List.mem_cons_self _ _)
    have hnotc : c ∉ rest := (List.nodup_cons.mp hnd).1
    have hndr : rest.Nodup := (List.nodup_cons.mp hnd).2
    cases hfc : alGet f.columns c with
    | some fcol =>
      have hcc : alGet fromCols c = some fcol := hc.trans hfc
      have hiv : insVal f v si i c
          = match alGet si.componentOffsets c with
            | some off => v off
            | none => fcol.getD i 0 := by
        unfold insVal
        rw [hfc]
      cases ho : alGet si.componentOffsets c with
      | some off =>
        have hstep : insertFromStep v si i (toCols, fromCols) c
            = (alModify toCols c (fun col => col ++ [v off]),
              alPut fromCols c (swapRemove fcol i)) := by
          unfold insertFromStep
          dsimp only
          rw [hcc, ho]
        rw [hstep]
        rw [hiv, ho]
        exact ih _ _ hndr fun id hid => by
          rw [alGet_put_ne _ _ _ _ (fun he => hnotc (by rw [he]; exact hid))]
          exact hfrom id (List.mem_cons_of_mem _ hid)
      | none =>
        have hstep : insertFromStep v si i (toCols, fromCols) c
            = (alModify toCols c (fun col => col ++ [fcol.getD i 0]),
              alPut fromCols c (swapRemove fcol i)) := by
          unfold insertFromStep
          dsimp only
          rw [hcc, ho]
        rw [hstep]
        rw [hiv, ho]
        exact ih _ _ hndr fun id hid => by
          rw [alGet_put_ne _ _ _ _ (fun he => hnotc (by rw [he]; exact hid))]
          exact hfrom id (List.mem_cons_of_mem _ hid)
    | none =>
      have hcc : alGet fromCols c = none := hc.trans hfc
      have hiv : insVal f v si i c = v (offsetOf si c) := by
        unfold insVal
        rw [hfc]
      have hstep : insertFromStep v si i (toCols, fromCols) c
          = (alModify toCols c (fun col => col ++ [v (offsetOf si c)]), fromCols) := by
        unfold insertFromStep
        dsimp only
        rw [hcc]
      rw [hstep]
      rw [hiv]
      exact ih _ _ hndr fun id hid => hfrom id (List.mem_cons_of_mem _ hid)

lemma insertFrom_spec (t f : Table) (i : Nat) (v : Nat → Val) (si : SetInfo)
    (hnd : t.components.Nodup) :
    (t.insertFrom f i v si).2.2.2 = t.entities.length ∧
    (t.insertFrom f i v si).1.components = t.components ∧
    (t.insertFrom f i v si).1.entities
      = t.entities ++ [f.entities.getD i default] ∧
    (t.insertFrom f i v si).1.columns.map Prod.fst = t.columns.map Prod.fst ∧
    (∀ id, id ∈ t.components →
      alGet (t.insertFrom f i v si).1.columns id
        = (alGet t.columns id).map fun col => col ++ [insVal f v si i id]) := by
  have hto := insertFrom_fold_to f v si i t.components t.columns f.columns hnd
    fun _ _ => rfl
  have hcols : (t.insertFrom f i v si).1.columns
      = t.components.foldl (fun cs id => alModify cs id
          (fun col => col ++ [insVal f v si i id])) t.columns := hto
  refine ⟨rfl, rfl, rfl, ?_, ?_⟩
  · rw [hcols]
    exact foldl_modify_keys _ _ _
  · intro id hid
    rw [hcols]
    have h := foldl_modify_get (fun id col => col ++ [insVal f v si i id])
      t.components t.columns id hnd
    rw [if_pos hid] at h
    exact h

end Fei

namespace Fei

/-- The fold step of `Table::extract_from`. -/
def extractFromStep (fromIndex : Nat)
    (acc : List (Nat × List Val) × List (Nat × List Val) × List (Nat × Val))
    (id : Nat) :
    List (Nat × List Val) × List (Nat × List Val) × List (Nat × Val) :=
  let fcol := (alGet acc.2.1 id).getD []
  match alGet acc.1 id with
  | some _ =>
    (alModify acc.1 id (fun col => col ++ [fcol.getD fromIndex 0]),
      alPut acc.2.1 id (swapRemove fcol fromIndex), acc.2.2)
  | none =>
    (acc.1, alPut acc.2.1 id (swapRemove fcol fromIndex),
      acc.2.2 ++ [(id, fcol.getD fromIndex 0)])

/-- `extract_from` hands out exactly the source components without a target
column, with the source values of the extracted row. -/
lemma extractFrom_fold_out (t0 f0 : List (Nat × List Val)) (i : Nat) :
    ∀ (comps : List Nat) (toCols fromCols : List (Nat × List Val))
      (out : List (Nat × Val)),
    comps.Nodup →
    (∀ id ∈ comps, alGet toCols id = alGet t0 id ∧ alGet fromCols id = alGet f0 id) →
    (comps.foldl (extractFromStep i) (toCols, fromCols, out)).2.2
      = out ++ (comps.filter fun id => (alGet t0 id).isNone).map
          fun id => (id, ((alGet f0 id).getD []).getD i 0) := by
  intro comps
  induction comps with
  | nil => intro toCols fromCols out _ _; simp
  | cons c rest ih =>
    intro toCols fromCols out hnd hinv
    rw [List.foldl_cons]
    have hc := hinv c (List.mem_cons_self _ _)
    have hnotc : c ∉ rest := (List.nodup_cons.mp hnd).1
    have hndr : rest.Nodup := (List.nodup_cons.mp hnd).2
    have hinv' : ∀ (fc : List Val), ∀ id ∈ rest,
        alGet toCols id = alGet t0 id ∧
        alGet (alPut fromCols c fc) id = alGet f0 id := by
      intro fc id hid
      refine ⟨(hinv id (List.mem_cons_of_mem _ hid)).1, ?_⟩
      rw [alGet_put_ne _ _ _ _ (fun he => hnotc (by rw [he]; exact hid))]
      exact (hinv id (List.mem_cons_of_mem _ hid)).2
    cases ht : alGet t0 c with
    | some col0 =>
      have hstep : extractFromStep i (toCols, fromCols, out) c
          = (alModify toCols c
              (fun col => col ++ [((alGet fromCols c).getD []).getD i 0]),
            alPut fromCols c (swapRemove ((alGet fromCols c).getD []) i), out) := by
        unfold extractFromStep
        dsimp only
        rw [hc.1, ht]
      rw [hstep]
      have hfilter : (c :: rest).filter (fun id => (alGet t0 id).isNone)
          = rest.filter fun id => (alGet t0 id).isNone := by
        rw [List.filter_cons]
        rw [ht]
        simp
      rw [hfilter]
      refine (ih _ _ _ hndr ?_)
      intro id hid
      refine ⟨?_, (hinv' _ id hid).2⟩
      rw [alGet_modify_ne _ _ _ _ (fun he => hnotc (by rw [he]; exact hid))]
      exact (hinv id (List.mem_cons_of_mem _ hid)).1
    | none =>
      have hstep : extractFromStep i (toCols, fromCols, out) c
          = (toCols, alPut fromCols c (swapRemove ((alGet fromCols c).getD []) i),
            out ++ [(c, ((alGet fromCols c).getD []).getD i 0)]) := by
        unfold extractFromStep
        dsimp only
        rw [hc.1, ht]
      rw [hstep]
      have hfilter : (c :: rest).filter (fun id => (alGet t0 id).isNone)
          = c :: (rest.filter fun id => (alGet t0 id).isNone) := by
        rw [List.filter_cons]
        rw [ht]
        simp
      rw [hfilter, List.map_cons]
      rw [ih _ _ _ hndr (hinv' _)]
      rw [hc.2]
      simp

/-- The fold step of `Table::extract`. -/
def extractRowStep (i : Nat)
    (acc : List (Nat × List Val) × List (Nat × Val)) (id : Nat) :
    List (Nat × List Val) × List (Nat × Val) :=
  (alModify acc.1 id (fun col => swapRemove col i),
    acc.2 ++ [(id, ((alGet acc.1 id).getD []).getD i 0)])

/-- `extract` hands out every component of the row. -/
lemma extractRow_fold_out (t0 : List (Nat × List Val)) (i : Nat) :
    ∀ (comps : List Nat) (cols : List (Nat × List Val)) (out : List (Nat × Val)),
    comps.Nodup →
    (∀ id ∈ comps, alGet cols id = alGet t0 id) →
    (comps.foldl (extractRowStep i) (cols, out)).2
      = out ++ comps.map fun id => (id, ((alGet t0 id).getD []).getD i 0) := by
  intro comps
  induction comps with
  | nil => intro cols out _ _; simp
  | cons c rest ih =>
    intro cols out hnd hinv
    rw [List.foldl_cons]
    have hc := hinv c (List.mem_cons_self _ _)
    have hnotc : c ∉ rest := (List.nodup_cons.mp hnd).1
    have hndr : rest.Nodup := (List.nodup_cons.mp hnd).2
    show (rest.foldl (extractRowStep i)
        (alModify cols c (fun col => swapRemove col i),
          out ++ [(c, ((alGet cols c).getD []).getD i 0)])).2 = _
    rw [ih _ _ hndr (fun id hid => by
      rw [alGet_modify_ne _ _ _ _ (fun he => hnotc (by rw [he]; exact hid))]
      exact hinv id (List.mem_cons_of_mem _ hid))]
    rw [hc]
    simp

/-- The fold step of `SparseSets::extract`. -/
def sparseExtractStep (eid : Nat)
    (acc : List (Nat × List (Nat × Val)) × List (Nat × Val)) (id : Nat) :
    List (Nat × List (Nat × Val)) × List (Nat × Val) :=
  match alGet ((alGet acc.1 id).getD []) eid with
  | some value =>
    (alModify acc.1 id (fun m => alRemove m eid), acc.2 ++ [(id, value)])
  | none => (acc.1, acc.2)

/-- Sparse extraction over components that are all present hands out each
of their stored values. -/
lemma sparseExtract_fold_out (eid : Nat) (val : Nat → Val) :
    ∀ (comps : List Nat) (ss : List (Nat × List (Nat × Val)))
      (out : List (Nat × Val)),
    comps.Nodup →
    (∀ id ∈ comps, alGet ((alGet ss id).getD []) eid = some (val id)) →
    (comps.foldl (sparseExtractStep eid) (ss, out)).2
      = out ++ comps.map fun id => (id, val id) := by
  intro comps
  induction comps with
  | nil => intro ss out _ _; simp
  | cons c rest ih =>
    intro ss out hnd hval
    rw [List.foldl_cons]
    have hc := hval c (List.mem_cons_self _ _)
    have hnotc : c ∉ rest := (List.nodup_cons.mp hnd).1
    have hndr : rest.Nodup := (List.nodup_cons.mp hnd).2
    have hstep : sparseExtractStep eid (ss, out) c
        = (alModify ss c (fun m => alRemove m eid), out ++ [(c, val c)]) := by
      unfold sparseExtractStep
      dsimp only
      rw [hc]
    rw [hstep]
    rw [ih _ _ hndr (fun id hid => by
      rw [alGet_modify_ne _ _ _ _ (fun he => hnotc (by rw [he]; exact hid))]
      exact hval id (List.mem_cons_of_mem _ hid))]
    simp

end Fei

namespace Fei

lemma extractFrom_out (t f : Table) (i : Nat) (hnd : f.components.Nodup) :
    (t.extractFrom f i).2.2.1
      = (f.components.filter fun id => (alGet t.columns id).isNone).map
          fun id => (id, ((alGet f.columns id).getD []).getD i 0) := by
  have h := extractFrom_fold_out t.columns f.columns i f.components t.columns
    f.columns [] hnd (fun _ _ => ⟨rfl, rfl⟩)
  rw [List.nil_append] at h
  exact h

lemma extractRow_out (t : Table) (i : Nat) (hnd : t.components.Nodup) :
    (t.extractRow i).2.1
      = t.components.map fun id => (id, ((alGet t.columns id).getD []).getD i 0) := by
  have h := extractRow_fold_out t.columns i t.components t.columns [] hnd
    (fun _ _ => rfl)
  rw [List.nil_append] at h
  exact h

lemma sparseExtract_out (ss : List (Nat × List (Nat × Val))) (eid : Nat)
    (comps : List Nat) (val : Nat → Val) (hnd : comps.Nodup)
    (hval : ∀ id ∈ comps, alGet ((alGet ss id).getD []) eid = some (val id)) :
    (sparseExtract ss eid comps).2 = comps.map fun id => (id, val id) := by
  have h := sparseExtract_fold_out eid val comps ss [] hnd hval
  rw [List.nil_append] at h
  exact h

lemma sparseInsert_get (ss : List (Nat × List (Nat × Val))) (eid : Nat)
    (v : Nat → Val) (si : SetInfo) (hnd : si.sparseSetComponents.Nodup) :
    ∀ id ∈ si.sparseSetComponents, (alGet ss id).isSome →
    alGet ((alGet (sparseInsert ss eid v si) id).getD []) eid
      = some (v (offsetOf si id)) := by
  intro id hid hsome
  have h := foldl_modify_get (fun id m => alPut m eid (v (offsetOf si id)))
    si.sparseSetComponents ss id hnd
  rw [if_pos hid] at h
  have h2 : alGet (sparseInsert ss eid v si) id
      = (alGet ss id).map fun m => alPut m eid (v (offsetOf si id)) := h
  rw [h2]
  cases hs : alGet ss id with
  | none =>
    rw [hs] at hsome
    exact Bool.noConfusion hsome
  | some m =>
    show alGet (alPut m eid (v (offsetOf si id))) eid = _
    exact alGet_put_self _ _ _

end Fei

namespace Fei

/-- The table-stored components of a bitset, in key order. -/
def tableComps (c : Components) (bits : Finset Nat) : List Nat :=
  (c.keyOf bits).filter fun id => (c.infoOf id).storage = some .table

/-- Each table's columns are keyed exactly by its (distinct) components and
all have one value per row. -/
def TablesWF (c : Components) : Prop :=
  ∀ t ∈ c.tables, t.columns.map Prod.fst = t.components ∧ t.components.Nodup ∧
    ∀ p ∈ t.columns, p.2.length = t.entities.length

instance (c : Components) : Decidable (TablesWF c) := by
  unfold TablesWF
  infer_instance

/-- The shared-table map points at existing tables with exactly the mapped
component list. -/
def TableIdsWF (c : Components) : Prop :=
  ∀ p ∈ c.tableIds, p.2 < c.tables.length ∧
    (c.tables.getD p.2 default).components = p.1

instance (c : Components) : Decidable (TableIdsWF c) := by
  unfold TableIdsWF
  infer_instance

/-- An archetype's table (when present) holds exactly the table-stored
components of its bits; archetypes without a table have none. -/
def archTableOk (c : Components) (a : Nat) : Prop :=
  match (c.archetypes.getD a default).tableId with
  | some t => t < c.tables.length ∧
      (c.tables.getD t default).components = tableComps c (c.archBits a)
  | none => tableComps c (c.archBits a) = []

instance (c : Components) (a : Nat) : Decidable (archTableOk c a) := by
  unfold archTableOk
  cases (c.archetypes.getD a default).tableId <;> infer_instance

def ArchTablesWF (c : Components) : Prop :=
  ∀ a, a < c.archetypes.length → archTableOk c a

instance (c : Components) : Decidable (ArchTablesWF c) := by
  unfold ArchTablesWF
  infer_instance

def StoreWF (c : Components) : Prop := TablesWF c ∧ TableIdsWF c ∧ ArchTablesWF c

instance (c : Components) : Decidable (StoreWF c) := by
  unfold StoreWF
  infer_instance

/-- The sparse-set and table partitions recorded in each set info are the
storage filters of its component list. -/
def SetsWF2 (c : Components) : Prop :=
  ∀ si ∈ c.componentSetInfo,
    si.sparseSetComponents
      = si.components.filter (fun id => (c.infoOf id).storage = some .sparseSet) ∧
    si.tableComponents
      = si.components.filter fun id => (c.infoOf id).storage = some .table

instance (c : Components) : Decidable (SetsWF2 c) := by
  unfold SetsWF2
  infer_instance

/-- Sparse-set containers exist for every registered sparse component. -/
def SparseContWF (c : Components) : Prop :=
  ∀ id, id < c.componentInfo.length → (c.infoOf id).storage = some .sparseSet →
    (alGet c.sparseSets id).isSome = true

instance (c : Components) : Decidable (SparseContWF c) := by
  unfold SparseContWF
  infer_instance

lemma keyOf_nodup (c : Components) (s : Finset Nat) : (c.keyOf s).Nodup :=
  (List.nodup_range _).filter _

lemma arch_infoOf (c : Components) (k : List Nat) (b : Finset Nat) (id : Nat) :
    (c.arch k b).1.infoOf id = c.infoOf id := by
  unfold Components.infoOf
  rw [arch_componentInfo]

lemma tableComps_arch (c : Components) (k : List Nat) (b s : Finset Nat) :
    tableComps (c.arch k b).1 s = tableComps c s := by
  unfold tableComps
  rw [arch_keyOf]
  simp only [arch_infoOf]

/-- The table-side effect of a key-map miss in `Components::arch`. -/
lemma arch_miss_tables {c : Components} {bits : Finset Nat}
    (hk : alGet c.archetypeKeys (c.keyOf bits) = none) :
    ((c.arch (c.keyOf bits) bits).1.tables,
      (c.arch (c.keyOf bits) bits).1.tableIds,
      ((c.arch (c.keyOf bits) bits).1.archetypes.getD c.archetypes.length
        default).tableId)
    = (if (tableComps c bits).isEmpty then (c.tables, c.tableIds, none)
       else match alGet c.tableIds (tableComps c bits) with
        | some t => (c.tables, c.tableIds, some t)
        | none => (c.tables ++ [Table.new (tableComps c bits)],
            alPut c.tableIds (tableComps c bits) c.tables.length,
            some c.tables.length)) := by
  unfold tableComps
  unfold Components.arch
  rw [hk]
  dsimp only
  rw [getD_concat_self]

end Fei

namespace Fei

lemma arch_tables_frame (c : Components) (k : List Nat) (b : Finset Nat) :
    c.tables.length ≤ (c.arch k b).1.tables.length ∧
    ∀ t, t < c.tables.length →
      (c.arch k b).1.tables.getD t default = c.tables.getD t default := by
  unfold Components.arch
  cases hk : alGet c.archetypeKeys k with
  | some id => exact ⟨Nat.le_refl _, fun _ _ => rfl⟩
  | none =>
    dsimp only
    split
    next => exact ⟨Nat.le_refl _, fun _ _ => rfl⟩
    next =>
      split
      next => exact ⟨Nat.le_refl _, fun _ _ => rfl⟩
      next =>
        exact ⟨by simp, fun t ht => getD_append_left _ _ _ _ ht⟩

lemma archTableOk_arch_old {c : Components} {k : List Nat} {b : Finset Nat}
    {a : Nat} (halt : a < c.archetypes.length)
    (hold : archTableOk c a) : archTableOk (c.arch k b).1 a := by
  obtain ⟨hlen, htables⟩ := arch_tables_frame c k b
  unfold archTableOk at hold ⊢
  rw [arch_entry _ _ _ _ halt]
  cases hti : (c.archetypes.getD a default).tableId with
  | some t =>
    rw [hti] at hold
    dsimp only at hold ⊢
    rw [arch_archBits _ _ _ _ halt, tableComps_arch, htables t hold.1]
    exact ⟨lt_of_lt_of_le hold.1 hlen, hold.2⟩
  | none =>
    rw [hti] at hold
    dsimp only at hold ⊢
    rw [arch_archBits _ _ _ _ halt, tableComps_arch]
    exact hold

/-- `Components::arch` with a bit-derived key preserves the table store
invariants. -/
lemma StoreWF_arch (c : Components) (bits : Finset Nat) (hst : StoreWF c) :
    StoreWF (c.arch (c.keyOf bits) bits).1 := by
  obtain ⟨htab, hids, harch⟩ := hst
  cases hk : alGet c.archetypeKeys (c.keyOf bits) with
  | some id =>
    rw [arch_hit hk]
    exact ⟨htab, hids, harch⟩
  | none =>
    have hmt := @arch_miss_tables c bits hk
    have hlen := @arch_miss_len c (c.keyOf bits) bits hk
    have hbitsn := @arch_miss_bits c (c.keyOf bits) bits hk
    have holdArch : ∀ a, a < c.archetypes.length →
        archTableOk (c.arch (c.keyOf bits) bits).1 a := fun a halt =>
      archTableOk_arch_old halt (harch a halt)
    by_cases hempty : (tableComps c bits).isEmpty
    · rw [if_pos hempty] at hmt
      obtain ⟨ht1, hrest⟩ := Prod.ext_iff.mp hmt
      obtain ⟨ht2, ht3⟩ := Prod.ext_iff.mp hrest
      dsimp only at ht1 ht2 ht3
      refine ⟨?_, ?_, ?_⟩
      · intro t htm
        rw [ht1] at htm
        exact htab t htm
      · intro p hp
        rw [ht2] at hp
        rw [ht1]
        exact hids p hp
      · intro a ha
        rw [hlen] at ha
        by_cases halt : a < c.archetypes.length
        · exact holdArch a halt
        · have hae : a = c.archetypes.length := by omega
          subst hae
          unfold archTableOk
          rw [ht3]
          rw [hbitsn, tableComps_arch]
          exact List.isEmpty_iff.mp hempty
    · rw [if_neg hempty] at hmt
      cases hfound : alGet c.tableIds (tableComps c bits) with
      | some t0 =>
        rw [hfound] at hmt
        obtain ⟨ht1, hrest⟩ := Prod.ext_iff.mp hmt
        obtain ⟨ht2, ht3⟩ := Prod.ext_iff.mp hrest
        dsimp only at ht1 ht2 ht3
        have hfacts := hids _ (alGet_eq_some_mem hfound)
        refine ⟨?_, ?_, ?_⟩
        · intro t htm
          rw [ht1] at htm
          exact htab t htm
        · intro p hp
          rw [ht2] at hp
          rw [ht1]
          exact hids p hp
        · intro a ha
          rw [hlen] at ha
          by_cases halt : a < c.archetypes.length
          · exact holdArch a halt
          · have hae : a = c.archetypes.length := by omega
            subst hae
            unfold archTableOk
            rw [ht3]
            rw [hbitsn, tableComps_arch, ht1]
            exact hfacts
      | none =>
        rw [hfound] at hmt
        obtain ⟨ht1, hrest⟩ := Prod.ext_iff.mp hmt
        obtain ⟨ht2, ht3⟩ := Prod.ext_iff.mp hrest
        dsimp only at ht1 ht2 ht3
        refine ⟨?_, ?_, ?_⟩
        · intro t htm
          rw [ht1] at htm
          rcases List.mem_append.mp htm with htm | htm
          · exact htab t htm
          · have hte : t = Table.new (tableComps c bits) := by simpa using htm
            subst hte
            refine ⟨?_, ?_, ?_⟩
            · show ((tableComps c bits).map fun id => (id, ([] : List Val))).map
                  Prod.fst = tableComps c bits
              rw [List.map_map]
              exact List.map_id _
            · exact (keyOf_nodup c bits).filter _
            · intro p hp
              have : p.2 = ([] : List Val) := by
                rcases List.mem_map.mp hp with ⟨id0, _, he⟩
                rw [← he]
              rw [this]
              rfl
        · intro p hp
          rw [ht2] at hp
          rw [ht1]
          rcases mem_alPut hp with he | hold
          · rw [he]
            refine ⟨by simp, ?_⟩
            rw [getD_concat_self]
            rfl
          · have hfact := hids p hold
            refine ⟨by simp; omega, ?_⟩
            rw [getD_append_left _ _ _ _ hfact.1]
            exact hfact.2
        · intro a ha
          rw [hlen] at ha
          by_cases halt : a < c.archetypes.length
          · exact holdArch a halt
          · have hae : a = c.archetypes.length := by omega
            subst hae
            unfold archTableOk
            rw [ht3]
            rw [hbitsn, tableComps_arch, ht1]
            refine ⟨by simp, ?_⟩
            rw [getD_concat_self]
            rfl

end Fei

namespace Fei

lemma cacheInsertion_tableId (c : Components) (a sid t : Nat) (b : Nat) :
    ((c.cacheInsertion a sid t).archetypes.getD b default).tableId
      = (c.archetypes.getD b default).tableId := by
  unfold Components.cacheInsertion
  dsimp only
  by_cases h : a < c.archetypes.length
  · by_cases hab : a = b
    · subst hab
      rw [getD_listModify_self _ _ _ _ h]
    · rw [getD_listModify_ne _ _ _ _ _ hab]
  · rw [listModify_oob _ _ _ h]

lemma cacheRemoval_tableId (c : Components) (a sid : Nat) (t : Option Nat) (b : Nat) :
    ((c.cacheRemoval a sid t).archetypes.getD b default).tableId
      = (c.archetypes.getD b default).tableId := by
  unfold Components.cacheRemoval
  dsimp only
  by_cases h : a < c.archetypes.length
  · by_cases hab : a = b
    · subst hab
      rw [getD_listModify_self _ _ _ _ h]
    · rw [getD_listModify_ne _ _ _ _ _ hab]
  · rw [listModify_oob _ _ _ h]

lemma mem_keyOf {c : Components} {s : Finset Nat} {id : Nat} :
    id ∈ c.keyOf s ↔ id < c.componentInfo.length ∧ id ∈ s := by
  unfold Components.keyOf keyList
  simp [List.mem_filter]

lemma mem_tableComps {c : Components} {s : Finset Nat} {id : Nat} :
    id ∈ tableComps c s ↔
      (id < c.componentInfo.length ∧ id ∈ s) ∧
        (c.infoOf id).storage = some .table := by
  unfold tableComps
  rw [List.mem_filter]
  simp [mem_keyOf]

lemma archTableOk_cacheInsertion {c : Components} {a sid t : Nat} {b : Nat}
    (hold : archTableOk c b) : archTableOk (c.cacheInsertion a sid t) b := by
  unfold archTableOk at hold ⊢
  rw [cacheInsertion_tableId]
  cases hti : (c.archetypes.getD b default).tableId with
  | some t0 =>
    rw [hti] at hold
    dsimp only at hold ⊢
    rw [cacheInsertion_archBits]
    exact hold
  | none =>
    rw [hti] at hold
    dsimp only at hold ⊢
    rw [cacheInsertion_archBits]
    exact hold

lemma archTableOk_cacheRemoval {c : Components} {a sid : Nat} {t : Option Nat}
    {b : Nat} (hold : archTableOk c b) : archTableOk (c.cacheRemoval a sid t) b := by
  unfold archTableOk at hold ⊢
  rw [cacheRemoval_tableId]
  cases hti : (c.archetypes.getD b default).tableId with
  | some t0 =>
    rw [hti] at hold
    dsimp only at hold ⊢
    rw [cacheRemoval_archBits]
    exact hold
  | none =>
    rw [hti] at hold
    dsimp only at hold ⊢
    rw [cacheRemoval_archBits]
    exact hold

lemma StoreWF_cacheInsertion {c : Components} {a sid t : Nat} (hst : StoreWF c) :
    StoreWF (c.cacheInsertion a sid t) := by
  obtain ⟨htab, hids, harch⟩ := hst
  refine ⟨htab, hids, ?_⟩
  intro b hb
  rw [cacheInsertion_length] at hb
  exact archTableOk_cacheInsertion (harch b hb)

lemma StoreWF_cacheRemoval {c : Components} {a sid : Nat} {t : Option Nat}
    (hst : StoreWF c) : StoreWF (c.cacheRemoval a sid t) := by
  obtain ⟨htab, hids, harch⟩ := hst
  refine ⟨htab, hids, ?_⟩
  intro b hb
  rw [cacheRemoval_length] at hb
  exact archTableOk_cacheRemoval (harch b hb)

lemma arch_sparseSets (c : Components) (k : List Nat) (b : Finset Nat) :
    (c.arch k b).1.sparseSets = c.sparseSets := by
  unfold Components.arch
  cases h : alGet c.archetypeKeys k <;> rfl

/-- `arch_insertion` touches no sparse-set containers and preserves the
table store invariants. -/
lemma archInsertion_store (c : Components) (loc : Option EntityLocation) (sid : Nat)
    (hst : StoreWF c) (hsets : SetsWF c)
    (hsid : sid < c.componentSetInfo.length) :
    StoreWF (c.archInsertion loc sid).1 ∧
    (c.archInsertion loc sid).1.sparseSets = c.sparseSets := by
  have hsi := hsets _ (getD_mem c.componentSetInfo sid default hsid)
  simp only [Components.archInsertion]
  cases loc with
  | some l =>
    dsimp only
    cases hc : alGet (c.archetypes.getD l.archetypeId default).insertions sid with
    | some target => exact ⟨hst, rfl⟩
    | none =>
      dsimp only
      split
      next => exact ⟨StoreWF_cacheInsertion hst, rfl⟩
      next =>
        refine ⟨StoreWF_cacheInsertion (StoreWF_arch _ _ hst), ?_⟩
        show (c.arch _ _).1.sparseSets = c.sparseSets
        exact arch_sparseSets _ _ _
  | none =>
    dsimp only
    cases hs : alGet c.archetypeStarts sid with
    | some aid => exact ⟨hst, rfl⟩
    | none =>
      dsimp only
      rw [hsi.1]
      refine ⟨?_, ?_⟩
      · exact StoreWF_arch _ _ hst
      · show (c.arch _ _).1.sparseSets = c.sparseSets
        exact arch_sparseSets _ _ _

end Fei

namespace Fei

/-- `arch_removal` on an archetype with bits `A ∪ S`, removing the set with
bits `S` disjoint from `A`: tables and sparse sets are untouched, archetype
bits and table links are preserved, and the target is `none` when `A` is
empty and otherwise an archetype with bits exactly `A`. -/
lemma archRemoval_extract_facts (c : Components) (l : EntityLocation) (sid : Nat)
    (A : Finset Nat)
    (hg : GraphWF2 c) (hB : l.archetypeId < c.archetypes.length)
    (hBbits : c.archBits l.archetypeId = A ∪ c.setBits sid)
    (hdisj : Disjoint A (c.setBits sid))
    (hfid : A = ∅ ∨ ∃ f, f < c.archetypes.length ∧ c.archBits f = A) :
    (c.archRemoval l sid).1.tables = c.tables ∧
    (c.archRemoval l sid).1.sparseSets = c.sparseSets ∧
    (∀ b, ((c.archRemoval l sid).1.archetypes.getD b default).tableId
      = (c.archetypes.getD b default).tableId) ∧
    (∀ b, (c.archRemoval l sid).1.archBits b = c.archBits b) ∧
    (c.archRemoval l sid).2.1 = l.archetypeId ∧
    (A = ∅ → (c.archRemoval l sid).2.2 = none) ∧
    (A ≠ ∅ → ∃ C, (c.archRemoval l sid).2.2 = some C ∧
      C < c.archetypes.length ∧ c.archBits C = A) := by
  have hSsub : c.setBits sid ⊆ c.archBits l.archetypeId := by
    rw [hBbits]
    exact Finset.subset_union_right
  simp only [Components.archRemoval]
  cases hc : alGet (c.archetypes.getD l.archetypeId default).removals sid with
  | some tgt =>
    dsimp only
    have hform := hg.1.2.2.2 l.archetypeId hB _ (alGet_eq_some_mem hc)
    unfold RemovalFormula at hform
    dsimp only at hform
    refine ⟨rfl, rfl, fun b => rfl, fun b => rfl, rfl, ?_, ?_⟩
    · intro hA
      have hsub : c.archBits l.archetypeId ⊆ c.setBits sid := by
        rw [hBbits, hA, Finset.empty_union]
      rw [if_pos hsub] at hform
      exact hform
    · intro hA
      have hsub : ¬ c.archBits l.archetypeId ⊆ c.setBits sid := by
        rw [hBbits]
        intro hsub
        refine hA (Finset.eq_empty_iff_forall_not_mem.mpr fun x hx => ?_)
        have hxS : x ∈ c.setBits sid := hsub (Finset.mem_union_left _ hx)
        exact Finset.disjoint_left.mp hdisj hx hxS
      rw [if_neg hsub] at hform
      by_cases hd : Disjoint (c.archBits l.archetypeId) (c.setBits sid)
      · rw [if_pos hd] at hform
        have hS : c.setBits sid = ∅ :=
          Finset.eq_empty_iff_forall_not_mem.mpr fun x hx =>
            Finset.disjoint_left.mp hd
              (by rw [hBbits]; exact Finset.mem_union_right _ hx) hx
        refine ⟨l.archetypeId, hform, hB, ?_⟩
        rw [hBbits, hS, Finset.union_empty]
      · rw [if_neg hd] at hform
        cases tgt with
        | none => exact hform.elim
        | some b =>
          refine ⟨b, rfl, hform.1, ?_⟩
          rw [hform.2, hBbits]
          exact Finset.union_sdiff_cancel_right hdisj
  | none =>
    dsimp only
    split
    next hsub =>
      have hA : A = ∅ := by
        have hsub2 : c.archBits l.archetypeId ⊆ c.setBits sid := hsub
        rw [hBbits] at hsub2
        refine Finset.eq_empty_iff_forall_not_mem.mpr fun x hx => ?_
        have hxS : x ∈ c.setBits sid := hsub2 (Finset.mem_union_left _ hx)
        exact Finset.disjoint_left.mp hdisj hx hxS
      refine ⟨rfl, rfl, fun b => cacheRemoval_tableId _ _ _ _ _,
        fun b => cacheRemoval_archBits _ _ _ _ _, rfl, fun _ => rfl,
        fun hA2 => absurd hA hA2⟩
    next hsub =>
      split
      next hd =>
        have hd2 : Disjoint (c.archBits l.archetypeId) (c.setBits sid) := hd
        have hsub' : ¬ c.archBits l.archetypeId ⊆ c.setBits sid := hsub
        have hS : c.setBits sid = ∅ :=
          Finset.eq_empty_iff_forall_not_mem.mpr fun x hx =>
            Finset.disjoint_left.mp hd2
              (by rw [hBbits]; exact Finset.mem_union_right _ hx) hx
        have hA : A ≠ ∅ := by
          intro hA0
          refine hsub' ?_
          rw [hBbits, hA0, Finset.empty_union]
        refine ⟨rfl, rfl, fun b => cacheRemoval_tableId _ _ _ _ _,
          fun b => cacheRemoval_archBits _ _ _ _ _, rfl,
          fun hA2 => absurd hA2 hA, ?_⟩
        intro _
        refine ⟨l.archetypeId, rfl, hB, ?_⟩
        rw [hBbits, hS, Finset.union_empty]
      next hd =>
        have hsub' : ¬ c.archBits l.archetypeId ⊆ c.setBits sid := hsub
        have hA : A ≠ ∅ := by
          intro hA0
          refine hsub' ?_
          rw [hBbits, hA0, Finset.empty_union]
        obtain ⟨f, hflt, hfbits⟩ := hfid.resolve_left hA
        have hbs : (c.archetypes.getD l.archetypeId default).componentBits \
            (c.componentSetInfo.getD sid default).componentBits = A := by
          show c.archBits l.archetypeId \ c.setBits sid = A
          rw [hBbits]
          exact Finset.union_sdiff_cancel_right hdisj
        rw [hbs]
        have hk : alGet c.archetypeKeys (c.keyOf A) = some f := by
          have := hg.1.2.1 f hflt
          rw [hfbits] at this
          exact this
        rw [arch_hit hk]
        refine ⟨rfl, rfl, fun b => cacheRemoval_tableId _ _ _ _ _,
          fun b => cacheRemoval_archBits _ _ _ _ _, rfl,
          fun hA2 => absurd hA2 hA, ?_⟩
        intro _
        exact ⟨f, rfl, hflt, hfbits⟩

end Fei

namespace Fei

/-- After a state has entity `e` in an archetype with bits `A ∪ S` (the set
`sid` having bits `S` disjoint from `A`), with the set's sparse values and
table-row values all equal to the set value `v` at the proper offsets,
`extract` succeeds and hands out, for every sized component of the set, the
value `v` at that component's offset. -/
lemma extract_after (w1 : World) (e : Entity) (v : Nat → Val) (sid : Nat)
    (A : Finset Nat)
    (hg : GraphWF2 w1.comps) (hst : StoreWF w1.comps)
    (hsid : sid < w1.comps.componentSetInfo.length)
    (B : Nat) (ti : Option Nat)
    (hloc1 : (w1.ents.all.getD e.id default).location = some ⟨B, ti⟩)
    (hB : B < w1.comps.archetypes.length)
    (hBbits : w1.comps.archBits B = A ∪ w1.comps.setBits sid)
    (hdisj : Disjoint A (w1.comps.setBits sid))
    (hfid : A = ∅ ∨ ∃ f, f < w1.comps.archetypes.length ∧ w1.comps.archBits f = A)
    (hpart : (w1.comps.componentSetInfo.getD sid default).sparseSetComponents
      = (w1.comps.componentSetInfo.getD sid default).components.filter
          fun id => (w1.comps.infoOf id).storage = some .sparseSet)
    (hsx : ∀ id ∈ (w1.comps.componentSetInfo.getD sid default).sparseSetComponents,
      alGet ((alGet w1.comps.sparseSets id).getD []) e.id
        = some (v (offsetOf (w1.comps.componentSetInfo.getD sid default) id)))
    (hndS : (w1.comps.componentSetInfo.getD sid default).sparseSetComponents.Nodup)
    (htable : ∀ tB, (w1.comps.archetypes.getD B default).tableId = some tB →
      ∀ id ∈ tableComps w1.comps (w1.comps.setBits sid),
        ((alGet (w1.comps.tables.getD tB default).columns id).getD []).getD
          (ti.getD 0) 0
          = v (offsetOf (w1.comps.componentSetInfo.getD sid default) id)) :
    (w1.extractSet e sid).1 = true ∧
    ∀ id ∈ (w1.comps.componentSetInfo.getD sid default).components,
      (w1.comps.infoOf id).storage ≠ none →
      writesAt (w1.extractSet e sid).2.1
        (offsetOf (w1.comps.componentSetInfo.getD sid default) id)
        = some (v (offsetOf (w1.comps.componentSetInfo.getD sid default) id)) := by
  obtain ⟨hTab, hSp, hTid, hBits, hFst0, hTnone, hTsome⟩ :=
    archRemoval_extract_facts w1.comps ⟨B, ti⟩ sid A hg hB hBbits hdisj hfid
  have hFst : (w1.comps.archRemoval ⟨B, ti⟩ sid).2.1 = B := hFst0
  have hsi := hg.2.2.2 _ (getD_mem w1.comps.componentSetInfo sid default hsid)
  have hsubS : (w1.comps.componentSetInfo.getD sid default).componentBits ⊆
      w1.comps.archBits B := by
    show w1.comps.setBits sid ⊆ _
    rw [hBbits]
    exact Finset.subset_union_right
  have hsxOut : (sparseExtract (w1.comps.archRemoval ⟨B, ti⟩ sid).1.sparseSets e.id
      (w1.comps.componentSetInfo.getD sid default).sparseSetComponents).2
      = (w1.comps.componentSetInfo.getD sid default).sparseSetComponents.map
          fun id => (id, v (offsetOf (w1.comps.componentSetInfo.getD sid default) id)) := by
    rw [hSp]
    exact sparseExtract_out _ _ _ _ hndS hsx
  have hcovS : ∀ id ∈ (w1.comps.componentSetInfo.getD sid default).components,
      (w1.comps.infoOf id).storage = some .sparseSet →
      id ∈ (w1.comps.componentSetInfo.getD sid default).sparseSetComponents := by
    intro id hidc hstor
    rw [hpart]
    refine List.mem_filter.mpr ⟨hidc, ?_⟩
    simp [hstor]
  have hcovT : ∀ id ∈ (w1.comps.componentSetInfo.getD sid default).components,
      (w1.comps.infoOf id).storage = some .table →
      id ∈ tableComps w1.comps (w1.comps.setBits sid) := by
    intro id hidc hstor
    rw [hsi.1] at hidc
    exact mem_tableComps.mpr ⟨mem_keyOf.mp hidc, hstor⟩
  have hcover : ∀ (L : List Nat),
      (∀ id, (w1.comps.infoOf id).storage = some .table →
        id ∈ tableComps w1.comps (w1.comps.setBits sid) → id ∈ L) →
      ∀ id ∈ (w1.comps.componentSetInfo.getD sid default).components,
      (w1.comps.infoOf id).storage ≠ none →
      id ∈ (w1.comps.componentSetInfo.getD sid default).sparseSetComponents ++ L := by
    intro L hL id hidc hstor
    cases hs : (w1.comps.infoOf id).storage with
    | none => exact absurd hs hstor
    | some sk =>
      cases sk with
      | sparseSet => exact List.mem_append.mpr (Or.inl (hcovS id hidc hs))
      | table => exact List.mem_append.mpr (Or.inr (hL id hs (hcovT id hidc hs)))
  simp only [World.extractSet]
  rw [hloc1]
  dsimp only
  rw [if_neg (not_not_intro hsubS)]
  by_cases hA : A = ∅
  · rw [hTnone hA]
    dsimp only
    rw [hFst, hTid B]
    have hlink := hst.2.2 B hB
    unfold archTableOk at hlink
    cases htB : (w1.comps.archetypes.getD B default).tableId with
    | some tB =>
      rw [htB] at hlink
      dsimp only
      rw [hTab]
      have htabB := hst.1 _ (getD_mem w1.comps.tables tB default hlink.1)
      have hcomps : (w1.comps.tables.getD tB default).components
          = tableComps w1.comps (w1.comps.setBits sid) := by
        rw [hlink.2, hBbits, hA, Finset.empty_union]
      have hext := extractRow_out (w1.comps.tables.getD tB default) (ti.getD 0)
        htabB.2.1
      refine ⟨rfl, ?_⟩
      intro id hidc hstor
      have hO : (sparseExtract (w1.comps.archRemoval ⟨B, ti⟩ sid).1.sparseSets e.id
          (w1.comps.componentSetInfo.getD sid default).sparseSetComponents).2.map
            (fun p => (offsetOf (w1.comps.componentSetInfo.getD sid default) p.1, p.2))
          ++ ((w1.comps.tables.getD tB default).extractRow (ti.getD 0)).2.1.map
            (fun p => (offsetOf (w1.comps.componentSetInfo.getD sid default) p.1, p.2))
          = (((w1.comps.componentSetInfo.getD sid default).sparseSetComponents
              ++ (w1.comps.tables.getD tB default).components).map
            fun i => (offsetOf (w1.comps.componentSetInfo.getD sid default) i,
              v (offsetOf (w1.comps.componentSetInfo.getD sid default) i))) := by
        rw [hsxOut, hext, List.map_map, List.map_map, List.map_append]
        congr 1
        apply List.map_congr_left
        intro x hx
        show (offsetOf (w1.comps.componentSetInfo.getD sid default) x,
          ((alGet (w1.comps.tables.getD tB default).columns x).getD []).getD
            (ti.getD 0) 0) = _
        rw [htable tB htB x (by rw [← hcomps]; exact hx)]
      rw [hO]
      exact writesAt_map_offsets _ _
        (hcover _ (fun i _ hi => by rw [hcomps]; exact hi) id hidc hstor)
    | none =>
      rw [htB] at hlink
      dsimp only
      have hnoT : tableComps w1.comps (w1.comps.setBits sid) = [] := by
        rw [← Finset.empty_union (w1.comps.setBits sid), ← hA, ← hBbits]
        exact hlink
      refine ⟨rfl, ?_⟩
      intro id hidc hstor
      have hO : (sparseExtract (w1.comps.archRemoval ⟨B, ti⟩ sid).1.sparseSets e.id
          (w1.comps.componentSetInfo.getD sid default).sparseSetComponents).2.map
            (fun p => (offsetOf (w1.comps.componentSetInfo.getD sid default) p.1, p.2))
          = (((w1.comps.componentSetInfo.getD sid default).sparseSetComponents
              ++ ([] : List Nat)).map
            fun i => (offsetOf (w1.comps.componentSetInfo.getD sid default) i,
              v (offsetOf (w1.comps.componentSetInfo.getD sid default) i))) := by
        rw [hsxOut, List.map_map, List.append_nil]
        rfl
      rw [hO]
      exact writesAt_map_offsets _ _
        (hcover _ (fun i _ hi => by rw [hnoT] at hi; exact absurd hi (List.not_mem_nil i))
          id hidc hstor)
  · obtain ⟨C, htgt, hClt, hCbits⟩ := hTsome hA
    rw [htgt]
    dsimp only
    rw [hFst]
    by_cases hBC : B = C
    · rw [if_pos hBC]
      dsimp only
      have hS : w1.comps.setBits sid = ∅ := by
        have hbe : A ∪ w1.comps.setBits sid = A := by
          rw [← hBbits, hBC, hCbits]
        refine Finset.eq_empty_iff_forall_not_mem.mpr fun x hx => ?_
        have hxA : x ∈ A := by
          rw [← hbe]
          exact Finset.mem_union_right _ hx
        exact Finset.disjoint_left.mp hdisj hxA hx
      have hcompsE : (w1.comps.componentSetInfo.getD sid default).components = [] := by
        rw [hsi.1]
        have : (w1.comps.componentSetInfo.getD sid default).componentBits = ∅ := hS
        rw [this]
        unfold Components.keyOf keyList
        simp
      refine ⟨rfl, ?_⟩
      intro id hidc
      rw [hcompsE] at hidc
      exact absurd hidc (List.not_mem_nil id)
    · rw [if_neg hBC]
      rw [hTid B]
      have hlinkB := hst.2.2 B hB
      unfold archTableOk at hlinkB
      cases htB : (w1.comps.archetypes.getD B default).tableId with
      | none =>
        rw [htB] at hlinkB
        dsimp only
        have hnoT : ∀ i, i ∈ tableComps w1.comps (w1.comps.setBits sid) → False := by
          intro i hi
          have hi2 := mem_tableComps.mp hi
          have : i ∈ tableComps w1.comps (w1.comps.archBits B) := by
            refine mem_tableComps.mpr ⟨⟨hi2.1.1, ?_⟩, hi2.2⟩
            rw [hBbits]
            exact Finset.mem_union_right _ hi2.1.2
          rw [hlinkB] at this
          exact List.not_mem_nil i this
        refine ⟨rfl, ?_⟩
        intro id hidc hstor
        have hO : (sparseExtract (w1.comps.archRemoval ⟨B, ti⟩ sid).1.sparseSets e.id
            (w1.comps.componentSetInfo.getD sid default).sparseSetComponents).2.map
              (fun p => (offsetOf (w1.comps.componentSetInfo.getD sid default) p.1, p.2))
            = (((w1.comps.componentSetInfo.getD sid default).sparseSetComponents
                ++ ([] : List Nat)).map
              fun i => (offsetOf (w1.comps.componentSetInfo.getD sid default) i,
                v (offsetOf (w1.comps.componentSetInfo.getD sid default) i))) := by
          rw [hsxOut, List.map_map, List.append_nil]
          rfl
        rw [hO]
        exact writesAt_map_offsets _ _
          (hcover _ (fun i _ hi => absurd (hnoT i hi) not_false) id hidc hstor)
      | some tB =>
        rw [htB] at hlinkB
        dsimp only
        rw [hTid C]
        have hlinkC := hst.2.2 C hClt
        unfold archTableOk at hlinkC
        have htabB := hst.1 _ (getD_mem w1.comps.tables tB default hlinkB.1)
        cases htC : (w1.comps.archetypes.getD C default).tableId with
        | some tC =>
          rw [htC] at hlinkC
          dsimp only
          by_cases htt : tB = tC
          · rw [if_pos htt]
            dsimp only
            have hnoT : ∀ i, i ∈ tableComps w1.comps (w1.comps.setBits sid) → False := by
              intro i hi
              have hi2 := mem_tableComps.mp hi
              have hiB : i ∈ tableComps w1.comps (w1.comps.archBits B) := by
                refine mem_tableComps.mpr ⟨⟨hi2.1.1, ?_⟩, hi2.2⟩
                rw [hBbits]
                exact Finset.mem_union_right _ hi2.1.2
              rw [← hlinkB.2, htt, hlinkC.2, hCbits] at hiB
              have hiA := (mem_tableComps.mp hiB).1.2
              exact Finset.disjoint_left.mp hdisj hiA hi2.1.2
            refine ⟨rfl, ?_⟩
            intro id hidc hstor
            have hO : (sparseExtract (w1.comps.archRemoval ⟨B, ti⟩ sid).1.sparseSets
                e.id (w1.comps.componentSetInfo.getD sid
                  default).sparseSetComponents).2.map
                  (fun p => (offsetOf (w1.comps.componentSetInfo.getD sid default)
                    p.1, p.2))
                = (((w1.comps.componentSetInfo.getD sid default).sparseSetComponents
                    ++ ([] : List Nat)).map
                  fun i => (offsetOf (w1.comps.componentSetInfo.getD sid default) i,
                    v (offsetOf (w1.comps.componentSetInfo.getD sid default) i))) := by
              rw [hsxOut, List.map_map, List.append_nil]
              rfl
            rw [hO]
            exact writesAt_map_offsets _ _
              (hcover _ (fun i _ hi => absurd (hnoT i hi) not_false) id hidc hstor)
          · rw [if_neg htt]
            dsimp only
            rw [hTab]
            have htabC := hst.1 _ (getD_mem w1.comps.tables tC default hlinkC.1)
            have hext := extractFrom_out (w1.comps.tables.getD tC default)
              (w1.comps.tables.getD tB default) (ti.getD 0) htabB.2.1
            have hmemL : ∀ i, i ∈ ((w1.comps.tables.getD tB default).components.filter
                fun id => (alGet (w1.comps.tables.getD tC default).columns
                  id).isNone) ↔
                i ∈ tableComps w1.comps (w1.comps.setBits sid) := by
              intro i
              rw [List.mem_filter]
              constructor
              · rintro ⟨hiB, hnone⟩
                rw [hlinkB.2] at hiB
                have hi2 := mem_tableComps.mp hiB
                have hiS : i ∈ w1.comps.setBits sid := by
                  have hiAS := hi2.1.2
                  rw [hBbits] at hiAS
                  rcases Finset.mem_union.mp hiAS with hiA | hiS
                  · exfalso
                    have : i ∈ (w1.comps.tables.getD tC default).components := by
                      rw [hlinkC.2, hCbits]
                      exact mem_tableComps.mpr ⟨⟨hi2.1.1, hiA⟩, hi2.2⟩
                    have hsome := alGet_isSome_of_mem_keys (by rw [htabC.1]; exact this)
                    rw [Option.isNone_iff_eq_none] at hnone
                    rw [Option.isSome_iff_ne_none] at hsome
                    exact hsome hnone
                  · exact hiS
                exact mem_tableComps.mpr ⟨⟨hi2.1.1, hiS⟩, hi2.2⟩
              · intro hi
                have hi2 := mem_tableComps.mp hi
                refine ⟨?_, ?_⟩
                · rw [hlinkB.2]
                  refine mem_tableComps.mpr ⟨⟨hi2.1.1, ?_⟩, hi2.2⟩
                  rw [hBbits]
                  exact Finset.mem_union_right _ hi2.1.2
                · have hniC : i ∉ (w1.comps.tables.getD tC default).columns.map
                      Prod.fst := by
                    rw [htabC.1, hlinkC.2, hCbits]
                    intro hmem
                    exact Finset.disjoint_left.mp hdisj
                      ((mem_tableComps.mp hmem).1.2) hi2.1.2
                  rw [alGet_none_of_not_mem_keys hniC]
                  rfl
            refine ⟨rfl, ?_⟩
            intro id hidc hstor
            have hO : (sparseExtract (w1.comps.archRemoval ⟨B, ti⟩ sid).1.sparseSets
                e.id (w1.comps.componentSetInfo.getD sid
                  default).sparseSetComponents).2.map
                  (fun p => (offsetOf (w1.comps.componentSetInfo.getD sid default)
                    p.1, p.2))
                ++ (Table.extractFrom (w1.comps.tables.getD tC default)
                    (w1.comps.tables.getD tB default) (ti.getD 0)).2.2.1.map
                  (fun p => (offsetOf (w1.comps.componentSetInfo.getD sid default)
                    p.1, p.2))
                = (((w1.comps.componentSetInfo.getD sid default).sparseSetComponents
                    ++ ((w1.comps.tables.getD tB default).components.filter
                      fun id => (alGet (w1.comps.tables.getD tC
                        default).columns id).isNone)).map
                  fun i => (offsetOf (w1.comps.componentSetInfo.getD sid default) i,
                    v (offsetOf (w1.comps.componentSetInfo.getD sid default) i))) := by
              rw [hsxOut, hext, List.map_map, List.map_map, List.map_append]
              congr 1
              apply List.map_congr_left
              intro x hx
              show (offsetOf (w1.comps.componentSetInfo.getD sid default) x,
                ((alGet (w1.comps.tables.getD tB default).columns x).getD []).getD
                  (ti.getD 0) 0) = _
              rw [htable tB htB x ((hmemL x).mp hx)]
            rw [hO]
            exact writesAt_map_offsets _ _
              (hcover _ (fun i _ hi => (hmemL i).mpr hi) id hidc hstor)
        | none =>
          rw [htC] at hlinkC
          dsimp only
          rw [hTab]
          have hext := extractRow_out (w1.comps.tables.getD tB default) (ti.getD 0)
            htabB.2.1
          have hmemL : ∀ i, i ∈ (w1.comps.tables.getD tB default).components ↔
              i ∈ tableComps w1.comps (w1.comps.setBits sid) := by
            intro i
            rw [hlinkB.2]
            constructor
            · intro hiB
              have hi2 := mem_tableComps.mp hiB
              have hiS : i ∈ w1.comps.setBits sid := by
                have hiAS := hi2.1.2
                rw [hBbits] at hiAS
                rcases Finset.mem_union.mp hiAS with hiA | hiS
                · exfalso
                  have : i ∈ tableComps w1.comps (w1.comps.archBits C) := by
                    rw [hCbits]
                    exact mem_tableComps.mpr ⟨⟨hi2.1.1, hiA⟩, hi2.2⟩
                  rw [show tableComps w1.comps (w1.comps.archBits C) = [] from by
                    rw [hCbits] at hlinkC ⊢
                    exact hlinkC] at this
                  exact List.not_mem_nil i this
                · exact hiS
              exact mem_tableComps.mpr ⟨⟨hi2.1.1, hiS⟩, hi2.2⟩
            · intro hi
              have hi2 := mem_tableComps.mp hi
              refine mem_tableComps.mpr ⟨⟨hi2.1.1, ?_⟩, hi2.2⟩
              rw [hBbits]
              exact Finset.mem_union_right _ hi2.1.2
          refine ⟨rfl, ?_⟩
          intro id hidc hstor
          have hO : (sparseExtract (w1.comps.archRemoval ⟨B, ti⟩ sid).1.sparseSets
              e.id (w1.comps.componentSetInfo.getD sid
                default).sparseSetComponents).2.map
                (fun p => (offsetOf (w1.comps.componentSetInfo.getD sid default)
                  p.1, p.2))
              ++ ((w1.comps.tables.getD tB default).extractRow (ti.getD 0)).2.1.map
                (fun p => (offsetOf (w1.comps.componentSetInfo.getD sid default)
                  p.1, p.2))
              = (((w1.comps.componentSetInfo.getD sid default).sparseSetComponents
                  ++ (w1.comps.tables.getD tB default).components).map
                fun i => (offsetOf (w1.comps.componentSetInfo.getD sid default) i,
                  v (offsetOf (w1.comps.componentSetInfo.getD sid default) i))) := by
            rw [hsxOut, hext, List.map_map, List.map_map, List.map_append]
            congr 1
            apply List.map_congr_left
            intro x hx
            show (offsetOf (w1.comps.componentSetInfo.getD sid default) x,
              ((alGet (w1.comps.tables.getD tB default).columns x).getD []).getD
                (ti.getD 0) 0) = _
            rw [htable tB htB x ((hmemL x).mp hx)]
          rw [hO]
          exact writesAt_map_offsets _ _
            (hcover _ (fun i _ hi => (hmemL i).mpr hi) id hidc hstor)

end Fei

namespace Fei

lemma mem_set_elim {α : Type} {l : List α} {i : Nat} {a t : α}
    (h : t ∈ l.set i a) : t = a ∨ t ∈ l := by
  induction l generalizing i with
  | nil => simp at h
  | cons hd tl ih =>
    cases i with
    | zero =>
      rw [List.set_cons_zero] at h
      rcases List.mem_cons.mp h with h | h
      · exact Or.inl h
      · exact Or.inr (List.mem_cons_of_mem _ h)
    | succ n =>
      rw [List.set_cons_succ] at h
      rcases List.mem_cons.mp h with h | h
      · exact Or.inr (h ▸ List.mem_cons_self _ _)
      · rcases ih h with h2 | h2
        · exact Or.inl h2
        · exact Or.inr (List.mem_cons_of_mem _ h2)

lemma set_get_self {α : Type} (l : List α) (i : Nat) {x : α}
    (h : l.get? i = some x) : l.set i x = l := by
  have hlt : i < l.length := by
    by_contra hh
    rw [List.get?_eq_none.mpr (by omega)] at h
    exact Option.noConfusion h
  apply List.ext_get?
  intro j
  by_cases hij : i = j
  · subst hij
    rw [get?_set_self _ _ _ hlt, h]
  · rw [get?_set_ne _ _ _ _ hij]

lemma listModify_id {α : Type} (l : List α) (i : Nat) (f : α → α)
    (hf : ∀ x, f x = x) : listModify l i f = l := by
  unfold listModify
  cases hg : l.get? i with
  | none => rfl
  | some x =>
    dsimp only
    rw [hf x]
    exact set_get_self l i hg

/-- The per-table invariant of `TablesWF`. -/
def tableOk (t : Table) : Prop :=
  t.columns.map Prod.fst = t.components ∧ t.components.Nodup ∧
    ∀ p ∈ t.columns, p.2.length = t.entities.length

lemma tableComps_congr {c c' : Components}
    (h : c'.componentInfo = c.componentInfo) (s : Finset Nat) :
    tableComps c' s = tableComps c s := by
  unfold tableComps Components.keyOf Components.infoOf
  rw [h]

lemma archBits_congr {c c' : Components} (h : c'.archetypes = c.archetypes)
    (a : Nat) : c'.archBits a = c.archBits a := by
  unfold Components.archBits
  rw [h]

lemma setBits_congr {c c' : Components}
    (h : c'.componentSetInfo = c.componentSetInfo) (sid : Nat) :
    c'.setBits sid = c.setBits sid := by
  unfold Components.setBits
  rw [h]

lemma infoOf_congr {c c' : Components} (h : c'.componentInfo = c.componentInfo) :
    c'.infoOf = c.infoOf := by
  funext id
  unfold Components.infoOf
  rw [h]

lemma StoreWF_surgery {c c' : Components}
    (harch : c'.archetypes = c.archetypes)
    (hinfo : c'.componentInfo = c.componentInfo)
    (hids : c'.tableIds = c.tableIds)
    (hlen : c'.tables.length = c.tables.length)
    (hcomp : ∀ i, (c'.tables.getD i default).components
      = (c.tables.getD i default).components)
    (htw : TablesWF c') (hst : StoreWF c) : StoreWF c' := by
  refine ⟨htw, ?_, ?_⟩
  · intro p hp
    rw [hids] at hp
    have h := hst.2.1 p hp
    rw [hlen, hcomp p.2]
    exact h
  · intro a ha
    rw [show c'.archetypes.length = c.archetypes.length from by rw [harch]] at ha
    have h := hst.2.2 a ha
    unfold archTableOk at h ⊢
    rw [show (c'.archetypes.getD a default).tableId
        = (c.archetypes.getD a default).tableId from by rw [harch]]
    cases ht : (c.archetypes.getD a default).tableId with
    | some t =>
      rw [ht] at h
      dsimp only at h ⊢
      rw [hlen, hcomp t, tableComps_congr hinfo, archBits_congr harch]
      exact h
    | none =>
      rw [ht] at h
      dsimp only at h ⊢
      rw [tableComps_congr hinfo, archBits_congr harch]
      exact h

lemma tablesOk_set {ts : List Table} (h : ∀ t ∈ ts, tableOk t) (i : Nat)
    {t' : Table} (ht' : tableOk t') : ∀ t ∈ ts.set i t', tableOk t := by
  intro t hm
  rcases mem_set_elim hm with he | hmem
  · rw [he]
    exact ht'
  · exact h t hmem

lemma column_at {t : Table} (hok : tableOk t) {id : Nat} (hid : id ∈ t.components) :
    ∃ col, alGet t.columns id = some col ∧ col.length = t.entities.length := by
  obtain ⟨hk, hnd, hlen⟩ := hok
  have hsome : (alGet t.columns id).isSome :=
    alGet_isSome_of_mem_keys (by rw [hk]; exact hid)
  cases hcol : alGet t.columns id with
  | none =>
    rw [hcol] at hsome
    exact Bool.noConfusion hsome
  | some col => exact ⟨col, rfl, hlen (id, col) (alGet_eq_some_mem hcol)⟩

lemma col_append_read {cols cols' : List (Nat × List Val)} {id : Nat} {x : Val}
    (hmap : alGet cols' id = (alGet cols id).map fun col => col ++ [x])
    {col : List Val} (hcol : alGet cols id = some col) :
    ((alGet cols' id).getD []).getD col.length 0 = x := by
  rw [hmap, hcol]
  show (col ++ [x]).getD col.length 0 = x
  exact getD_concat_self _ _ _

lemma insertRow_ok {t : Table} (e : Entity) (v : Nat → Val) (si : SetInfo)
    (h : tableOk t) : tableOk (t.insertRow e v si).1 := by
  obtain ⟨hk, hnd, hlen⟩ := h
  obtain ⟨-, hcomp, hents, hkeys, hget, -⟩ := insertRow_spec t e v si hnd
  refine ⟨by rw [hkeys, hcomp, hk], by rw [hcomp]; exact hnd, ?_⟩
  intro p hp
  have hnd' : ((t.insertRow e v si).1.columns.map Prod.fst).Nodup := by
    rw [hkeys, hk]
    exact hnd
  have hg := mem_alGet_eq_some hnd' hp
  have hpk : p.1 ∈ t.components := by
    have hm := List.mem_map_of_mem Prod.fst hp
    rw [hkeys, hk] at hm
    exact hm
  rw [hget p.1 hpk] at hg
  cases hcol : alGet t.columns p.1 with
  | none =>
    rw [hcol] at hg
    exact Option.noConfusion hg
  | some col =>
    rw [hcol] at hg
    have hp2 : p.2 = col ++ [v (offsetOf si p.1)] := (Option.some.inj hg).symm
    have hclen : col.length = t.entities.length :=
      hlen (p.1, col) (alGet_eq_some_mem hcol)
    rw [hp2, hents]
    simp [hclen]

lemma insertFrom_to_ok {t : Table} (f : Table) (i : Nat) (v : Nat → Val)
    (si : SetInfo) (h : tableOk t) : tableOk (t.insertFrom f i v si).1 := by
  obtain ⟨hk, hnd, hlen⟩ := h
  obtain ⟨-, hcomp, hents, hkeys, hget⟩ := insertFrom_spec t f i v si hnd
  refine ⟨by rw [hkeys, hcomp, hk], by rw [hcomp]; exact hnd, ?_⟩
  intro p hp
  have hnd' : ((t.insertFrom f i v si).1.columns.map Prod.fst).Nodup := by
    rw [hkeys, hk]
    exact hnd
  have hg := mem_alGet_eq_some hnd' hp
  have hpk : p.1 ∈ t.components := by
    have hm := List.mem_map_of_mem Prod.fst hp
    rw [hkeys, hk] at hm
    exact hm
  rw [hget p.1 hpk] at hg
  cases hcol : alGet t.columns p.1 with
  | none =>
    rw [hcol] at hg
    exact Option.noConfusion hg
  | some col =>
    rw [hcol] at hg
    have hp2 : p.2 = col ++ [insVal f v si i p.1] := (Option.some.inj hg).symm
    have hclen : col.length = t.entities.length :=
      hlen (p.1, col) (alGet_eq_some_mem hcol)
    rw [hp2, hents]
    simp [hclen]

/-- The source-column side of the `insert_from` fold step. -/
def fromStep (i : Nat) (fc : List (Nat × List Val)) (id : Nat) :
    List (Nat × List Val) :=
  match alGet fc id with
  | some fcol => alPut fc id (swapRemove fcol i)
  | none => fc

lemma insertFromStep_snd (v : Nat → Val) (si : SetInfo) (i : Nat)
    (acc : List (Nat × List Val) × List (Nat × List Val)) (c : Nat) :
    (insertFromStep v si i acc c).2 = fromStep i acc.2 c := by
  unfold insertFromStep fromStep
  cases hg : alGet acc.2 c with
  | some fcol =>
    dsimp only
    cases ho : alGet si.componentOffsets c <;> rfl
  | none => rfl

lemma insertFrom_fold_snd (v : Nat → Val) (si : SetInfo) (i : Nat) :
    ∀ (comps : List Nat) (acc : List (Nat × List Val) × List (Nat × List Val)),
    (comps.foldl (insertFromStep v si i) acc).2
      = comps.foldl (fromStep i) acc.2 := by
  intro comps
  induction comps with
  | nil => intro acc; rfl
  | cons c rest ih =>
    intro acc
    rw [List.foldl_cons, List.foldl_cons, ih, insertFromStep_snd]

lemma fromStep_get_self (i : Nat) (fc : List (Nat × List Val)) (id : Nat) :
    alGet (fromStep i fc id) id
      = (alGet fc id).map fun col => swapRemove col i := by
  unfold fromStep
  cases hg : alGet fc id with
  | some fcol =>
    dsimp only
    rw [alGet_put_self]
    rfl
  | none =>
    dsimp only
    rw [hg]
    rfl

lemma fromStep_get_ne (i : Nat) (fc : List (Nat × List Val)) {c id : Nat}
    (h : c ≠ id) : alGet (fromStep i fc c) id = alGet fc id := by
  unfold fromStep
  cases hg : alGet fc c with
  | some fcol =>
    dsimp only
    exact alGet_put_ne _ _ _ _ h
  | none => rfl

lemma foldl_fromStep_keys (i : Nat) :
    ∀ (comps : List Nat) (fc : List (Nat × List Val)),
    (comps.foldl (fromStep i) fc).map Prod.fst = fc.map Prod.fst := by
  intro comps
  induction comps with
  | nil => intro fc; rfl
  | cons c rest ih =>
    intro fc
    rw [List.foldl_cons, ih]
    unfold fromStep
    cases hg : alGet fc c with
    | some fcol =>
      dsimp only
      exact alPut_keys_of_mem _
        (List.mem_map_of_mem Prod.fst (alGet_eq_some_mem hg))
    | none => rfl

lemma foldl_fromStep_get (i : Nat) :
    ∀ (comps : List Nat) (fc : List (Nat × List Val)) (id : Nat), comps.Nodup →
    alGet (comps.foldl (fromStep i) fc) id
      = if id ∈ comps then (alGet fc id).map (fun col => swapRemove col i)
        else alGet fc id := by
  intro comps
  induction comps with
  | nil => intro fc id _; simp
  | cons c rest ih =>
    intro fc id hnd
    rw [List.foldl_cons, ih _ id (List.nodup_cons.mp hnd).2]
    by_cases hmem : id ∈ rest
    · rw [if_pos hmem, if_pos (List.mem_cons_of_mem _ hmem)]
      have hne : c ≠ id := fun he => (List.nodup_cons.mp hnd).1 (he ▸ hmem)
      rw [fromStep_get_ne i fc hne]
    · rw [if_neg hmem]
      by_cases hc : id = c
      · subst hc
        rw [if_pos (List.mem_cons_self _ _), fromStep_get_self]
      · rw [if_neg (by simp [hc, hmem]), fromStep_get_ne i fc (Ne.symm hc)]

lemma insertFrom_from_ok (t f : Table) (i : Nat) (v : Nat → Val) (si : SetInfo)
    (ht : tableOk t) (hf : tableOk f)
    (hsub : ∀ id ∈ f.components, id ∈ t.components)
    (hi : i < f.entities.length) : tableOk (t.insertFrom f i v si).2.1 := by
  obtain ⟨hkf, hndf, hlenf⟩ := hf
  have hcols : (t.insertFrom f i v si).2.1.columns
      = t.components.foldl (fromStep i) f.columns :=
    insertFrom_fold_snd v si i t.components (t.columns, f.columns)
  refine ⟨?_, hndf, ?_⟩
  · rw [hcols, foldl_fromStep_keys, hkf]
    rfl
  · intro p hp
    rw [hcols] at hp
    have hnd' : ((t.components.foldl (fromStep i) f.columns).map Prod.fst).Nodup := by
      rw [foldl_fromStep_keys, hkf]
      exact hndf
    have hg := mem_alGet_eq_some hnd' hp
    have hpk : p.1 ∈ f.components := by
      have hm := List.mem_map_of_mem Prod.fst hp
      rw [foldl_fromStep_keys, hkf] at hm
      exact hm
    rw [foldl_fromStep_get i t.components f.columns p.1 ht.2.1,
      if_pos (hsub p.1 hpk)] at hg
    cases hcol : alGet f.columns p.1 with
    | none =>
      rw [hcol] at hg
      exact Option.noConfusion hg
    | some col =>
      rw [hcol] at hg
      have hp2 : p.2 = swapRemove col i := (Option.some.inj hg).symm
      have hclen : col.length = f.entities.length :=
        hlenf (p.1, col) (alGet_eq_some_mem hcol)
      show p.2.length = (swapRemove f.entities i).length
      rw [hp2, swapRemove_length col i (by omega),
        swapRemove_length f.entities i (by omega), hclen]

lemma StoreWF_update_nil {c : Components} {tid idx : Nat} {v : Nat → Val}
    {si : SetInfo} (hsi : si.tableComponents = []) (h : StoreWF c) :
    StoreWF { c with tables := (listModify c.tables tid
      fun tt => tt.update idx v si) } := by
  have hmod : (listModify c.tables tid fun tt => tt.update idx v si) = c.tables :=
    listModify_id _ _ _ fun tt => update_nil tt idx v si hsi
  rw [hmod]
  exact h

lemma StoreWF_set_table {c : Components} {tid : Nat} {t' : Table}
    (hcomp : t'.components = (c.tables.getD tid default).components)
    (hok : tableOk t') (h : StoreWF c) :
    StoreWF { c with tables := c.tables.set tid t' } := by
  refine @StoreWF_surgery c _ rfl rfl rfl (by simp) ?_ ?_ h
  · intro i
    by_cases hi : i = tid
    · subst hi
      by_cases hlt : i < c.tables.length
      · rw [getD_set_self _ _ _ _ hlt]
        exact hcomp
      · rw [set_oob _ _ _ (by omega)]
    · rw [getD_set_ne _ _ _ _ _ (fun he => hi he.symm)]
  · show ∀ t ∈ c.tables.set tid t', tableOk t
    exact tablesOk_set h.1 tid hok

lemma setTableIndex_other (es : Entities) (eid : Nat) (ti : Option Nat) (j : Nat)
    (h : eid ≠ j) :
    (setTableIndex es eid ti).all.getD j default = es.all.getD j default := by
  unfold setTableIndex
  dsimp only
  rw [getD_listModify_ne _ _ _ _ _ h]

lemma swapRemove_get_eq {α : Type} [Inhabited α] (l : List α) (i : Nat) {x : α}
    (h : (swapRemove l i).get? i = some x) :
    i + 1 < l.length ∧ x = l.getD (l.length - 1) default := by
  unfold swapRemove at h
  cases hg : l.getLast? with
  | none =>
    rw [hg] at h
    rw [List.getLast?_eq_none_iff] at hg
    subst hg
    simp at h
  | some last =>
    rw [hg] at h
    dsimp only at h
    have hbound : i < (l.set i last).dropLast.length := by
      by_contra hh
      rw [List.get?_eq_none.mpr (by omega)] at h
      exact Option.noConfusion h
    have hlen : (l.set i last).dropLast.length = l.length - 1 := by simp
    rw [hlen] at hbound
    have hd : (l.set i last).dropLast.get? i = (l.set i last).get? i := by
      rw [List.dropLast_eq_take, List.get?_take]
      simp only [List.length_set]
      omega
    rw [hd] at h
    have hil : i < l.length := by omega
    rw [get?_set_self _ _ _ hil] at h
    refine ⟨by omega, ?_⟩
    rw [(Option.some.inj h).symm]
    rw [List.getLast?_eq_get?] at hg
    rw [getD_eq_get?, hg]
    rfl

lemma archInsertion_fst (c : Components) (loc : Option EntityLocation) (sid : Nat) :
    (c.archInsertion loc sid).2.1 = loc.map fun l => l.archetypeId := by
  unfold Components.archInsertion
  cases loc with
  | none =>
    dsimp only
    cases h : alGet c.archetypeStarts sid <;> rfl
  | some l =>
    dsimp only
    cases h : alGet (c.archetypes.getD l.archetypeId default).insertions sid with
    | some t => rfl
    | none =>
      dsimp only
      split <;> rfl

lemma archInsertion_tables (c : Components) (loc : Option EntityLocation)
    (sid : Nat) :
    c.tables.length ≤ (c.archInsertion loc sid).1.tables.length ∧
    ∀ t, t < c.tables.length →
      (c.archInsertion loc sid).1.tables.getD t default
        = c.tables.getD t default := by
  unfold Components.archInsertion
  cases loc with
  | some l =>
    dsimp only
    cases h : alGet (c.archetypes.getD l.archetypeId default).insertions sid with
    | some t => exact ⟨Nat.le_refl _, fun _ _ => rfl⟩
    | none =>
      dsimp only
      split
      next => exact ⟨Nat.le_refl _, fun _ _ => rfl⟩
      next =>
        exact ⟨(arch_tables_frame c _ _).1,
          fun t ht => (arch_tables_frame c _ _).2 t ht⟩
  | none =>
    dsimp only
    cases h : alGet c.archetypeStarts sid with
    | some aid => exact ⟨Nat.le_refl _, fun _ _ => rfl⟩
    | none =>
      dsimp only
      exact ⟨(arch_tables_frame c _ _).1,
        fun t ht => (arch_tables_frame c _ _).2 t ht⟩

lemma archInsertion_tableId (c : Components) (loc : Option EntityLocation)
    (sid : Nat) (b : Nat) (hb : b < c.archetypes.length) :
    ((c.archInsertion loc sid).1.archetypes.getD b default).tableId
      = (c.archetypes.getD b default).tableId := by
  unfold Components.archInsertion
  cases loc with
  | some l =>
    dsimp only
    cases h : alGet (c.archetypes.getD l.archetypeId default).insertions sid with
    | some t => rfl
    | none =>
      dsimp only
      split
      next => exact cacheInsertion_tableId c _ sid _ b
      next =>
        rw [cacheInsertion_tableId, arch_entry _ _ _ _ hb]
  | none =>
    dsimp only
    cases h : alGet c.archetypeStarts sid with
    | some aid => rfl
    | none =>
      dsimp only
      exact congrArg Archetype.tableId (arch_entry _ _ _ _ hb)

lemma keyOf_empty (c : Components) : c.keyOf ∅ = [] := by
  unfold Components.keyOf keyList
  simp

end Fei

namespace Fei

lemma StoreWF_set2 {c : Components} {t1id t2id : Nat} {t1 t2 : Table}
    (hne : t1id ≠ t2id)
    (hcomp1 : t1.components = (c.tables.getD t1id default).components)
    (hcomp2 : t2.components = (c.tables.getD t2id default).components)
    (hok1 : tableOk t1) (hok2 : tableOk t2) (h : StoreWF c) :
    StoreWF { c with tables := (c.tables.set t1id t1).set t2id t2 } := by
  refine @StoreWF_surgery c _ rfl rfl rfl (by simp) ?_ ?_ h
  · intro i
    by_cases h2 : i = t2id
    · subst h2
      by_cases hlt : i < c.tables.length
      · rw [getD_set_self _ _ _ _ (by simpa using hlt)]
        exact hcomp2
      · rw [getD_oob _ _ _ (by simp; omega), getD_oob _ _ _ (by omega)]
    · rw [getD_set_ne _ _ _ _ _ (fun he => h2 he.symm)]
      by_cases h1 : i = t1id
      · subst h1
        by_cases hlt : i < c.tables.length
        · rw [getD_set_self _ _ _ _ hlt]
          exact hcomp1
        · rw [set_oob _ _ _ (by omega)]
      · rw [getD_set_ne _ _ _ _ _ (fun he => h1 he.symm)]
  · show ∀ t ∈ (c.tables.set t1id t1).set t2id t2, tableOk t
    exact tablesOk_set (tablesOk_set h.1 t1id hok1) t2id hok2

lemma insertSet_sparse (w : World) (e : Entity) (v : Nat → Val) (sid : Nat) :
    (w.insertSet e v sid).comps.sparseSets
      = sparseInsert (w.comps.archInsertion
          (w.ents.all.getD e.id default).location sid).1.sparseSets e.id v
          (w.comps.componentSetInfo.getD sid default) := by
  simp only [World.insertSet]
  repeat' split
  all_goals rfl

end Fei

namespace Fei

/-- The state right after `insert`: the entity is located in the insertion
target with a branch-specific table row, the table store invariants still
hold, and every table-stored component of the set reads back the inserted
value at that row of the target archetype's table. -/
lemma insert_package (w : World) (e : Entity) (v : Nat → Val) (sid : Nat)
    (hg : GraphWF2 w.comps) (hst : StoreWF w.comps) (hs2 : SetsWF2 w.comps)
    (hsid : sid < w.comps.componentSetInfo.length)
    (heid : e.id < w.ents.all.length)
    (hloco : ∀ l, (w.ents.all.getD e.id default).location = some l →
      l.archetypeId < w.comps.archetypes.length ∧
      Disjoint (w.comps.archBits l.archetypeId) (w.comps.setBits sid) ∧
      ∀ t, (w.comps.archetypes.getD l.archetypeId default).tableId = some t →
        ∃ i, l.tableIndex = some i ∧
          i < (w.comps.tables.getD t default).entities.length ∧
          ∀ j, j < (w.comps.tables.getD t default).entities.length →
            ((w.comps.tables.getD t default).entities.getD j default).id = e.id →
            j = i) :
    ∃ ti,
      ((w.insertSet e v sid).ents.all.getD e.id default).location
        = some ⟨(w.comps.archInsertion (w.ents.all.getD e.id default).location
            sid).2.2, ti⟩ ∧
      StoreWF (w.insertSet e v sid).comps ∧
      ∀ tB, ((w.insertSet e v sid).comps.archetypes.getD
          (w.comps.archInsertion (w.ents.all.getD e.id default).location
            sid).2.2 default).tableId = some tB →
        ∀ id ∈ tableComps w.comps (w.comps.setBits sid),
          ((alGet ((w.insertSet e v sid).comps.tables.getD tB default).columns
              id).getD []).getD (ti.getD 0) 0
            = v (offsetOf (w.comps.componentSetInfo.getD sid default) id) := by
  have hsiw := hg.2.2.2 _ (getD_mem w.comps.componentSetInfo sid default hsid)
  have hs2i := hs2 _ (getD_mem w.comps.componentSetInfo sid default hsid)
  simp only [World.insertSet]
  generalize hloc0 : (w.ents.all.getD e.id default).location = loc0
  rw [hloc0] at hloco
  have hloc : locOk w.comps loc0 := by
    cases hl : loc0 with
    | none => exact trivial
    | some l => exact (hloco l hl).1
  obtain ⟨hg1, hinfo1, hset1, hlen1, hbits1, htlt, htbits⟩ :=
    archInsertion_wf w.comps loc0 sid hg hsid hloc
  obtain ⟨hst1, hsp1⟩ := archInsertion_store w.comps loc0 sid hst hg.2.2.2 hsid
  obtain ⟨htl1, htf1⟩ := archInsertion_tables w.comps loc0 sid
  cases loc0 with
  | none =>
    dsimp only at htbits
    have hfst : (w.comps.archInsertion none sid).2.1 = (none : Option Nat) :=
      archInsertion_fst w.comps none sid
    rw [hfst]
    dsimp only
    cases htid : ((w.comps.archInsertion none sid).1.archetypes.getD
        (w.comps.archInsertion none sid).2.2 default).tableId with
    | some tid =>
      dsimp only
      have hatoT : tid < (w.comps.archInsertion none sid).1.tables.length ∧
          ((w.comps.archInsertion none sid).1.tables.getD tid default).components
            = tableComps (w.comps.archInsertion none sid).1
                ((w.comps.archInsertion none sid).1.archBits
                  (w.comps.archInsertion none sid).2.2) := by
        have h := hst1.2.2 _ htlt
        unfold archTableOk at h
        rw [htid] at h
        exact h
      have ht0ok : tableOk
          ((w.comps.archInsertion none sid).1.tables.getD tid default) :=
        hst1.1 _ (getD_mem _ _ _ hatoT.1)
      have hcomps :
          ((w.comps.archInsertion none sid).1.tables.getD tid default).components
            = tableComps w.comps (w.comps.setBits sid) := by
        rw [hatoT.2, htbits, tableComps_congr hinfo1]
      refine ⟨some (((w.comps.archInsertion none sid).1.tables.getD tid default).insertRow e v (w.comps.componentSetInfo.getD sid default)).2,
          ?_, ?_, ?_⟩
      · exact setLocation_self _ _ _ heid
      · exact StoreWF_set_table rfl
          (insertRow_ok e v (w.comps.componentSetInfo.getD sid default) ht0ok) hst1
      · intro tB htB id hid
        rw [htid] at htB
        obtain rfl : tid = tB := Option.some.inj htB
        obtain ⟨col, hcol, hclen⟩ := column_at ht0ok (by rw [hcomps]; exact hid)
        have hspec := (insertRow_spec
          ((w.comps.archInsertion none sid).1.tables.getD tid default) e v
          (w.comps.componentSetInfo.getD sid default) ht0ok.2.1).2.2.2.2.1 id
          (by rw [hcomps]; exact hid)
        have hval := col_append_read hspec hcol
        have hread : (((w.comps.archInsertion none sid).1.tables.set tid
            (((w.comps.archInsertion none sid).1.tables.getD tid
              default).insertRow e v
              (w.comps.componentSetInfo.getD sid default)).1).getD tid default)
            = (((w.comps.archInsertion none sid).1.tables.getD tid
              default).insertRow e v
              (w.comps.componentSetInfo.getD sid default)).1 :=
          getD_set_self _ _ _ _ hatoT.1
        rw [hread]
        have hrow : (((w.comps.archInsertion none sid).1.tables.getD tid
            default).insertRow e v
            (w.comps.componentSetInfo.getD sid default)).2 = col.length :=
          hclen.symm
        rw [hrow]
        exact hval
    | none =>
      dsimp only
      refine ⟨none,
          ?_, ?_, ?_⟩
      · exact setLocation_self _ _ _ heid
      · exact hst1
      · intro tB htB
        rw [htid] at htB
        exact Option.noConfusion htB
  | some l =>
    dsimp only at htbits
    obtain ⟨hal, hdisjl, htabl⟩ := hloco l rfl
    have hfst : (w.comps.archInsertion (some l) sid).2.1 = some l.archetypeId :=
      archInsertion_fst w.comps (some l) sid
    rw [hfst]
    dsimp only
    by_cases hft : l.archetypeId = (w.comps.archInsertion (some l) sid).2.2
    · rw [if_pos hft]
      have hSempty : w.comps.setBits sid = ∅ := by
        have h1 : (w.comps.archInsertion (some l) sid).1.archBits l.archetypeId
            = w.comps.archBits l.archetypeId := hbits1 l.archetypeId hal
        have h2 := htbits
        rw [← hft, h1] at h2
        have hsub : w.comps.setBits sid ⊆ w.comps.archBits l.archetypeId := by
          rw [h2]
          exact Finset.subset_union_right
        refine Finset.eq_empty_iff_forall_not_mem.mpr fun x hx => ?_
        exact Finset.disjoint_left.mp hdisjl (hsub hx) hx
      have hTempty : tableComps w.comps (w.comps.setBits sid) = [] := by
        rw [hSempty]
        unfold tableComps
        rw [keyOf_empty]
        rfl
      have hcompsE : (w.comps.componentSetInfo.getD sid default).components
          = [] := by
        rw [hsiw.1, show (w.comps.componentSetInfo.getD sid
          default).componentBits = ∅ from hSempty, keyOf_empty]
      have htcE : (w.comps.componentSetInfo.getD sid default).tableComponents
          = [] := by
        rw [hs2i.2, hcompsE]
        rfl
      cases htid : ((w.comps.archInsertion (some l) sid).1.archetypes.getD
          l.archetypeId default).tableId with
      | some tid =>
        dsimp only
        refine ⟨l.tableIndex,
          ?_, ?_, ?_⟩
        · exact setLocation_self _ _ _ heid
        · exact StoreWF_update_nil htcE hst1
        · intro tB htB id hid
          rw [hTempty] at hid
          exact absurd hid (List.not_mem_nil id)
      | none =>
        dsimp only
        refine ⟨l.tableIndex,
          ?_, ?_, ?_⟩
        · exact setLocation_self _ _ _ heid
        · exact hst1
        · intro tB htB id hid
          rw [hTempty] at hid
          exact absurd hid (List.not_mem_nil id)
    · rw [if_neg hft]
      have halc1 : l.archetypeId
          < (w.comps.archInsertion (some l) sid).1.archetypes.length :=
        lt_of_lt_of_le hal hlen1
      cases htoT : ((w.comps.archInsertion (some l) sid).1.archetypes.getD
          (w.comps.archInsertion (some l) sid).2.2 default).tableId with
      | some toT =>
        dsimp only
        have hatoT : toT < (w.comps.archInsertion (some l) sid).1.tables.length ∧
            ((w.comps.archInsertion (some l) sid).1.tables.getD toT
              default).components
              = tableComps (w.comps.archInsertion (some l) sid).1
                  ((w.comps.archInsertion (some l) sid).1.archBits
                    (w.comps.archInsertion (some l) sid).2.2) := by
          have h := hst1.2.2 _ htlt
          unfold archTableOk at h
          rw [htoT] at h
          exact h
        have ht0ok : tableOk
            ((w.comps.archInsertion (some l) sid).1.tables.getD toT default) :=
          hst1.1 _ (getD_mem _ _ _ hatoT.1)
        have hidt0 : ∀ id ∈ tableComps w.comps (w.comps.setBits sid),
            id ∈ ((w.comps.archInsertion (some l) sid).1.tables.getD toT
              default).components := by
          intro id hid
          have h2 := mem_tableComps.mp hid
          rw [hatoT.2, htbits]
          refine mem_tableComps.mpr
            ⟨⟨?_, Finset.mem_union_right _ h2.1.2⟩, ?_⟩
          · rw [hinfo1]
            exact h2.1.1
          · rw [infoOf_congr hinfo1]
            exact h2.2
        cases hfT : ((w.comps.archInsertion (some l) sid).1.archetypes.getD
            l.archetypeId default).tableId with
        | some fromT =>
          dsimp only
          have hatoF : fromT
              < (w.comps.archInsertion (some l) sid).1.tables.length ∧
              ((w.comps.archInsertion (some l) sid).1.tables.getD fromT
                default).components
                = tableComps (w.comps.archInsertion (some l) sid).1
                    ((w.comps.archInsertion (some l) sid).1.archBits
                      l.archetypeId) := by
            have h := hst1.2.2 _ halc1
            unfold archTableOk at h
            rw [hfT] at h
            exact h
          by_cases htt : fromT = toT
          · rw [if_pos htt]
            have hnoT : ∀ id0 ∈ tableComps w.comps (w.comps.setBits sid),
                False := by
              intro id0 hid0
              have h2 := mem_tableComps.mp hid0
              have hidtF : id0 ∈ ((w.comps.archInsertion (some l)
                  sid).1.tables.getD fromT default).components := by
                rw [htt]
                exact hidt0 id0 hid0
              rw [hatoF.2] at hidtF
              have h3 := mem_tableComps.mp hidtF
              rw [hbits1 l.archetypeId hal] at h3
              exact Finset.disjoint_left.mp hdisjl h3.1.2 h2.1.2
            have htcE : (w.comps.componentSetInfo.getD sid
                default).tableComponents = [] := by
              rw [hs2i.2, List.filter_eq_nil]
              intro a ha hpa
              have hstor : (w.comps.infoOf a).storage = some .table :=
                of_decide_eq_true hpa
              have hmem := mem_keyOf.mp (by rw [← hsiw.1]; exact ha)
              exact hnoT a (mem_tableComps.mpr ⟨hmem, hstor⟩)
            refine ⟨l.tableIndex,
          ?_, ?_, ?_⟩
            · exact setLocation_self _ _ _ heid
            · exact StoreWF_update_nil htcE hst1
            · intro tB htB id hid
              exact absurd (hnoT id hid) not_false
          · rw [if_neg htt]
            have hfTc : (w.comps.archetypes.getD l.archetypeId
                default).tableId = some fromT := by
              rw [← archInsertion_tableId w.comps (some l) sid
                l.archetypeId hal]
              exact hfT
            obtain ⟨i0, hti0, hibound, huniq⟩ := htabl fromT hfTc
            have hfromc : fromT < w.comps.tables.length := by
              have h := hst.2.2 l.archetypeId hal
              unfold archTableOk at h
              rw [hfTc] at h
              exact h.1
            have hftab : (w.comps.archInsertion (some l) sid).1.tables.getD
                fromT default = w.comps.tables.getD fromT default :=
              htf1 fromT hfromc
            have hfi : l.tableIndex.getD 0 = i0 := by
              rw [hti0]
              rfl
            have hfok : tableOk ((w.comps.archInsertion (some l)
                sid).1.tables.getD fromT default) :=
              hst1.1 _ (getD_mem _ _ _ hatoF.1)
            have hsub : ∀ id ∈ ((w.comps.archInsertion (some l)
                sid).1.tables.getD fromT default).components,
                id ∈ ((w.comps.archInsertion (some l) sid).1.tables.getD toT
                  default).components := by
              intro id hidf
              rw [hatoF.2] at hidf
              have h3 := mem_tableComps.mp hidf
              rw [hatoT.2, htbits]
              refine mem_tableComps.mpr ⟨⟨h3.1.1, ?_⟩, h3.2⟩
              rw [hbits1 l.archetypeId hal] at h3
              exact Finset.mem_union_left _ h3.1.2
            have hibound1 : l.tableIndex.getD 0
                < ((w.comps.archInsertion (some l) sid).1.tables.getD fromT
                  default).entities.length := by
              rw [hftab, hfi]
              exact hibound
            have hok1 : tableOk (Table.insertFrom
                ((w.comps.archInsertion (some l) sid).1.tables.getD toT default)
                ((w.comps.archInsertion (some l) sid).1.tables.getD fromT
                  default) (l.tableIndex.getD 0) v
                (w.comps.componentSetInfo.getD sid default)).1 :=
              insertFrom_to_ok _ _ _ _ ht0ok
            have hok2 : tableOk (Table.insertFrom
                ((w.comps.archInsertion (some l) sid).1.tables.getD toT default)
                ((w.comps.archInsertion (some l) sid).1.tables.getD fromT
                  default) (l.tableIndex.getD 0) v
                (w.comps.componentSetInfo.getD sid default)).2.1 :=
              insertFrom_from_ok _ _ _ _ _ ht0ok hfok hsub hibound1
            cases hsw : (Table.insertFrom
                ((w.comps.archInsertion (some l) sid).1.tables.getD toT default)
                ((w.comps.archInsertion (some l) sid).1.tables.getD fromT
                  default) (l.tableIndex.getD 0) v
                (w.comps.componentSetInfo.getD sid default)).2.2.1 with
            | some sw =>
              dsimp only
              have hsw' : (swapRemove ((w.comps.archInsertion (some l)
                  sid).1.tables.getD fromT default).entities
                  (l.tableIndex.getD 0)).get? (l.tableIndex.getD 0)
                  = some sw := hsw
              rw [hftab, hfi] at hsw'
              obtain ⟨hlast, hswval⟩ := swapRemove_get_eq _ _ hsw'
              have hswid : sw.id ≠ e.id := by
                intro hide
                have hj := huniq ((w.comps.tables.getD fromT
                    default).entities.length - 1) (by omega)
                  (by rw [← hswval]; exact hide)
                omega
              refine ⟨some (Table.insertFrom ((w.comps.archInsertion (some l) sid).1.tables.getD toT default) ((w.comps.archInsertion (some l) sid).1.tables.getD fromT default) (l.tableIndex.getD 0) v (w.comps.componentSetInfo.getD sid default)).2.2.2,
          ?_, ?_, ?_⟩
              · rw [setTableIndex_other _ _ _ _ hswid]
                exact setLocation_self _ _ _ heid
              · exact StoreWF_set2 (fun he => htt he.symm) rfl rfl hok1 hok2 hst1
              · intro tB htB id hid
                rw [htoT] at htB
                obtain rfl : toT = tB := Option.some.inj htB
                have hidin := hidt0 id hid
                obtain ⟨col, hcol, hclen⟩ := column_at ht0ok hidin
                have hspec := (insertFrom_spec
                  ((w.comps.archInsertion (some l) sid).1.tables.getD toT
                    default)
                  ((w.comps.archInsertion (some l) sid).1.tables.getD fromT
                    default) (l.tableIndex.getD 0) v
                  (w.comps.componentSetInfo.getD sid default)
                  ht0ok.2.1).2.2.2.2 id hidin
                have hfnone : alGet ((w.comps.archInsertion (some l)
                    sid).1.tables.getD fromT default).columns id = none := by
                  apply alGet_none_of_not_mem_keys
                  rw [hfok.1, hatoF.2]
                  intro hmem
                  have h3 := mem_tableComps.mp hmem
                  rw [hbits1 l.archetypeId hal] at h3
                  exact Finset.disjoint_left.mp hdisjl h3.1.2
                    (mem_tableComps.mp hid).1.2
                have hins : insVal ((w.comps.archInsertion (some l)
                    sid).1.tables.getD fromT default) v
                    (w.comps.componentSetInfo.getD sid default)
                    (l.tableIndex.getD 0) id
                    = v (offsetOf (w.comps.componentSetInfo.getD sid default)
                        id) := by
                  unfold insVal
                  rw [hfnone]
                rw [hins] at hspec
                have hval := col_append_read hspec hcol
                have hread : ((((w.comps.archInsertion (some l)
                    sid).1.tables.set toT (Table.insertFrom
                    ((w.comps.archInsertion (some l) sid).1.tables.getD toT
                      default)
                    ((w.comps.archInsertion (some l) sid).1.tables.getD fromT
                      default) (l.tableIndex.getD 0) v
                    (w.comps.componentSetInfo.getD sid default)).1).set fromT
                    (Table.insertFrom
                    ((w.comps.archInsertion (some l) sid).1.tables.getD toT
                      default)
                    ((w.comps.archInsertion (some l) sid).1.tables.getD fromT
                      default) (l.tableIndex.getD 0) v
                    (w.comps.componentSetInfo.getD sid
                      default)).2.1).getD toT default)
                    = (Table.insertFrom
                    ((w.comps.archInsertion (some l) sid).1.tables.getD toT
                      default)
                    ((w.comps.archInsertion (some l) sid).1.tables.getD fromT
                      default) (l.tableIndex.getD 0) v
                    (w.comps.componentSetInfo.getD sid default)).1 := by
                  rw [getD_set_ne _ _ _ _ _ htt, getD_set_self _ _ _ _ hatoT.1]
                rw [hread]
                have hrow : (Table.insertFrom
                    ((w.comps.archInsertion (some l) sid).1.tables.getD toT
                      default)
                    ((w.comps.archInsertion (some l) sid).1.tables.getD fromT
                      default) (l.tableIndex.getD 0) v
                    (w.comps.componentSetInfo.getD sid default)).2.2.2
                    = col.length := hclen.symm
                rw [hrow]
                exact hval
            | none =>
              dsimp only
              refine ⟨some (Table.insertFrom ((w.comps.archInsertion (some l) sid).1.tables.getD toT default) ((w.comps.archInsertion (some l) sid).1.tables.getD fromT default) (l.tableIndex.getD 0) v (w.comps.componentSetInfo.getD sid default)).2.2.2,
          ?_, ?_, ?_⟩
              · exact setLocation_self _ _ _ heid
              · exact StoreWF_set2 (fun he => htt he.symm) rfl rfl hok1 hok2 hst1
              · intro tB htB id hid
                rw [htoT] at htB
                obtain rfl : toT = tB := Option.some.inj htB
                have hidin := hidt0 id hid
                obtain ⟨col, hcol, hclen⟩ := column_at ht0ok hidin
                have hspec := (insertFrom_spec
                  ((w.comps.archInsertion (some l) sid).1.tables.getD toT
                    default)
                  ((w.comps.archInsertion (some l) sid).1.tables.getD fromT
                    default) (l.tableIndex.getD 0) v
                  (w.comps.componentSetInfo.getD sid default)
                  ht0ok.2.1).2.2.2.2 id hidin
                have hfnone : alGet ((w.comps.archInsertion (some l)
                    sid).1.tables.getD fromT default).columns id = none := by
                  apply alGet_none_of_not_mem_keys
                  rw [hfok.1, hatoF.2]
                  intro hmem
                  have h3 := mem_tableComps.mp hmem
                  rw [hbits1 l.archetypeId hal] at h3
                  exact Finset.disjoint_left.mp hdisjl h3.1.2
                    (mem_tableComps.mp hid).1.2
                have hins : insVal ((w.comps.archInsertion (some l)
                    sid).1.tables.getD fromT default) v
                    (w.comps.componentSetInfo.getD sid default)
                    (l.tableIndex.getD 0) id
                    = v (offsetOf (w.comps.componentSetInfo.getD sid default)
                        id) := by
                  unfold insVal
                  rw [hfnone]
                rw [hins] at hspec
                have hval := col_append_read hspec hcol
                have hread : ((((w.comps.archInsertion (some l)
                    sid).1.tables.set toT (Table.insertFrom
                    ((w.comps.archInsertion (some l) sid).1.tables.getD toT
                      default)
                    ((w.comps.archInsertion (some l) sid).1.tables.getD fromT
                      default) (l.tableIndex.getD 0) v
                    (w.comps.componentSetInfo.getD sid default)).1).set fromT
                    (Table.insertFrom
                    ((w.comps.archInsertion (some l) sid).1.tables.getD toT
                      default)
                    ((w.comps.archInsertion (some l) sid).1.tables.getD fromT
                      default) (l.tableIndex.getD 0) v
                    (w.comps.componentSetInfo.getD sid
                      default)).2.1).getD toT default)
                    = (Table.insertFrom
                    ((w.comps.archInsertion (some l) sid).1.tables.getD toT
                      default)
                    ((w.comps.archInsertion (some l) sid).1.tables.getD fromT
                      default) (l.tableIndex.getD 0) v
                    (w.comps.componentSetInfo.getD sid default)).1 := by
                  rw [getD_set_ne _ _ _ _ _ htt, getD_set_self _ _ _ _ hatoT.1]
                rw [hread]
                have hrow : (Table.insertFrom
                    ((w.comps.archInsertion (some l) sid).1.tables.getD toT
                      default)
                    ((w.comps.archInsertion (some l) sid).1.tables.getD fromT
                      default) (l.tableIndex.getD 0) v
                    (w.comps.componentSetInfo.getD sid default)).2.2.2
                    = col.length := hclen.symm
                rw [hrow]
                exact hval
        | none =>
          refine ⟨some (((w.comps.archInsertion (some l) sid).1.tables.getD toT default).insertRow e v (w.comps.componentSetInfo.getD sid default)).2,
          ?_, ?_, ?_⟩
          · exact setLocation_self _ _ _ heid
          · exact StoreWF_set_table rfl
              (insertRow_ok e v (w.comps.componentSetInfo.getD sid default)
                ht0ok) hst1
          · intro tB htB id hid
            rw [htoT] at htB
            obtain rfl : toT = tB := Option.some.inj htB
            have hidin := hidt0 id hid
            obtain ⟨col, hcol, hclen⟩ := column_at ht0ok hidin
            have hspec := (insertRow_spec
              ((w.comps.archInsertion (some l) sid).1.tables.getD toT default)
              e v (w.comps.componentSetInfo.getD sid default)
              ht0ok.2.1).2.2.2.2.1 id hidin
            have hval := col_append_read hspec hcol
            have hread : (((w.comps.archInsertion (some l) sid).1.tables.set
                toT (((w.comps.archInsertion (some l) sid).1.tables.getD toT
                  default).insertRow e v
                  (w.comps.componentSetInfo.getD sid default)).1).getD toT
                  default)
                = (((w.comps.archInsertion (some l) sid).1.tables.getD toT
                  default).insertRow e v
                  (w.comps.componentSetInfo.getD sid default)).1 :=
              getD_set_self _ _ _ _ hatoT.1
            rw [hread]
            have hrow : (((w.comps.archInsertion (some l) sid).1.tables.getD
                toT default).insertRow e v
                (w.comps.componentSetInfo.getD sid default)).2 = col.length :=
              hclen.symm
            rw [hrow]
            exact hval
      | none =>
        refine ⟨l.tableIndex,
          ?_, ?_, ?_⟩
        · exact setLocation_self _ _ _ heid
        · exact hst1
        · intro tB htB
          rw [htoT] at htB
          exact Option.noConfusion htB

end Fei

namespace Fei

/-- C1: for every entity and every registered component set disjoint from the
entity's current components (in particular any set not previously present on
it), inserting the set with values `v` and then immediately extracting the
same set succeeds, and the extracted write list assigns to every sized
component's byte offset exactly the inserted value at that offset
(`Extract ∘ Insert(v) = v`); ZST components carry no data.  The hypotheses
are the store's invariants: a well-formed archetype graph and set registry,
well-formed tables, storage partitions matching the registry, sparse-set
containers for all sparse components, and a valid location for the entity. -/
theorem insert_extract_roundtrip (w : World) (e : Entity) (v : Nat → Val)
    (sid : Nat) (A : Finset Nat)
    (hg : GraphWF2 w.comps) (hst : StoreWF w.comps) (hs2 : SetsWF2 w.comps)
    (hsc : SparseContWF w.comps)
    (hsid : sid < w.comps.componentSetInfo.length)
    (heid : e.id < w.ents.all.length)
    (hA : match (w.ents.all.getD e.id default).location with
          | none => A = ∅
          | some l => l.archetypeId < w.comps.archetypes.length ∧
              w.comps.archBits l.archetypeId = A ∧
              ∀ t, (w.comps.archetypes.getD l.archetypeId default).tableId
                  = some t →
                ∃ i, l.tableIndex = some i ∧
                  i < (w.comps.tables.getD t default).entities.length ∧
                  ∀ j, j < (w.comps.tables.getD t default).entities.length →
                    ((w.comps.tables.getD t default).entities.getD j
                      default).id = e.id → j = i)
    (hdisj : Disjoint A (w.comps.setBits sid)) :
    ∃ out, ((w.insertSet e v sid).extractAs e sid).1 = some out ∧
      ∀ id ∈ (w.comps.componentSetInfo.getD sid default).components,
        (w.comps.infoOf id).storage ≠ none →
        writesAt out (offsetOf (w.comps.componentSetInfo.getD sid default) id)
          = some (v (offsetOf (w.comps.componentSetInfo.getD sid default) id)) := by
  have hsiw := hg.2.2.2 _ (getD_mem w.comps.componentSetInfo sid default hsid)
  have hs2i := hs2 _ (getD_mem w.comps.componentSetInfo sid default hsid)
  have hloco : ∀ l, (w.ents.all.getD e.id default).location = some l →
      l.archetypeId < w.comps.archetypes.length ∧
      Disjoint (w.comps.archBits l.archetypeId) (w.comps.setBits sid) ∧
      ∀ t, (w.comps.archetypes.getD l.archetypeId default).tableId = some t →
        ∃ i, l.tableIndex = some i ∧
          i < (w.comps.tables.getD t default).entities.length ∧
          ∀ j, j < (w.comps.tables.getD t default).entities.length →
            ((w.comps.tables.getD t default).entities.getD j default).id
              = e.id → j = i := by
    intro l hl
    have hA' := hA
    rw [hl] at hA'
    obtain ⟨h1, h2, h3⟩ := hA'
    exact ⟨h1, by rw [h2]; exact hdisj, h3⟩
  obtain ⟨ti, hloc1, hst1, htable1⟩ :=
    insert_package w e v sid hg hst hs2 hsid heid hloco
  obtain ⟨hgA, hgK, hgS, hgI, hgSI⟩ := insertSet_graph w e v sid
  have hloc : locOk w.comps (w.ents.all.getD e.id default).location := by
    cases hl : (w.ents.all.getD e.id default).location with
    | none => exact trivial
    | some l => exact (hloco l hl).1
  obtain ⟨hg1, hinfo1, hset1, hlen1, hbits1, htlt, htbits⟩ :=
    archInsertion_wf w.comps (w.ents.all.getD e.id default).location sid hg
      hsid hloc
  obtain ⟨hst1', hsp1⟩ := archInsertion_store w.comps
    (w.ents.all.getD e.id default).location sid hst hg.2.2.2 hsid
  have hinfoW : (w.insertSet e v sid).comps.componentInfo
      = w.comps.componentInfo := by
    rw [hgI, hinfo1]
  have hsetW : (w.insertSet e v sid).comps.componentSetInfo
      = w.comps.componentSetInfo := by
    rw [hgSI, hset1]
  have hgW : GraphWF2 (w.insertSet e v sid).comps :=
    GraphWF2_congr hgA hgK hgS hgI hgSI hg1
  have hBlt : (w.comps.archInsertion (w.ents.all.getD e.id default).location
      sid).2.2 < (w.insertSet e v sid).comps.archetypes.length := by
    rw [hgA]
    exact htlt
  have hABits : (w.comps.archInsertion (w.ents.all.getD e.id default).location
      sid).1.archBits (w.comps.archInsertion
        (w.ents.all.getD e.id default).location sid).2.2
      = A ∪ w.comps.setBits sid := by
    cases hl : (w.ents.all.getD e.id default).location with
    | none =>
      obtain ⟨-, -, -, -, -, -, htbits'⟩ :=
        archInsertion_wf w.comps none sid hg hsid trivial
      have h2 : (w.comps.archInsertion none sid).1.archBits
          (w.comps.archInsertion none sid).2.2 = w.comps.setBits sid := htbits'
      have hA' := hA
      rw [hl] at hA'
      rw [h2, hA', Finset.empty_union]
    | some l =>
      obtain ⟨-, -, -, -, -, -, htbits'⟩ :=
        archInsertion_wf w.comps (some l) sid hg hsid (hloco l hl).1
      have h2 : (w.comps.archInsertion (some l) sid).1.archBits
          (w.comps.archInsertion (some l) sid).2.2
          = w.comps.archBits l.archetypeId ∪ w.comps.setBits sid := htbits'
      have hA' := hA
      rw [hl] at hA'
      rw [h2, hA'.2.1]
  have hBbitsW : (w.insertSet e v sid).comps.archBits
      (w.comps.archInsertion (w.ents.all.getD e.id default).location sid).2.2
      = A ∪ (w.insertSet e v sid).comps.setBits sid := by
    rw [archBits_congr hgA, setBits_congr hsetW]
    exact hABits
  have hdisjW : Disjoint A ((w.insertSet e v sid).comps.setBits sid) := by
    rw [setBits_congr hsetW]
    exact hdisj
  have hsidW : sid < (w.insertSet e v sid).comps.componentSetInfo.length := by
    rw [hsetW]
    exact hsid
  have hfidW : A = ∅ ∨ ∃ f, f < (w.insertSet e v sid).comps.archetypes.length ∧
      (w.insertSet e v sid).comps.archBits f = A := by
    cases hl : (w.ents.all.getD e.id default).location with
    | none =>
      have hA' := hA
      rw [hl] at hA'
      exact Or.inl hA'
    | some l =>
      have hA' := hA
      rw [hl] at hA'
      obtain ⟨-, -, -, hlen1', hbits1', -, -⟩ :=
        archInsertion_wf w.comps (some l) sid hg hsid (hloco l hl).1
      refine Or.inr ⟨l.archetypeId, ?_, ?_⟩
      · rw [hgA, hl]
        exact lt_of_lt_of_le hA'.1 hlen1'
      · rw [archBits_congr hgA, hl, hbits1' l.archetypeId hA'.1]
        exact hA'.2.1
  have hcompnd : (w.comps.componentSetInfo.getD sid default).components.Nodup := by
    rw [hsiw.1]
    exact keyOf_nodup _ _
  have hndS0 : (w.comps.componentSetInfo.getD sid
      default).sparseSetComponents.Nodup := by
    rw [hs2i.1]
    exact hcompnd.filter _
  have hsx0 : ∀ id ∈ (w.comps.componentSetInfo.getD sid
      default).sparseSetComponents,
      alGet ((alGet (w.insertSet e v sid).comps.sparseSets id).getD []) e.id
        = some (v (offsetOf (w.comps.componentSetInfo.getD sid default) id)) := by
    intro id hid
    have hstor : (w.comps.infoOf id).storage = some .sparseSet := by
      have h := hs2i.1 ▸ hid
      exact of_decide_eq_true (List.mem_filter.mp h).2
    have hbound : id < w.comps.componentInfo.length := by
      have h := hs2i.1 ▸ hid
      have hc := (List.mem_filter.mp h).1
      rw [hsiw.1] at hc
      exact (mem_keyOf.mp hc).1
    rw [insertSet_sparse]
    exact sparseInsert_get _ _ _ _ hndS0 id hid
      (by rw [hsp1]; exact hsc id hbound hstor)
  have hsxW : ∀ id ∈ ((w.insertSet e v sid).comps.componentSetInfo.getD sid
      default).sparseSetComponents,
      alGet ((alGet (w.insertSet e v sid).comps.sparseSets id).getD []) e.id
        = some (v (offsetOf ((w.insertSet e v sid).comps.componentSetInfo.getD
            sid default) id)) := by
    rw [hsetW]
    exact hsx0
  have hndSW : ((w.insertSet e v sid).comps.componentSetInfo.getD sid
      default).sparseSetComponents.Nodup := by
    rw [hsetW]
    exact hndS0
  have hpartW : ((w.insertSet e v sid).comps.componentSetInfo.getD sid
      default).sparseSetComponents
      = ((w.insertSet e v sid).comps.componentSetInfo.getD sid
          default).components.filter
        fun id => ((w.insertSet e v sid).comps.infoOf id).storage
          = some .sparseSet := by
    rw [hsetW, infoOf_congr hinfoW]
    exact hs2i.1
  have htableW : ∀ tB, ((w.insertSet e v sid).comps.archetypes.getD
      (w.comps.archInsertion (w.ents.all.getD e.id default).location sid).2.2
        default).tableId = some tB →
      ∀ id ∈ tableComps (w.insertSet e v sid).comps
        ((w.insertSet e v sid).comps.setBits sid),
      ((alGet ((w.insertSet e v sid).comps.tables.getD tB default).columns
          id).getD []).getD (ti.getD 0) 0
        = v (offsetOf ((w.insertSet e v sid).comps.componentSetInfo.getD sid
            default) id) := by
    intro tB htB id hid
    rw [setBits_congr hsetW, tableComps_congr hinfoW] at hid
    rw [hsetW]
    exact htable1 tB htB id hid
  obtain ⟨hex1, hex2⟩ := extract_after (w.insertSet e v sid) e v sid A hgW hst1
    hsidW _ ti hloc1 hBlt hBbitsW hdisjW hfidW hpartW hsxW hndSW htableW
  refine ⟨((w.insertSet e v sid).extractSet e sid).2.1, ?_, ?_⟩
  · show (if ((w.insertSet e v sid).extractSet e sid).1 then
      some ((w.insertSet e v sid).extractSet e sid).2.1 else none)
      = some ((w.insertSet e v sid).extractSet e sid).2.1
    rw [hex1]
    rfl
  · intro id hidc hstor
    have h := hex2 id (by rw [hsetW]; exact hidc)
      (by rw [infoOf_congr hinfoW]; exact hstor)
    rw [hsetW] at h
    exact h

end Fei

namespace Fei

/-- A world with one table component (id 0, byte offset 0), one sparse-set
component (id 1, offset 8) and one ZST (id 2, offset 16), one registered set
over all three, and a single spawned entity that has no components yet. -/
def roundWorld : World :=
  ⟨⟨[(2, ∅)], [(1, [])], [], [], [], [], [],
    [⟨some .table⟩, ⟨some .sparseSet⟩, ⟨none⟩],
    [⟨[0, 1, 2], {0, 1, 2}, [(0, 0), (1, 8), (2, 16)], [1], [2], [0]⟩]⟩,
   ⟨0, [⟨0, none⟩], []⟩⟩

theorem insert_extract_roundtrip_witness :
    ∃ out, ((roundWorld.insertSet ⟨0, 0⟩ (fun off => 100 + off) 0).extractAs
        ⟨0, 0⟩ 0).1 = some out ∧
      ∀ id ∈ (roundWorld.comps.componentSetInfo.getD 0 default).components,
        (roundWorld.comps.infoOf id).storage ≠ none →
        writesAt out
            (offsetOf (roundWorld.comps.componentSetInfo.getD 0 default) id)
          = some ((fun off => 100 + off)
              (offsetOf (roundWorld.comps.componentSetInfo.getD 0 default)
                id)) :=
  insert_extract_roundtrip roundWorld ⟨0, 0⟩ (fun off => 100 + off) 0 ∅
    (by decide) (by decide) (by decide) (by decide) (by decide) (by decide)
    rfl (by decide)

end Fei
